import Mathlib

/-!
Construction of the Aho-Corasick 4-ary tree for a uniform-length DNA dictionary.

A shallow embedding of `src/match_ULdna.c` (the buffer of duplicates, the node
buffer, `ACnodebuf_tryMovingToChild`, `ACnodebuf_addPattern`, `ULdna_init`).

Modelling conventions.

* The C file keeps its state in static variables.  Here they are the fields of
  `State`, passed in and returned explicitly.
* `int` values (node ids, pattern ids, base codes, capacities) are `Int`; the
  sentinel is `-1` as in the source.  Arithmetic overflow of `int` is not
  modelled (it needs more than 2^31 nodes or patterns).
* A `char` is the `Int` it is promoted to when compared with or stored into
  `ACnodebuf_base_codes` (so `-128..127` where `char` is signed).
* A `Pattern` `(P, nP)` is the list of its `nP` chars; `nP` is the length of
  the list.
* A buffer is the list of its first `count` elements, `count` being the length
  of the list; the capacity `maxcount` is kept as a field.  `Srealloc` (the
  `S_realloc` of R) returns, whenever it grows a buffer, a new block that holds
  a copy of the stored elements; the old block stays allocated until the end of
  the call from R (transient storage) and is no longer the buffer.
* A pointer into the node buffer, `node` or `&(node->ac_nodeK_id)`, is the pair
  of the node index and the field index, in the block it was taken from.  The
  only pointer that is used after the buffer may have grown is the argument
  `ac_node_id` of `ACnodebuf_tryMovingToChild`; see there.
* `error(...)` is an `Except` error; the three messages are the three
  constructors of `Err`.
-/

namespace ULdna

/-- The three `error(...)` calls of `ACnodebuf_addPattern`. -/
inductive Err where
  /-- Message "dictionary contains empty patterns". -/
  | emptyPatterns
  /-- Message "all patterns in dictionary must have the same length". -/
  | lengthMismatch
  /-- Message "dictionary contains more than 4 distinct letters". -/
  | moreThan4Letters
deriving DecidableEq, Repr

/-- The chars of a pattern; `nP` is the length of the list. -/
abbrev Pattern := List Int

/-- One line of the buffer of duplicates (`struct dupsbuf_line`): `vals` holds
the first `count` values, `count` is `vals.length`. -/
structure DupsBufLine where
  vals : List Int
  maxcount : Int
deriving DecidableEq, Repr

/-- The field `count` of a line. -/
def DupsBufLine.count (line : DupsBufLine) : Int := line.vals.length

/-- A node of the tree (`struct ac_node`). -/
structure ACNode where
  ac_node1_id : Int
  ac_node2_id : Int
  ac_node3_id : Int
  ac_node4_id : Int
  flink : Int
  P_id : Int
deriving DecidableEq, Repr

/-- The static variables of the file.  `dupsbuf_count` and `ACnodebuf_count`
are the lengths of `dupsbuf` and `ACnodebuf`. -/
structure State where
  dupsbuf : List DupsBufLine
  dupsbuf_maxcount : Int
  ACnodebuf : List ACNode
  ACnodebuf_maxcount : Int
  ACnodebuf_pattern_length : Int
  ACnodebuf_base_codes : List Int
deriving DecidableEq, Repr

/-- The variable `dupsbuf_count`. -/
def State.dupsbuf_count (s : State) : Int := s.dupsbuf.length

/-- The variable `ACnodebuf_count`. -/
def State.ACnodebuf_count (s : State) : Int := s.ACnodebuf.length

/-- Function `dupsbuf_reset`. -/
def dupsbuf_reset (s : State) : State :=
  { s with dupsbuf := [], dupsbuf_maxcount := 0 }

/-- Function `dupsbuf_appendtoline`: the line after the call and the returned
value, which is `line->count` after the increment. -/
def dupsbuf_appendtoline (line : DupsBufLine) (P_id : Int) : DupsBufLine × Int :=
  let line1 : DupsBufLine :=
    if line.count ≥ line.maxcount then
      { line with maxcount := if line.maxcount = 0 then 1000 else 2 * line.maxcount }
    else line
  ({ line1 with vals := line1.vals ++ [P_id] }, line1.count + 1)

/-- The scan loop of `dupsbuf_append`: the first line with `vals[0] == P_id1`
gets `P_id2` appended; `none` when the loop ends without finding one. -/
def dupsbuf_scan (P_id1 P_id2 : Int) : List DupsBufLine → Option (List DupsBufLine × Int)
  | [] => none
  | line :: rest =>
    if line.vals.head? = some P_id1 then
      some ((dupsbuf_appendtoline line P_id2).1 :: rest, (dupsbuf_appendtoline line P_id2).2)
    else
      match dupsbuf_scan P_id1 P_id2 rest with
      | some (rest1, r) => some (line :: rest1, r)
      | none => none

/-- Function `dupsbuf_append`. -/
def dupsbuf_append (s : State) (P_id1 P_id2 : Int) : State × Int :=
  match dupsbuf_scan P_id1 P_id2 s.dupsbuf with
  | some (lines, r) => ({ s with dupsbuf := lines }, r)
  | none =>
    let s1 : State :=
      if s.dupsbuf_count ≥ s.dupsbuf_maxcount then
        { s with dupsbuf_maxcount := if s.dupsbuf_maxcount = 0 then 1000 else 2 * s.dupsbuf_maxcount }
      else s
    let line0 : DupsBufLine := { vals := [], maxcount := 0 }
    let line1 := (dupsbuf_appendtoline line0 P_id1).1
    let r := dupsbuf_appendtoline line1 P_id2
    ({ s1 with dupsbuf := s1.dupsbuf ++ [r.1] }, r.2)

/-- Function `ACnodebuf_reset`. -/
def ACnodebuf_reset (s : State) : State :=
  { s with ACnodebuf := [], ACnodebuf_maxcount := 0, ACnodebuf_pattern_length := -1,
           ACnodebuf_base_codes := [-1, -1, -1, -1] }

/-- The node written by `ACnodebuf_newNode`: every field is `-1`. -/
def ACNode.fresh : ACNode :=
  { ac_node1_id := -1, ac_node2_id := -1, ac_node3_id := -1, ac_node4_id := -1,
    flink := -1, P_id := -1 }

/-- Function `ACnodebuf_newNode`: the state after the call and the returned id
(the value of `ACnodebuf_count` before the increment). -/
def ACnodebuf_newNode (s : State) : State × Int :=
  let s1 : State :=
    if s.ACnodebuf_count ≥ s.ACnodebuf_maxcount then
      { s with ACnodebuf_maxcount :=
          if s.ACnodebuf_maxcount = 0 then 50000 else 2 * s.ACnodebuf_maxcount }
    else s
  ({ s1 with ACnodebuf := s1.ACnodebuf ++ [ACNode.fresh] }, s1.ACnodebuf_count)

/-- Read of the child link `ac_node<fld+1>_id` of a node. -/
def ACNode.getLink (nd : ACNode) (fld : Nat) : Int :=
  match fld with
  | 0 => nd.ac_node1_id
  | 1 => nd.ac_node2_id
  | 2 => nd.ac_node3_id
  | _ => nd.ac_node4_id

/-- Write of the child link `ac_node<fld+1>_id` of a node. -/
def ACNode.setLink (nd : ACNode) (fld : Nat) (v : Int) : ACNode :=
  match fld with
  | 0 => { nd with ac_node1_id := v }
  | 1 => { nd with ac_node2_id := v }
  | 2 => { nd with ac_node3_id := v }
  | _ => { nd with ac_node4_id := v }

/-- The node `ACnodebuf[i]` (a node of `-1`s stands for a read outside the
buffer, which the builder never does). -/
def State.node (s : State) (i : Nat) : ACNode := s.ACnodebuf[i]?.getD ACNode.fresh

/-- Function `ACnodebuf_tryMovingToChild`.  The pointer `ac_node_id` is the
field `fld` of node `node`, taken in the block the buffer had when the caller
computed it; the result is the index of the child, or `none` for `NULL`.

In `*ac_node_id = ACnodebuf_newNode()` the write goes to the address the
caller passed.  When `ACnodebuf_newNode` grows the buffer (`ACnodebuf_count >=
ACnodebuf_maxcount`), `Srealloc` has copied the nodes to a new block before the
write, so the write changes the old block only: the node `node` of the buffer
keeps its link `-1`.  The id read back through `*ac_node_id` is the one just
written in either case. -/
def ACnodebuf_tryMovingToChild (s : State) (c : Int) (childslot : Nat) (node fld : Nat) :
    State × Option Nat :=
  let bound : Option State :=
    if s.ACnodebuf_base_codes[childslot]?.getD 0 = -1 then
      some { s with ACnodebuf_base_codes := s.ACnodebuf_base_codes.set childslot c }
    else if c ≠ s.ACnodebuf_base_codes[childslot]?.getD 0 then none
    else some s
  match bound with
  | none => (s, none)
  | some s1 =>
    if (s1.node node).getLink fld = -1 then
      let r := ACnodebuf_newNode s1
      if s1.ACnodebuf_count ≥ s1.ACnodebuf_maxcount then (r.1, some r.2.toNat)
      else
        ({ r.1 with ACnodebuf := r.1.ACnodebuf.set node ((r.1.node node).setLink fld r.2) },
          some r.2.toNat)
    else (s1, some ((s1.node node).getLink fld).toNat)

/-- One iteration of the loop of `ACnodebuf_addPattern`: the four attempts on
`P[n]`, slots 0 to 3 in turn. -/
def ACnodebuf_addPattern_step (s : State) (node : Nat) (c : Int) : Except Err (State × Nat) :=
  match ACnodebuf_tryMovingToChild s c 0 node 0 with
  | (s1, some child) => .ok (s1, child)
  | (s1, none) =>
    match ACnodebuf_tryMovingToChild s1 c 1 node 1 with
    | (s2, some child) => .ok (s2, child)
    | (s2, none) =>
      match ACnodebuf_tryMovingToChild s2 c 2 node 2 with
      | (s3, some child) => .ok (s3, child)
      | (s3, none) =>
        match ACnodebuf_tryMovingToChild s3 c 3 node 3 with
        | (s4, some child) => .ok (s4, child)
        | (_, none) => .error Err.moreThan4Letters

/-- The loop of `ACnodebuf_addPattern` on the chars still to read, from the
node `node`: the state and the node reached. -/
def ACnodebuf_addPattern_loop (s : State) (node : Nat) : List Int → Except Err (State × Nat)
  | [] => .ok (s, node)
  | c :: rest =>
    match ACnodebuf_addPattern_step s node c with
    | .ok (s1, child) => ACnodebuf_addPattern_loop s1 child rest
    | .error e => .error e

/-- Write of `node->P_id`. -/
def State.setP_id (s : State) (node : Nat) (P_id : Int) : State :=
  { s with ACnodebuf := s.ACnodebuf.set node { s.node node with P_id := P_id } }

/-- Function `ACnodebuf_addPattern`. -/
def ACnodebuf_addPattern (s : State) (P : Pattern) (P_id : Int) : Except Err State :=
  let nP : Int := P.length
  let checked : Except Err State :=
    if s.ACnodebuf_pattern_length = -1 then
      if nP = 0 then .error Err.emptyPatterns
      else .ok { s with ACnodebuf_pattern_length := nP }
    else
      if nP ≠ s.ACnodebuf_pattern_length then .error Err.lengthMismatch
      else .ok s
  match checked with
  | .error e => .error e
  | .ok s1 =>
    match ACnodebuf_addPattern_loop s1 0 P with
    | .error e => .error e
    | .ok (s2, node) =>
      if (s2.node node).P_id = -1 then .ok (s2.setP_id node P_id)
      else .ok (dupsbuf_append s2 (s2.node node).P_id P_id).1

/-- The loop of `ULdna_init`: the patterns still to add, `i` being the number
of patterns already added. -/
def ULdna_init_loop (s : State) (i : Nat) : List Pattern → Except Err State
  | [] => .ok s
  | p :: rest =>
    match ACnodebuf_addPattern s p ((i : Int) + 1) with
    | .ok s1 => ULdna_init_loop s1 (i + 1) rest
    | .error e => .error e

/-- Function `ULdna_init`, from the static variables `g` left by earlier code. -/
def ULdna_init (g : State) (patterns : List Pattern) : Except Err State :=
  ULdna_init_loop (ACnodebuf_newNode (ACnodebuf_reset (dupsbuf_reset g))).1 0 patterns

/-! ## Definitions used to state and prove the properties -/

/-- The first of the slots 0 to 3 that is unassigned or bound to `c`: the slot
at which the four attempts of one loop iteration stop. -/
def slotFor (bc : List Int) (c : Int) : Option Nat :=
  (List.range 4).find? (fun k => decide (bc[k]?.getD 0 = -1 ∨ bc[k]?.getD 0 = c))

/-- Moving from `node` through its link `k`, creating the child when the link
is `-1`; the link is written in the buffer unless the creation has grown the
buffer. -/
def descend (s : State) (node k : Nat) : State × Nat :=
  if (s.node node).getLink k = -1 then
    ({ s with
        ACnodebuf :=
          if s.ACnodebuf_count ≥ s.ACnodebuf_maxcount then s.ACnodebuf ++ [ACNode.fresh]
          else (s.ACnodebuf ++ [ACNode.fresh]).set node
            ((s.node node).setLink k s.ACnodebuf.length),
        ACnodebuf_maxcount :=
          if s.ACnodebuf_count ≥ s.ACnodebuf_maxcount then
            (if s.ACnodebuf_maxcount = 0 then 50000 else 2 * s.ACnodebuf_maxcount)
          else s.ACnodebuf_maxcount },
      s.ACnodebuf.length)
  else (s, ((s.node node).getLink k).toNat)

/-- The first of the slots 0 to 3 whose base code is `c`. -/
def slotOf (bc : List Int) (c : Int) : Option Nat :=
  (List.range 4).find? (fun k => decide (bc[k]?.getD 0 = c))

/-- Reading a char sequence in a finished tree, without changing it: from
`node`, each char follows the child link of the slot whose base code is that
char; `none` when a char has no slot or the link is `-1`. -/
def walk (s : State) : Nat → List Int → Option Nat
  | node, [] => some node
  | node, c :: rest =>
    match slotOf s.ACnodebuf_base_codes c with
    | none => none
    | some k =>
      if (s.node node).getLink k = -1 then none
      else walk s ((s.node node).getLink k).toNat rest

/-- A list of at most 4 codes as the 4-slot table: padded on the right with
the sentinel `-1`. -/
def pad (F : List Int) : List Int := (F ++ List.replicate 4 (-1)).take 4

/-- The effect of one char on the list of assigned codes: a char already in
the list, or the sentinel value while a slot is free, leaves it as it is; a new
char takes the next slot; `none` when all 4 slots are taken by other chars. -/
def alphaStep (F : List Int) (c : Int) : Option (List Int) :=
  if c ∈ F then some F
  else if F.length < 4 then some (if c = -1 then F else F ++ [c])
  else none

/-- The effect of a sequence of chars on the list of assigned codes. -/
def alphaRun (F : List Int) : List Int → Option (List Int)
  | [] => some F
  | c :: rest =>
    match alphaStep F c with
    | none => none
    | some F1 => alphaRun F1 rest

/-- The distinct elements of a list in order of first occurrence, after those
of `acc`. -/
def firstOcc (acc : List Int) : List Int → List Int
  | [] => acc
  | c :: rest => if c ∈ acc then firstOcc acc rest else firstOcc (acc ++ [c]) rest

/-- A list of assigned codes: pairwise distinct, without the sentinel, at most
4 of them. -/
structure GoodF (F : List Int) : Prop where
  nodup : F.Nodup
  nosent : (-1 : Int) ∉ F
  len : F.length ≤ 4

/-- Every child link is `-1` or the index of a node of the buffer, and the
buffer has its root. -/
def LinksIn (s : State) : Prop :=
  0 < s.ACnodebuf.length ∧
    ∀ (i k : Nat), k < 4 → (s.node i).getLink k ≠ -1 →
      ∃ j : Nat, (s.node i).getLink k = (j : Int) ∧ j < s.ACnodebuf.length

/-- What one loop iteration does to the state, when the char finds a slot. -/
structure StepFacts (s : State) (n : Nat) (c : Int) (F' : List Int) (k : Nat)
    (s1 : State) (ch : Nat) : Prop where
  hk : k < 4
  codes : s1.ACnodebuf_base_codes = pad F'
  bound : c ≠ -1 → F'[k]? = some c
  plen : s1.ACnodebuf_pattern_length = s.ACnodebuf_pattern_length
  dups : s1.dupsbuf = s.dupsbuf
  dmax : s1.dupsbuf_maxcount = s.dupsbuf_maxcount
  count : s1.ACnodebuf.length =
    if (s.node n).getLink k = -1 then s.ACnodebuf.length + 1 else s.ACnodebuf.length
  child : (ch : Int) =
    if (s.node n).getLink k = -1 then (s.ACnodebuf.length : Int) else (s.node n).getLink k
  nodes : ∀ i, s1.node i =
    if ((s.node n).getLink k = -1 ∧ i = n) ∧ s.ACnodebuf_count < s.ACnodebuf_maxcount then
      (s.node n).setLink k s.ACnodebuf.length
    else s.node i
  amax : s1.ACnodebuf_maxcount =
    if (s.node n).getLink k = -1 ∧ s.ACnodebuf_count ≥ s.ACnodebuf_maxcount then
      (if s.ACnodebuf_maxcount = 0 then 50000 else 2 * s.ACnodebuf_maxcount)
    else s.ACnodebuf_maxcount

/-- A node is the last of the buffer and has no child. -/
def LastFresh (s : State) (n : Nat) : Prop :=
  n + 1 = s.ACnodebuf.length ∧ ∀ k, k < 4 → (s.node n).getLink k = -1

/-- What the loop of `ACnodebuf_addPattern` leaves unchanged or bounded, whatever
the chars are. -/
structure LoopCtl (s : State) (n : Nat) (P : List Int) (F' : List Int)
    (s1 : State) (t : Nat) : Prop where
  links : LinksIn s1
  node : t < s1.ACnodebuf.length
  good : GoodF F'
  codes : s1.ACnodebuf_base_codes = pad F'
  plen : s1.ACnodebuf_pattern_length = s.ACnodebuf_pattern_length
  dups : s1.dupsbuf = s.dupsbuf
  dmax : s1.dupsbuf_maxcount = s.dupsbuf_maxcount
  lower : s.ACnodebuf.length ≤ s1.ACnodebuf.length
  upper : s1.ACnodebuf.length ≤ s.ACnodebuf.length + P.length
  fresh : LastFresh s n → s1.ACnodebuf.length = s.ACnodebuf.length + P.length
  amax : (s1.ACnodebuf.length : Int) ≤ s.ACnodebuf_maxcount →
    s1.ACnodebuf_maxcount = s.ACnodebuf_maxcount
  last : LastFresh s n → LastFresh s1 t

/-- The length check and the alphabet of `ACnodebuf_addPattern`, on the pattern
length and the list of assigned codes alone: the error raised, or the two
after the call. -/
def addCtl (plen : Int) (F : List Int) (P : Pattern) : Except Err (Int × List Int) :=
  if plen = -1 ∧ (P.length : Int) = 0 then .error Err.emptyPatterns
  else if plen ≠ -1 ∧ (P.length : Int) ≠ plen then .error Err.lengthMismatch
  else
    match alphaRun F P with
    | none => .error Err.moreThan4Letters
    | some F1 => .ok ((P.length : Int), F1)

/-- The same for the loop of `ULdna_init`. -/
def initCtl (plen : Int) (F : List Int) : List Pattern → Except Err (Int × List Int)
  | [] => .ok (plen, F)
  | P :: rest =>
    match addCtl plen F P with
    | .error e => .error e
    | .ok (plen1, F1) => initCtl plen1 F1 rest

/-- What a successful `ACnodebuf_addPattern` or run of them leaves bounded:
`len` is the number of chars read. -/
structure AddCtl (s : State) (len : Nat) (plen : Int) (F' : List Int) (s1 : State) : Prop where
  links : LinksIn s1
  good : GoodF F'
  codes : s1.ACnodebuf_base_codes = pad F'
  plen : s1.ACnodebuf_pattern_length = plen
  lower : s.ACnodebuf.length ≤ s1.ACnodebuf.length
  upper : s1.ACnodebuf.length ≤ s.ACnodebuf.length + len
  amax : (s1.ACnodebuf.length : Int) ≤ s.ACnodebuf_maxcount →
    s1.ACnodebuf_maxcount = s.ACnodebuf_maxcount

/-- From `s` to `s1` the node buffer has not lost a node, and while the nodes
of `s1` fit in the capacity of `s` the buffer has not been grown. -/
def Grow (s s1 : State) : Prop :=
  s.ACnodebuf.length ≤ s1.ACnodebuf.length ∧
  ((s1.ACnodebuf.length : Int) ≤ s.ACnodebuf_maxcount →
    s1.ACnodebuf_maxcount = s.ACnodebuf_maxcount)

/-- The state in which `ULdna_init` starts its loop: both buffers reset and the
root created. -/
def rootState : State :=
  { dupsbuf := [], dupsbuf_maxcount := 0, ACnodebuf := [ACNode.fresh],
    ACnodebuf_maxcount := 50000, ACnodebuf_pattern_length := -1,
    ACnodebuf_base_codes := [-1, -1, -1, -1] }

/-- The static variables of the C file before any call: all zero. -/
def zeroStatics : State :=
  { dupsbuf := [], dupsbuf_maxcount := 0, ACnodebuf := [], ACnodebuf_maxcount := 0,
    ACnodebuf_pattern_length := 0, ACnodebuf_base_codes := [0, 0, 0, 0] }

/-- The tree read through labels: `lab i` is the char sequence that leads from
the root to node `i`; a link through slot `k` adds the code of slot `k`. -/
structure TInv (s : State) (F : List Int) (lab : Nat → List Int) : Prop where
  links : LinksIn s
  good : GoodF F
  codes : s.ACnodebuf_base_codes = pad F
  label : ∀ (i k : Nat), k < 4 → (s.node i).getLink k ≠ -1 →
    ∃ c, F[k]? = some c ∧ lab ((s.node i).getLink k).toNat = lab i ++ [c]

/-- The later state keeps the links, the assigned codes and the pattern ids of
the earlier one. -/
structure Ext (s s1 : State) (F F1 : List Int) : Prop where
  nodes : ∀ (i k : Nat), k < 4 → (s.node i).getLink k ≠ -1 →
    (s1.node i).getLink k = (s.node i).getLink k
  codes : ∀ (j : Nat) (x : Int), F[j]? = some x → F1[j]? = some x
  pid : ∀ i, (s1.node i).P_id = (s.node i).P_id
  count : s.ACnodebuf.length ≤ s1.ACnodebuf.length

/-- What the loop of `ACnodebuf_addPattern` does to the tree when it reads the
chars `P` from node `n` and ends at node `t`. -/
structure LoopTrie (s : State) (n : Nat) (P : List Int) (F : List Int) (lab : Nat → List Int)
    (s1 : State) (t : Nat) (F1 : List Int) (lab1 : Nat → List Int) : Prop where
  run : alphaRun F P = some F1
  tinv : TInv s1 F1 lab1
  ext : Ext s s1 F F1
  labs : ∀ i, i < s.ACnodebuf.length → lab1 i = lab i
  reach : walk s1 n P = some t
  dups : s1.dupsbuf = s.dupsbuf
  plen : s1.ACnodebuf_pattern_length = s.ACnodebuf_pattern_length

/-- The first value of a line of the buffer of duplicates, `vals[0]`. -/
def DupsBufLine.first (line : DupsBufLine) : Option Int := line.vals.head?

/-- The first position (from 0) of the pattern `P` in a dictionary, or the
length of the dictionary when `P` is not in it. -/
def firstIdx (P : Pattern) : List Pattern → Nat
  | [] => 0
  | Q :: rest => if Q = P then 0 else firstIdx P rest + 1

/-- The state after the patterns `ds` have been added, in this order, with the
ids 1, 2, ...: a node holds a pattern id exactly when its label is one of the
patterns, the id being the first position of that pattern; and each later
position of a pattern is in a line of duplicates that starts with the first. -/
structure DInv (s : State) (F : List Int) (lab : Nat → List Int) (ds : List Pattern) : Prop where
  tinv : TInv s F lab
  root : lab 0 = []
  sound : ∀ t, (s.node t).P_id ≠ -1 →
    lab t ∈ ds ∧ (s.node t).P_id = ((firstIdx (lab t) ds : Nat) : Int) + 1
  complete : ∀ P, P ∈ ds → ∃ t, walk s 0 P = some t ∧ (s.node t).P_id ≠ -1
  heads : (s.dupsbuf.map DupsBufLine.first).Nodup
  dups : ∀ (k : Nat) (P : Pattern), ds[k]? = some P → firstIdx P ds ≠ k →
    ∃ line, line ∈ s.dupsbuf ∧ line.first = some (((firstIdx P ds : Nat) : Int) + 1) ∧
      ((k : Int) + 1) ∈ line.vals

/-- The state `ULdna_init` returns on the dictionary AC, AG, AC: the root, the
node of A, the nodes of AC and AG, and the line of duplicates 1, 3. -/
def scenarioState : State :=
  { dupsbuf := [{ vals := [1, 3], maxcount := 1000 }],
    dupsbuf_maxcount := 1000,
    ACnodebuf :=
      [{ ac_node1_id := 1, ac_node2_id := -1, ac_node3_id := -1, ac_node4_id := -1,
         flink := -1, P_id := -1 },
       { ac_node1_id := -1, ac_node2_id := 2, ac_node3_id := 3, ac_node4_id := -1,
         flink := -1, P_id := -1 },
       { ac_node1_id := -1, ac_node2_id := -1, ac_node3_id := -1, ac_node4_id := -1,
         flink := -1, P_id := 1 },
       { ac_node1_id := -1, ac_node2_id := -1, ac_node3_id := -1, ac_node4_id := -1,
         flink := -1, P_id := 2 }],
    ACnodebuf_maxcount := 50000,
    ACnodebuf_pattern_length := 2,
    ACnodebuf_base_codes := [65, 67, 71, -1] }

/-- One iteration of the loop of `ACnodebuf_addPattern`, with the static
variables as they are when the iteration ends, also when it ends in
`error(...)`: the child, or `none` for the alphabet error. -/
def ACnodebuf_addPattern_step_exit (s : State) (node : Nat) (c : Int) : State × Option Nat :=
  match ACnodebuf_tryMovingToChild s c 0 node 0 with
  | (s1, some child) => (s1, some child)
  | (s1, none) =>
    match ACnodebuf_tryMovingToChild s1 c 1 node 1 with
    | (s2, some child) => (s2, some child)
    | (s2, none) =>
      match ACnodebuf_tryMovingToChild s2 c 2 node 2 with
      | (s3, some child) => (s3, some child)
      | (s3, none) =>
        match ACnodebuf_tryMovingToChild s3 c 3 node 3 with
        | (s4, some child) => (s4, some child)
        | (s4, none) => (s4, none)

/-- The loop of `ACnodebuf_addPattern`, with the static variables as they are
when the loop ends, also when it ends in `error(...)`. -/
def ACnodebuf_addPattern_loop_exit (s : State) (node : Nat) : List Int → State × Option Nat
  | [] => (s, some node)
  | c :: rest =>
    match ACnodebuf_addPattern_step_exit s node c with
    | (s1, some child) => ACnodebuf_addPattern_loop_exit s1 child rest
    | (s1, none) => (s1, none)

/-- Function `ACnodebuf_addPattern`, with the static variables as they are when
the call ends: `none` for a normal return, the error for `error(...)`, which
leaves the variables as they are at that point. -/
def ACnodebuf_addPattern_exit (s : State) (P : Pattern) (P_id : Int) : State × Option Err :=
  let nP : Int := P.length
  let checked : State × Option Err :=
    if s.ACnodebuf_pattern_length = -1 then
      if nP = 0 then (s, some Err.emptyPatterns)
      else ({ s with ACnodebuf_pattern_length := nP }, none)
    else
      if nP ≠ s.ACnodebuf_pattern_length then (s, some Err.lengthMismatch)
      else (s, none)
  match checked with
  | (s1, some e) => (s1, some e)
  | (s1, none) =>
    match ACnodebuf_addPattern_loop_exit s1 0 P with
    | (s2, none) => (s2, some Err.moreThan4Letters)
    | (s2, some node) =>
      if (s2.node node).P_id = -1 then (s2.setP_id node P_id, none)
      else ((dupsbuf_append s2 (s2.node node).P_id P_id).1, none)

/-- The states that come after a state in the builder: after any further call
of `ACnodebuf_tryMovingToChild`, any write of a pattern id, any call of
`dupsbuf_append`, and any successful call of `ACnodebuf_addPattern`. -/
inductive Later : State → State → Prop where
  | refl (s : State) : Later s s
  | tryMove {s s1 : State} (c : Int) (k node fld : Nat) :
      Later s s1 → Later s (ACnodebuf_tryMovingToChild s1 c k node fld).1
  | setP_id {s s1 : State} (node : Nat) (v : Int) : Later s s1 → Later s (s1.setP_id node v)
  | dup {s s1 : State} (a b : Int) : Later s s1 → Later s (dupsbuf_append s1 a b).1
  | add {s s1 s2 : State} (P : Pattern) (P_id : Int) :
      Later s s1 → ACnodebuf_addPattern s1 P P_id = .ok s2 → Later s s2

/-- The child links form a tree rooted at node 0: a link of node `i` goes to a
node `j` of the buffer with `i < j`, every node but node 0 has a link to it,
and no two links go to the same node. -/
structure TreeInv (s : State) : Prop where
  up : ∀ (i k : Nat), k < 4 → (s.node i).getLink k ≠ -1 →
    ∃ j : Nat, (s.node i).getLink k = (j : Int) ∧ i < j ∧ j < s.ACnodebuf.length
  parent : ∀ j : Nat, 0 < j → j < s.ACnodebuf.length →
    ∃ i k, k < 4 ∧ (s.node i).getLink k = (j : Int)
  inj : ∀ (i k i1 k1 : Nat), k < 4 → k1 < 4 → (s.node i).getLink k ≠ -1 →
    (s.node i).getLink k = (s.node i1).getLink k1 → i = i1 ∧ k = k1
  root : 0 < s.ACnodebuf.length

/-- The states of the builder: the one `ULdna_init` has after it has created the
root, and those after every successful `ACnodebuf_addPattern` that follows. -/
inductive Reach : State → Prop where
  | root (g : State) : Reach (ACnodebuf_newNode (ACnodebuf_reset (dupsbuf_reset g))).1
  | add {s s1 : State} (P : Pattern) (P_id : Int) :
      Reach s → ACnodebuf_addPattern s P P_id = .ok s1 → Reach s1

/-- Every child link goes to a node of the buffer with a larger index, and the
buffer has its root. -/
def UpLinks (s : State) : Prop :=
  0 < s.ACnodebuf.length ∧
    ∀ (i k : Nat), k < 4 → (s.node i).getLink k ≠ -1 →
      ∃ j : Nat, (s.node i).getLink k = (j : Int) ∧ i < j ∧ j < s.ACnodebuf.length

/-- What holds in every state of the builder: links go to larger indices, the
root has no pattern id, the fixed length, the table of base codes; and while
the buffer has at most the 50000 nodes of its first capacity, it has that
capacity and the child links form a tree. -/
structure RInv (s : State) : Prop where
  up : UpLinks s
  rootId : (s.node 0).P_id = -1
  plen : s.ACnodebuf_pattern_length = -1 ∨ 1 ≤ s.ACnodebuf_pattern_length
  codes : ∃ F, GoodF F ∧ s.ACnodebuf_base_codes = pad F
  tree : (s.ACnodebuf.length : Int) ≤ 50000 → TreeInv s ∧ s.ACnodebuf_maxcount = 50000

/-- Node `t` is at depth `m` from node 0: it is reached from node 0 through `m`
child links. -/
inductive AtDepth (s : State) : Nat → Nat → Prop where
  | root : AtDepth s 0 0
  | child {i m : Nat} (k : Nat) : AtDepth s i m → k < 4 → (s.node i).getLink k ≠ -1 →
      AtDepth s ((s.node i).getLink k).toNat (m + 1)

/-- A node below depth `L` has a child and no pattern id; a node at depth `L`
has a pattern id and no child. -/
def Settled (s : State) (L : Nat) (dep : Nat → Nat) (t : Nat) : Prop :=
  (dep t < L → (∃ k, k < 4 ∧ (s.node t).getLink k ≠ -1) ∧ (s.node t).P_id = -1) ∧
  (dep t = L → (∀ k, k < 4 → (s.node t).getLink k = -1) ∧ (s.node t).P_id ≠ -1)

/-- The depths of the nodes while a pattern of length `L` is being added and
the loop is at node `n`: `dep` gives the depth of every node, every node but
`n` is settled, and `n` is settled or has just been created. -/
structure DepMid (s : State) (L : Nat) (dep : Nat → Nat) (n : Nat) : Prop where
  d0 : dep 0 = 0
  dlink : ∀ (i k : Nat), k < 4 → (s.node i).getLink k ≠ -1 →
    dep ((s.node i).getLink k).toNat = dep i + 1
  dle : ∀ t, t < s.ACnodebuf.length → dep t ≤ L
  reach : ∀ t, t < s.ACnodebuf.length → AtDepth s t (dep t)
  others : ∀ t, t < s.ACnodebuf.length → t ≠ n → Settled s L dep t
  cur : Settled s L dep n ∨
    ((∀ k, k < 4 → (s.node n).getLink k = -1) ∧ (s.node n).P_id = -1)

/-- The depths of the nodes between two calls of `ACnodebuf_addPattern`: every
node is settled. -/
structure DepFull (s : State) (L : Nat) (dep : Nat → Nat) : Prop where
  d0 : dep 0 = 0
  dlink : ∀ (i k : Nat), k < 4 → (s.node i).getLink k ≠ -1 →
    dep ((s.node i).getLink k).toNat = dep i + 1
  dle : ∀ t, t < s.ACnodebuf.length → dep t ≤ L
  reach : ∀ t, t < s.ACnodebuf.length → AtDepth s t (dep t)
  all : ∀ t, t < s.ACnodebuf.length → Settled s L dep t

/-- The labels of the nodes while the pattern `cur` is being added after the
patterns `ds`: every node is reached from the root by its own label, and every
label is empty or starts one of the patterns. -/
structure PInv (s : State) (F : List Int) (lab : Nat → List Int) (ds : List Pattern)
    (cur : List Int) : Prop where
  tinv : TInv s F lab
  root : lab 0 = []
  self : ∀ i, i < s.ACnodebuf.length → walk s 0 (lab i) = some i
  pref : ∀ i, i < s.ACnodebuf.length →
    lab i = [] ∨ (∃ Q, Q ∈ ds ∧ lab i <+: Q) ∨ lab i <+: cur

/-- The ordinals (positions from 1) at which the pattern `P` stands in the
dictionary `d`, in increasing order. -/
def ordinalsOf (P : Pattern) (d : List Pattern) : List Int :=
  ((List.range d.length).filter (fun k => decide (d[k]? = some P))).map
    (fun (k : Nat) => (k : Int) + 1)

/-- The lines of duplicates for the dictionary `ds`, as lists of values: each
line is the list of the ordinals of a pattern that occurs at least twice, each
such pattern has its line, the first values are pairwise distinct and the
second values increase along the lines. -/
structure DupX (L : List (List Int)) (ds : List Pattern) : Prop where
  lines : ∀ v, v ∈ L → ∃ P, P ∈ ds ∧ v = ordinalsOf P ds ∧ 2 ≤ v.length
  classes : ∀ P, P ∈ ds → 2 ≤ (ordinalsOf P ds).length → ordinalsOf P ds ∈ L
  heads : (L.map List.head?).Nodup
  seconds : (L.map (fun v => v[1]?.getD 0)).Pairwise (fun a b => a < b)

/-- The state after `ACnodebuf_addPattern` of one pattern of `m + 2` chars A on
the root state, when `m + 2` is the first capacity of the node buffer: `m + 3`
nodes; every link goes to a node before the last one; the last node holds the
pattern id 1; the node before it, reached by the first `m + 1` chars, has no
child and no pattern id. -/
structure OverflowState (s : State) (m : Nat) : Prop where
  len : s.ACnodebuf.length = m + 3
  codes : s.ACnodebuf_base_codes = pad [65]
  plen : s.ACnodebuf_pattern_length = ((m + 2 : Nat) : Int)
  links : ∀ i k, k < 4 → (s.node i).getLink k = -1 ∨
    ∃ j : Nat, (s.node i).getLink k = (j : Int) ∧ j < m + 2
  leaf : ∀ k, k < 4 → (s.node (m + 1)).getLink k = -1
  pid : (s.node (m + 1)).P_id = -1
  pidLast : (s.node (m + 2)).P_id = 1
  path : walk s 0 (List.replicate (m + 1) 65) = some (m + 1)
  dups : s.dupsbuf = []
  amax : s.ACnodebuf_maxcount = 100000

/-! ## One attempt and one loop iteration -/

theorem find_range4 (p : Nat → Prop) [DecidablePred p] :
    (List.range 4).find? (fun k => decide (p k)) =
      if p 0 then some 0 else if p 1 then some 1 else if p 2 then some 2
      else if p 3 then some 3 else none := by
  have h4 : List.range 4 = [0, 1, 2, 3] := by decide
  rw [h4]
  simp only [List.find?_cons, List.find?_nil]
  by_cases h0 : p 0
  · simp [h0]
  · by_cases h1 : p 1
    · simp [h0, h1]
    · by_cases h2 : p 2
      · simp [h0, h1, h2]
      · by_cases h3 : p 3 <;> simp [h0, h1, h2, h3]

theorem find_range4_some (p : Nat → Prop) [DecidablePred p] (k : Nat) :
    (List.range 4).find? (fun k => decide (p k)) = some k ↔
      k < 4 ∧ p k ∧ ∀ j, j < k → ¬ p j := by
  rw [find_range4]
  constructor
  · intro h
    split_ifs at h with h0 h1 h2 h3 <;> cases h <;>
      refine ⟨by omega, by assumption, ?_⟩ <;> intro j hj <;> interval_cases j <;> assumption
  · rintro ⟨hk, hp, hall⟩
    interval_cases k
    · simp [hp]
    · simp [hp, hall 0 (by omega)]
    · simp [hp, hall 0 (by omega), hall 1 (by omega)]
    · simp [hp, hall 0 (by omega), hall 1 (by omega), hall 2 (by omega)]

theorem find_range4_none (p : Nat → Prop) [DecidablePred p] :
    (List.range 4).find? (fun k => decide (p k)) = none ↔ ∀ j, j < 4 → ¬ p j := by
  rw [find_range4]
  constructor
  · intro h j hj
    split_ifs at h with h0 h1 h2 h3
    interval_cases j <;> assumption
  · intro hall
    simp [hall 0 (by omega), hall 1 (by omega), hall 2 (by omega), hall 3 (by omega)]

theorem getLink_setLink (nd : ACNode) (k : Nat) (v : Int) : (nd.setLink k v).getLink k = v := by
  unfold ACNode.setLink ACNode.getLink
  split <;> simp_all

theorem node_lt (s : State) (i : Nat) (h : i < s.ACnodebuf.length) :
    s.node i = s.ACnodebuf.get ⟨i, h⟩ := by
  simp [State.node, List.getElem?_eq_getElem h]

theorem newNode_eq (t : State) :
    ACnodebuf_newNode t =
      ({ t with
          ACnodebuf := t.ACnodebuf ++ [ACNode.fresh],
          ACnodebuf_maxcount :=
            if t.ACnodebuf_count ≥ t.ACnodebuf_maxcount then
              (if t.ACnodebuf_maxcount = 0 then 50000 else 2 * t.ACnodebuf_maxcount)
            else t.ACnodebuf_maxcount },
        (t.ACnodebuf.length : Int)) := by
  unfold ACnodebuf_newNode State.ACnodebuf_count
  by_cases hc : (t.ACnodebuf.length : Int) ≥ t.ACnodebuf_maxcount <;> simp [hc]

theorem try_eq (s : State) (c : Int) (k node : Nat) (hn : node < s.ACnodebuf.length) :
    ACnodebuf_tryMovingToChild s c k node k =
      if s.ACnodebuf_base_codes[k]?.getD 0 = -1 ∨ s.ACnodebuf_base_codes[k]?.getD 0 = c then
        ((descend { s with ACnodebuf_base_codes := s.ACnodebuf_base_codes.set k c } node k).1,
          some (descend { s with ACnodebuf_base_codes := s.ACnodebuf_base_codes.set k c } node k).2)
      else (s, none) := by
  have key : ∀ t : State, node < t.ACnodebuf.length →
      (if (t.node node).getLink k = -1 then
          (if t.ACnodebuf_count ≥ t.ACnodebuf_maxcount then
            ((ACnodebuf_newNode t).1, some (ACnodebuf_newNode t).2.toNat)
          else
            ({ (ACnodebuf_newNode t).1 with
                ACnodebuf := (ACnodebuf_newNode t).1.ACnodebuf.set node
                  (((ACnodebuf_newNode t).1.node node).setLink k (ACnodebuf_newNode t).2) },
              some (ACnodebuf_newNode t).2.toNat))
        else (t, some ((t.node node).getLink k).toNat)) =
        ((descend t node k).1, some (descend t node k).2) := by
    intro t ht
    unfold descend
    by_cases hl : (t.node node).getLink k = -1
    · simp only [hl, if_true]
      have h1 : ∀ m : Int, ({ t with
          ACnodebuf := t.ACnodebuf ++ [ACNode.fresh],
          ACnodebuf_maxcount := m } : State).node node = t.node node := by
        intro m
        simp [State.node, List.getElem?_append_left ht]
      rw [newNode_eq]
      by_cases hc : t.ACnodebuf_count ≥ t.ACnodebuf_maxcount
      · simp only [hc, if_true, Int.toNat_ofNat]
      · simp only [hc, if_false, Int.toNat_ofNat, h1]
    · simp only [hl, if_false]
  unfold ACnodebuf_tryMovingToChild
  by_cases h1 : s.ACnodebuf_base_codes[k]?.getD 0 = -1
  · have := key { s with ACnodebuf_base_codes := s.ACnodebuf_base_codes.set k c } hn
    simp only [h1, true_or, if_true]
    exact this
  · by_cases h2 : c = s.ACnodebuf_base_codes[k]?.getD 0
    · subst h2
      have hset : s.ACnodebuf_base_codes.set k (s.ACnodebuf_base_codes[k]?.getD 0)
          = s.ACnodebuf_base_codes := by
        apply List.ext_getElem?
        intro i
        by_cases hik : k = i
        · subst hik
          by_cases hk : k < s.ACnodebuf_base_codes.length
          · rw [List.getElem?_set_self hk]
            simp [List.getElem?_eq_getElem hk]
          · rw [List.set_eq_of_length_le (by omega)]
        · rw [List.getElem?_set_ne hik]
      have := key s hn
      rw [hset]
      simp only [h1, if_false, or_true, if_true, ne_eq, not_true]
      exact this
    · have h3 : ¬ s.ACnodebuf_base_codes[k]?.getD 0 = c := fun h => h2 h.symm
      simp only [h1, h2, h3, if_false, ne_eq, not_false_eq_true, if_true, or_self]

theorem slotFor_eq (bc : List Int) (c : Int) :
    slotFor bc c =
      if bc[0]?.getD 0 = -1 ∨ bc[0]?.getD 0 = c then some 0
      else if bc[1]?.getD 0 = -1 ∨ bc[1]?.getD 0 = c then some 1
      else if bc[2]?.getD 0 = -1 ∨ bc[2]?.getD 0 = c then some 2
      else if bc[3]?.getD 0 = -1 ∨ bc[3]?.getD 0 = c then some 3
      else none := by
  unfold slotFor
  rw [find_range4]

/-- One loop iteration: the char goes through the slot `slotFor` finds, which
is bound to it, and the walk descends through that link; with no such slot the
iteration raises the alphabet error. -/
theorem step_eq (s : State) (node : Nat) (c : Int) (hn : node < s.ACnodebuf.length) :
    ACnodebuf_addPattern_step s node c =
      match slotFor s.ACnodebuf_base_codes c with
      | none => .error Err.moreThan4Letters
      | some k =>
        .ok (descend { s with ACnodebuf_base_codes := s.ACnodebuf_base_codes.set k c } node k) := by
  unfold ACnodebuf_addPattern_step
  rw [slotFor_eq, try_eq s c 0 node hn]
  by_cases h0 : s.ACnodebuf_base_codes[0]?.getD 0 = -1 ∨ s.ACnodebuf_base_codes[0]?.getD 0 = c
  · simp only [h0, if_true]
  · simp only [h0, if_false]
    rw [try_eq s c 1 node hn]
    by_cases h1 : s.ACnodebuf_base_codes[1]?.getD 0 = -1 ∨ s.ACnodebuf_base_codes[1]?.getD 0 = c
    · simp only [h1, if_true]
    · simp only [h1, if_false]
      rw [try_eq s c 2 node hn]
      by_cases h2 : s.ACnodebuf_base_codes[2]?.getD 0 = -1 ∨ s.ACnodebuf_base_codes[2]?.getD 0 = c
      · simp only [h2, if_true]
      · simp only [h2, if_false]
        rw [try_eq s c 3 node hn]
        by_cases h3 : s.ACnodebuf_base_codes[3]?.getD 0 = -1 ∨ s.ACnodebuf_base_codes[3]?.getD 0 = c
        · simp only [h3, if_true]
        · simp only [h3, if_false]

/-! ## The table of base codes -/

theorem pad_length (F : List Int) : (pad F).length = 4 := by
  simp [pad]

theorem pad_get (F : List Int) (j : Nat) (hj : j < 4) :
    (pad F)[j]?.getD 0 = F[j]?.getD (-1) := by
  unfold pad
  rw [List.getElem?_take_of_lt hj]
  by_cases h : j < F.length
  · rw [List.getElem?_append_left h]
    simp [List.getElem?_eq_getElem h]
  · rw [List.getElem?_append_right (by omega)]
    have : j - F.length < 4 := by omega
    rw [List.getElem?_replicate, if_pos this, List.getElem?_eq_none (Nat.le_of_not_lt h)]
    rfl

theorem pad_get_ge (F : List Int) (j : Nat) (hj : 4 ≤ j) : (pad F)[j]?.getD 0 = 0 := by
  rw [List.getElem?_eq_none (by rw [pad_length]; exact hj)]
  rfl

theorem pad_ext (F G : List Int) (h : ∀ j, j < 4 → F[j]?.getD (-1) = G[j]?.getD (-1)) :
    pad F = pad G := by
  apply List.ext_getElem (by simp [pad_length])
  intro j h1 h2
  rw [pad_length] at h1
  have a := pad_get F j h1
  have b := pad_get G j h1
  rw [List.getElem?_eq_getElem (by rw [pad_length]; exact h1)] at a b
  simp only [Option.getD_some] at a b
  rw [a, b, h j h1]

theorem pad_set (F G : List Int) (k : Nat) (c : Int)
    (hG : ∀ j, j < 4 → G[j]?.getD (-1) = if j = k then c else F[j]?.getD (-1)) :
    (pad F).set k c = pad G := by
  apply List.ext_getElem (by simp [pad_length])
  intro j h1 h2
  rw [pad_length] at h2
  have b := pad_get G j h2
  have a := pad_get F j h2
  rw [List.getElem?_eq_getElem (by rw [pad_length]; exact h2)] at a b
  simp only [Option.getD_some] at a b
  rw [b, hG j h2, List.getElem_set]
  by_cases hjk : j = k
  · simp [hjk]
  · have : ¬ k = j := fun e => hjk e.symm
    simp [hjk, this, a]

theorem alphaStep_good {F F' : List Int} (hF : GoodF F) (c : Int)
    (h : alphaStep F c = some F') :
    GoodF F' ∧ (∀ (j : Nat) (x : Int), F[j]? = some x → F'[j]? = some x) ∧
      (c ≠ -1 → c ∈ F') ∧ (∀ x, x ∈ F' → x ∈ F ∨ x = c) := by
  unfold alphaStep at h
  split_ifs at h with h1 h2 h3 <;> cases h
  · exact ⟨hF, fun _ _ e => e, fun _ => h1, fun x hx => Or.inl hx⟩
  · exact ⟨hF, fun _ _ e => e, fun e => absurd h3 e, fun x hx => Or.inl hx⟩
  · refine ⟨⟨?_, ?_, ?_⟩, ?_, ?_, ?_⟩
    · exact List.Nodup.append hF.nodup (List.nodup_singleton c) (by simpa using h1)
    · intro hm
      rcases List.mem_append.1 hm with hm | hm
      · exact hF.nosent hm
      · have e : (-1 : Int) = c := by simpa using hm
        exact h3 e.symm
    · simp; omega
    · intro j x e
      have hj : j < F.length := by
        by_contra hc
        rw [List.getElem?_eq_none (by omega)] at e
        cases e
      rw [List.getElem?_append_left hj]
      exact e
    · intro _
      simp
    · intro x hx
      simpa using hx

theorem alpha_slot {F F' : List Int} (hF : GoodF F) (c : Int) (h : alphaStep F c = some F') :
    ∃ k, k < 4 ∧ slotFor (pad F) c = some k ∧ (pad F).set k c = pad F' ∧
      (c ≠ -1 → F'[k]? = some c) := by
  have hmemne : ∀ (j : Nat), j < F.length → F[j]?.getD (-1) ≠ -1 := by
    intro j hj e
    rw [List.getElem?_eq_getElem hj] at e
    simp only [Option.getD_some] at e
    exact hF.nosent (e ▸ List.getElem_mem hj)
  unfold alphaStep at h
  by_cases h1 : c ∈ F
  · rw [if_pos h1] at h
    cases h
    obtain ⟨k, hk, hkc⟩ := List.getElem_of_mem h1
    have hk4 : k < 4 := lt_of_lt_of_le hk hF.len
    refine ⟨k, hk4, ?_, ?_, ?_⟩
    · unfold slotFor
      rw [find_range4_some]
      refine ⟨hk4, Or.inr ?_, ?_⟩
      · rw [pad_get F k hk4, List.getElem?_eq_getElem hk]
        simpa using hkc
      · intro j hj
        have hj4 : j < 4 := by omega
        have hjF : j < F.length := by omega
        rw [pad_get F j hj4]
        intro hor
        rcases hor with e | e
        · exact hmemne j hjF e
        · rw [List.getElem?_eq_getElem hjF] at e
          simp only [Option.getD_some] at e
          have := (List.Nodup.getElem_inj_iff hF.nodup).1 (e.trans hkc.symm)
          omega
    · apply pad_set
      intro j hj
      by_cases hjk : j = k
      · subst hjk
        rw [if_pos rfl, List.getElem?_eq_getElem hk]
        simpa using hkc
      · rw [if_neg hjk]
    · intro _
      rw [List.getElem?_eq_getElem hk, hkc]
  · rw [if_neg h1] at h
    by_cases h2 : F.length < 4
    · rw [if_pos h2] at h
      have hslot : slotFor (pad F) c = some F.length := by
        unfold slotFor
        rw [find_range4_some]
        refine ⟨h2, Or.inl ?_, ?_⟩
        · rw [pad_get F _ h2, List.getElem?_eq_none (le_refl _)]
          rfl
        · intro j hj
          have hj4 : j < 4 := by omega
          rw [pad_get F j hj4]
          intro hor
          rcases hor with e | e
          · exact hmemne j hj e
          · rw [List.getElem?_eq_getElem hj] at e
            simp only [Option.getD_some] at e
            exact h1 (e ▸ List.getElem_mem hj)
      refine ⟨F.length, h2, hslot, ?_, ?_⟩
      · apply pad_set
        intro j hj
        by_cases h3 : c = -1
        · rw [if_pos h3] at h
          cases h
          by_cases hjk : j = F.length
          · rw [if_pos hjk, hjk, List.getElem?_eq_none (le_refl _), h3]
            rfl
          · rw [if_neg hjk]
        · rw [if_neg h3] at h
          cases h
          by_cases hjk : j = F.length
          · rw [if_pos hjk, hjk]
            simp
          · rw [if_neg hjk]
            by_cases hlt : j < F.length
            · rw [List.getElem?_append_left hlt]
            · rw [List.getElem?_eq_none (by simp; omega),
                List.getElem?_eq_none (by omega)]
      · intro h3
        rw [if_neg h3] at h
        cases h
        simp
    · rw [if_neg h2] at h
      cases h

theorem alpha_slot_none {F : List Int} (hF : GoodF F) (c : Int) (h : alphaStep F c = none) :
    slotFor (pad F) c = none := by
  unfold alphaStep at h
  split_ifs at h with h1 h2
  have hlen : F.length = 4 := le_antisymm hF.len (Nat.le_of_not_lt h2)
  unfold slotFor
  rw [find_range4_none]
  intro j hj
  have hjF : j < F.length := by omega
  rw [pad_get F j hj, List.getElem?_eq_getElem hjF]
  simp only [Option.getD_some]
  intro hor
  rcases hor with e | e
  · exact hF.nosent (e ▸ List.getElem_mem hjF)
  · exact h1 (e ▸ List.getElem_mem hjF)

theorem slotOf_pad {F : List Int} (hF : GoodF F) (c : Int) (hc : c ≠ -1) (k : Nat) :
    slotOf (pad F) c = some k ↔ F[k]? = some c := by
  unfold slotOf
  rw [find_range4_some]
  constructor
  · rintro ⟨hk, he, _⟩
    rw [pad_get F k hk] at he
    by_cases hkF : k < F.length
    · rw [List.getElem?_eq_getElem hkF] at he ⊢
      simpa using he
    · rw [List.getElem?_eq_none (by omega)] at he
      exact absurd he.symm hc
  · intro he
    have hkF : k < F.length := by
      by_contra hc2
      rw [List.getElem?_eq_none (by omega)] at he
      cases he
    have hk4 : k < 4 := lt_of_lt_of_le hkF hF.len
    refine ⟨hk4, ?_, ?_⟩
    · rw [pad_get F k hk4, he]
      rfl
    · intro j hj e
      rw [pad_get F j (by omega), List.getElem?_eq_getElem (by omega : j < F.length)] at e
      simp only [Option.getD_some] at e
      rw [List.getElem?_eq_getElem hkF] at he
      have he2 : F[k] = c := by simpa using he
      have := (List.Nodup.getElem_inj_iff hF.nodup).1 (e.trans he2.symm)
      omega


/-! ## The node buffer under one loop iteration -/

theorem getLink_setLink_ne (nd : ACNode) (j k : Nat) (v : Int) (hj : j < 4) (hk : k < 4)
    (hjk : j ≠ k) : (nd.setLink k v).getLink j = nd.getLink j := by
  interval_cases j <;> interval_cases k <;> first | exact absurd rfl hjk | rfl

theorem setLink_P_id (nd : ACNode) (k : Nat) (v : Int) : (nd.setLink k v).P_id = nd.P_id := by
  unfold ACNode.setLink
  split <;> rfl

theorem fresh_getLink (k : Nat) : ACNode.fresh.getLink k = -1 := by
  unfold ACNode.getLink
  split <;> rfl

theorem node_ge (s : State) (i : Nat) (h : s.ACnodebuf.length ≤ i) : s.node i = ACNode.fresh := by
  simp [State.node, List.getElem?_eq_none h]

theorem descend_old (s : State) (n k : Nat) (h : (s.node n).getLink k ≠ -1) :
    descend s n k = (s, ((s.node n).getLink k).toNat) := by
  unfold descend
  rw [if_neg h]

theorem node_append_fresh (l : List ACNode) (i : Nat) :
    (l ++ [ACNode.fresh])[i]?.getD ACNode.fresh = l[i]?.getD ACNode.fresh := by
  by_cases hlt : i < l.length
  · rw [List.getElem?_append_left hlt]
  · by_cases he : i = l.length
    · subst he
      simp
    · rw [List.getElem?_eq_none (by simp; omega), List.getElem?_eq_none (by omega)]

theorem descend_new (s : State) (n k : Nat) (h : (s.node n).getLink k = -1)
    (hn : n < s.ACnodebuf.length) :
    (descend s n k).2 = s.ACnodebuf.length ∧
    (descend s n k).1.ACnodebuf.length = s.ACnodebuf.length + 1 ∧
    (∀ i, (descend s n k).1.node i =
      if i = n ∧ s.ACnodebuf_count < s.ACnodebuf_maxcount then
        (s.node n).setLink k s.ACnodebuf.length
      else s.node i) ∧
    (descend s n k).1.ACnodebuf_base_codes = s.ACnodebuf_base_codes ∧
    (descend s n k).1.ACnodebuf_pattern_length = s.ACnodebuf_pattern_length ∧
    (descend s n k).1.dupsbuf = s.dupsbuf ∧
    (descend s n k).1.dupsbuf_maxcount = s.dupsbuf_maxcount ∧
    (descend s n k).1.ACnodebuf_maxcount =
      if s.ACnodebuf_count ≥ s.ACnodebuf_maxcount then
        (if s.ACnodebuf_maxcount = 0 then 50000 else 2 * s.ACnodebuf_maxcount)
      else s.ACnodebuf_maxcount := by
  unfold descend
  rw [if_pos h]
  refine ⟨rfl, ?_, ?_, rfl, rfl, rfl, rfl, rfl⟩
  · by_cases hc : s.ACnodebuf_count ≥ s.ACnodebuf_maxcount <;> simp [hc]
  · intro i
    simp only [State.node]
    by_cases hc : s.ACnodebuf_count ≥ s.ACnodebuf_maxcount
    · rw [if_pos hc, if_neg (fun hh => by omega)]
      exact node_append_fresh _ i
    · rw [if_neg hc]
      by_cases hi : i = n
      · subst hi
        rw [if_pos ⟨rfl, by omega⟩, List.getElem?_set_self (by simp; omega)]
        rfl
      · rw [if_neg (fun hh => hi hh.1), List.getElem?_set_ne (fun e => hi e.symm)]
        exact node_append_fresh _ i

theorem step_ok {s : State} {n : Nat} {F F' : List Int} (c : Int) (hl : LinksIn s)
    (hn : n < s.ACnodebuf.length) (hF : GoodF F) (hbc : s.ACnodebuf_base_codes = pad F)
    (ha : alphaStep F c = some F') :
    ∃ k s1 ch, ACnodebuf_addPattern_step s n c = .ok (s1, ch) ∧ StepFacts s n c F' k s1 ch := by
  obtain ⟨k, hk, hslot, hset, hb⟩ := alpha_slot hF c ha
  rw [step_eq s n c hn, hbc, hslot]
  simp only [hset]
  refine ⟨k, (descend { s with ACnodebuf_base_codes := pad F' } n k).1,
    (descend { s with ACnodebuf_base_codes := pad F' } n k).2, rfl, ?_⟩
  generalize ht : ({ s with ACnodebuf_base_codes := pad F' } : State) = t
  have t1 : t.ACnodebuf = s.ACnodebuf := by rw [← ht]
  have t2 : ∀ i, t.node i = s.node i := by intro i; rw [← ht]; rfl
  have t3 : t.ACnodebuf_base_codes = pad F' := by rw [← ht]
  have t4 : t.ACnodebuf_pattern_length = s.ACnodebuf_pattern_length := by rw [← ht]
  have t5 : t.dupsbuf = s.dupsbuf := by rw [← ht]
  have t6 : t.dupsbuf_maxcount = s.dupsbuf_maxcount := by rw [← ht]
  have t7 : t.ACnodebuf_maxcount = s.ACnodebuf_maxcount := by rw [← ht]
  have t8 : t.ACnodebuf_count = s.ACnodebuf_count := by rw [← ht]; rfl
  by_cases hlk : (s.node n).getLink k = -1
  · have hlk2 : (t.node n).getLink k = -1 := by rw [t2]; exact hlk
    obtain ⟨d1, d2, d3, d4, d5, d6, d7, d8⟩ := descend_new t n k hlk2 (by rw [t1]; exact hn)
    refine ⟨hk, d4.trans t3, hb, d5.trans t4, d6.trans t5, d7.trans t6, ?_, ?_, ?_, ?_⟩
    · rw [if_pos hlk, d2, t1]
    · rw [if_pos hlk, d1, t1]
    · intro i
      rw [d3 i, t1, t2, t2, t7, t8]
      by_cases hi : i = n ∧ s.ACnodebuf_count < s.ACnodebuf_maxcount
      · rw [if_pos hi, if_pos ⟨⟨hlk, hi.1⟩, hi.2⟩]
      · rw [if_neg hi, if_neg (fun h => hi ⟨h.1.2, h.2⟩)]
    · rw [d8, t7, t8]
      by_cases hc : s.ACnodebuf_count ≥ s.ACnodebuf_maxcount
      · simp only [hc, hlk, and_self, if_true]
      · simp only [hc, and_false, if_false]
  · have hlk2 : (t.node n).getLink k ≠ -1 := by rw [t2]; exact hlk
    rw [descend_old _ n k hlk2]
    obtain ⟨j, hj, _⟩ := hl.2 n k hk hlk
    refine ⟨hk, t3, hb, t4, t5, t6, ?_, ?_, ?_, ?_⟩
    · rw [if_neg hlk, t1]
    · rw [if_neg hlk]
      show ((((t.node n).getLink k).toNat : Nat) : Int) = (s.node n).getLink k
      rw [t2, hj]
      simp
    · intro i
      rw [if_neg (fun h => hlk h.1.1)]
      exact t2 i
    · rw [if_neg (fun h => hlk h.1)]
      exact t7

theorem step_err {s : State} {n : Nat} {F : List Int} (c : Int)
    (hn : n < s.ACnodebuf.length) (hF : GoodF F) (hbc : s.ACnodebuf_base_codes = pad F)
    (ha : alphaStep F c = none) :
    ACnodebuf_addPattern_step s n c = .error Err.moreThan4Letters := by
  rw [step_eq s n c hn, hbc, alpha_slot_none hF c ha]

theorem step_count {s s1 : State} {n k ch : Nat} {c : Int} {F' : List Int}
    (h : StepFacts s n c F' k s1 ch) :
    s.ACnodebuf.length ≤ s1.ACnodebuf.length ∧ s1.ACnodebuf.length ≤ s.ACnodebuf.length + 1 := by
  have := h.count
  split_ifs at this <;> omega

/-- While the node created by an iteration fits in the capacity the buffer had
before it, the buffer is not moved: the capacity is unchanged and the link to
the new node is written in the buffer. -/
theorem step_cap {s s1 : State} {n k ch : Nat} {c : Int} {F' : List Int}
    (h : StepFacts s n c F' k s1 ch) (hcap : (s1.ACnodebuf.length : Int) ≤ s.ACnodebuf_maxcount) :
    s1.ACnodebuf_maxcount = s.ACnodebuf_maxcount ∧
    ∀ i, s1.node i =
      if (s.node n).getLink k = -1 ∧ i = n then (s.node n).setLink k s.ACnodebuf.length
      else s.node i := by
  have hc := h.count
  have hx : (s.node n).getLink k = -1 → s.ACnodebuf_count < s.ACnodebuf_maxcount := by
    intro hlk
    rw [if_pos hlk] at hc
    unfold State.ACnodebuf_count
    omega
  refine ⟨?_, ?_⟩
  · rw [h.amax, if_neg]
    rintro ⟨hlk, hge⟩
    have := hx hlk
    omega
  · intro i
    rw [h.nodes i]
    by_cases hnew : (s.node n).getLink k = -1 ∧ i = n
    · rw [if_pos ⟨hnew, hx hnew.1⟩, if_pos hnew]
    · rw [if_neg (fun hh => hnew hh.1), if_neg hnew]

theorem step_links {s s1 : State} {n k ch : Nat} {c : Int} {F' : List Int}
    (h : StepFacts s n c F' k s1 ch) (hl : LinksIn s) :
    LinksIn s1 ∧ ch < s1.ACnodebuf.length := by
  have hc := step_count h
  refine ⟨⟨by have := hl.1; omega, ?_⟩, ?_⟩
  · intro i k1 hk1 hne
    rw [h.nodes i] at hne ⊢
    by_cases hnew : ((s.node n).getLink k = -1 ∧ i = n) ∧ s.ACnodebuf_count < s.ACnodebuf_maxcount
    · rw [if_pos hnew] at hne ⊢
      by_cases hkk : k1 = k
      · subst hkk
        rw [getLink_setLink]
        have := h.count
        rw [if_pos hnew.1.1] at this
        exact ⟨s.ACnodebuf.length, rfl, by omega⟩
      · rw [getLink_setLink_ne _ _ _ _ hk1 h.hk hkk] at hne ⊢
        obtain ⟨j, hj, hlt⟩ := hl.2 n k1 hk1 hne
        exact ⟨j, hj, by omega⟩
    · rw [if_neg hnew] at hne ⊢
      obtain ⟨j, hj, hlt⟩ := hl.2 i k1 hk1 hne
      exact ⟨j, hj, by omega⟩
  · have h1 := h.child
    have h2 := h.count
    by_cases hlk : (s.node n).getLink k = -1
    · rw [if_pos hlk] at h1 h2
      omega
    · rw [if_neg hlk] at h1 h2
      obtain ⟨j, hj, hlt⟩ := hl.2 n k h.hk hlk
      rw [hj] at h1
      omega

theorem step_lastFresh {s s1 : State} {n k ch : Nat} {c : Int} {F' : List Int}
    (h : StepFacts s n c F' k s1 ch) (hf : LastFresh s n) :
    s1.ACnodebuf.length = s.ACnodebuf.length + 1 ∧ LastFresh s1 ch := by
  have hlk := hf.2 k h.hk
  have h1 := h.child
  have h2 := h.count
  rw [if_pos hlk] at h1 h2
  have hch : ch = s.ACnodebuf.length := by omega
  refine ⟨h2, by omega, ?_⟩
  intro k1 _
  rw [h.nodes ch, if_neg (fun hh => by have := hf.1; have := hh.1.2; omega), hch,
    node_ge s _ (le_refl _)]
  exact fresh_getLink k1
/-! ## Errors, base codes and node count of the loop of `ACnodebuf_addPattern` -/

theorem loop_ctl : ∀ (P : List Int) (s : State) (n : Nat) (F : List Int),
    LinksIn s → n < s.ACnodebuf.length → GoodF F → s.ACnodebuf_base_codes = pad F →
    match alphaRun F P with
    | none => ACnodebuf_addPattern_loop s n P = .error Err.moreThan4Letters
    | some F' => ∃ s1 t, ACnodebuf_addPattern_loop s n P = .ok (s1, t) ∧ LoopCtl s n P F' s1 t := by
  intro P
  induction P with
  | nil =>
    intro s n F hl hn hF hbc
    simp only [alphaRun, ACnodebuf_addPattern_loop]
    exact ⟨s, n, rfl, ⟨hl, hn, hF, hbc, rfl, rfl, rfl, le_refl _, by simp, fun _ => by simp,
      fun _ => rfl, fun h => h⟩⟩
  | cons c rest ih =>
    intro s n F hl hn hF hbc
    simp only [alphaRun, ACnodebuf_addPattern_loop]
    cases ha : alphaStep F c with
    | none =>
      simp only [step_err c hn hF hbc ha]
    | some F1 =>
      obtain ⟨k, s1, ch, hstep, hf⟩ := step_ok c hl hn hF hbc ha
      have hF1 := (alphaStep_good hF c ha).1
      obtain ⟨hl1, hch⟩ := step_links hf hl
      have hcnt := step_count hf
      simp only [hstep]
      have := ih s1 ch F1 hl1 hch hF1 hf.codes
      cases hr : alphaRun F1 rest with
      | none =>
        rw [hr] at this
        exact this
      | some F2 =>
        rw [hr] at this
        obtain ⟨s2, t, hloop, hc⟩ := this
        refine ⟨s2, t, hloop, ⟨hc.links, hc.node, hc.good, hc.codes, hc.plen.trans hf.plen,
          hc.dups.trans hf.dups, hc.dmax.trans hf.dmax, le_trans hcnt.1 hc.lower, ?_, ?_, ?_,
          fun hfr => hc.last (step_lastFresh hf hfr).2⟩⟩
        · have := hc.upper
          simp only [List.length_cons]
          omega
        · intro hfr
          obtain ⟨e1, e2⟩ := step_lastFresh hf hfr
          have := hc.fresh e2
          simp only [List.length_cons]
          omega
        · intro hcap
          have hlow := hc.lower
          have e1 := (step_cap hf (by omega)).1
          rw [← e1]
          exact hc.amax (by rw [e1]; exact hcap)

/-- A loop that ends normally: its chars fit the alphabet, and `LoopCtl` holds
of the state it ends in. -/
theorem loop_ok_ctl (P : List Int) (s : State) (n : Nat) (F : List Int)
    (hl : LinksIn s) (hn : n < s.ACnodebuf.length) (hF : GoodF F)
    (hbc : s.ACnodebuf_base_codes = pad F) (s1 : State) (t : Nat)
    (h : ACnodebuf_addPattern_loop s n P = .ok (s1, t)) :
    ∃ F1, alphaRun F P = some F1 ∧ LoopCtl s n P F1 s1 t := by
  have := loop_ctl P s n F hl hn hF hbc
  cases hr : alphaRun F P with
  | none =>
    rw [hr] at this
    rw [this] at h
    cases h
  | some F1 =>
    rw [hr] at this
    obtain ⟨s2, t2, h2, hc⟩ := this
    rw [h2] at h
    simp only [Except.ok.injEq, Prod.mk.injEq] at h
    obtain ⟨rfl, rfl⟩ := h
    exact ⟨F1, rfl, hc⟩

theorem setP_id_facts (s : State) (t : Nat) (v : Int) (ht : t < s.ACnodebuf.length) :
    (s.setP_id t v).ACnodebuf.length = s.ACnodebuf.length ∧
    (∀ i, (s.setP_id t v).node i = if i = t then { s.node t with P_id := v } else s.node i) ∧
    (∀ i k, ((s.setP_id t v).node i).getLink k = (s.node i).getLink k) := by
  have hn : ∀ i, (s.setP_id t v).node i =
      if i = t then { s.node t with P_id := v } else s.node i := by
    intro i
    simp only [State.setP_id, State.node]
    by_cases hi : i = t
    · subst hi
      rw [if_pos rfl, List.getElem?_set_self ht]
      rfl
    · rw [if_neg hi, List.getElem?_set_ne (fun e => hi e.symm)]
  refine ⟨by simp [State.setP_id], hn, ?_⟩
  intro i k
  rw [hn i]
  by_cases hi : i = t
  · rw [if_pos hi, hi]
    unfold ACNode.getLink
    split <;> rfl
  · rw [if_neg hi]

theorem dupsbuf_append_fields (s : State) (a b : Int) :
    (dupsbuf_append s a b).1.ACnodebuf = s.ACnodebuf ∧
    (dupsbuf_append s a b).1.ACnodebuf_base_codes = s.ACnodebuf_base_codes ∧
    (dupsbuf_append s a b).1.ACnodebuf_pattern_length = s.ACnodebuf_pattern_length ∧
    (dupsbuf_append s a b).1.ACnodebuf_maxcount = s.ACnodebuf_maxcount := by
  unfold dupsbuf_append
  cases dupsbuf_scan a b s.dupsbuf with
  | some r => exact ⟨rfl, rfl, rfl, rfl⟩
  | none =>
    by_cases h : s.dupsbuf_count ≥ s.dupsbuf_maxcount <;> simp [h]

theorem node_congr {s s1 : State} (h : s1.ACnodebuf = s.ACnodebuf) (i : Nat) :
    s1.node i = s.node i := by
  unfold State.node
  rw [h]

theorem linksIn_congr {s s1 : State} (hl : LinksIn s)
    (hc : s1.ACnodebuf.length = s.ACnodebuf.length)
    (hn : ∀ i k, (s1.node i).getLink k = (s.node i).getLink k) : LinksIn s1 := by
  refine ⟨by rw [hc]; exact hl.1, ?_⟩
  intro i k hk hne
  rw [hn] at hne ⊢
  rw [hc]
  exact hl.2 i k hk hne

/-- The end of `ACnodebuf_addPattern`, after the loop. -/
theorem addPattern_eq (s : State) (P : Pattern) (P_id : Int)
    (h : ¬ (s.ACnodebuf_pattern_length = -1 ∧ (P.length : Int) = 0))
    (h2 : ¬ (s.ACnodebuf_pattern_length ≠ -1 ∧ (P.length : Int) ≠ s.ACnodebuf_pattern_length)) :
    ACnodebuf_addPattern s P P_id =
      match ACnodebuf_addPattern_loop { s with ACnodebuf_pattern_length := (P.length : Int) } 0 P with
      | .error e => .error e
      | .ok (s2, node) =>
        if (s2.node node).P_id = -1 then .ok (s2.setP_id node P_id)
        else .ok (dupsbuf_append s2 (s2.node node).P_id P_id).1 := by
  unfold ACnodebuf_addPattern
  by_cases h1 : s.ACnodebuf_pattern_length = -1
  · have h3 : ¬ (P.length : Int) = 0 := fun e => h ⟨h1, e⟩
    simp only [h1, if_true, h3, if_false]
  · have h3 : (P.length : Int) = s.ACnodebuf_pattern_length := by
      by_contra e
      exact h2 ⟨h1, e⟩
    have hs : ({ s with ACnodebuf_pattern_length := (P.length : Int) } : State) = s := by
      rw [h3]
    rw [hs]
    simp only [h1, if_false, ne_eq, h3, not_true]

theorem addPattern_ctl (s : State) (F : List Int) (P : Pattern) (P_id : Int)
    (hl : LinksIn s) (hF : GoodF F) (hbc : s.ACnodebuf_base_codes = pad F) :
    match addCtl s.ACnodebuf_pattern_length F P with
    | .error e => ACnodebuf_addPattern s P P_id = .error e
    | .ok (plen1, F1) => ∃ s1, ACnodebuf_addPattern s P P_id = .ok s1 ∧
        AddCtl s P.length plen1 F1 s1 ∧
        (LastFresh s 0 → s1.ACnodebuf.length = s.ACnodebuf.length + P.length) := by
  unfold addCtl
  by_cases h1 : s.ACnodebuf_pattern_length = -1 ∧ (P.length : Int) = 0
  · rw [if_pos h1]
    simp only [ACnodebuf_addPattern, h1.1, h1.2, if_true]
  · rw [if_neg h1]
    by_cases h2 : s.ACnodebuf_pattern_length ≠ -1 ∧ (P.length : Int) ≠ s.ACnodebuf_pattern_length
    · rw [if_pos h2]
      simp only [ACnodebuf_addPattern, h2.1, h2.2, if_false, ne_eq, not_false_eq_true, if_true]
    · rw [if_neg h2, addPattern_eq s P P_id h1 h2]
      have hloop := loop_ctl P { s with ACnodebuf_pattern_length := (P.length : Int) } 0 F
        hl hl.1 hF hbc
      cases hr : alphaRun F P with
      | none =>
        rw [hr] at hloop
        simp only [hloop]
      | some F1 =>
        rw [hr] at hloop
        obtain ⟨s2, t, hlp, hc⟩ := hloop
        simp only [hlp]
        by_cases hp : (s2.node t).P_id = -1
        · rw [if_pos hp]
          obtain ⟨e1, _, e3⟩ := setP_id_facts s2 t P_id hc.node
          refine ⟨_, rfl, ⟨linksIn_congr hc.links e1 e3, hc.good, hc.codes, hc.plen, ?_, ?_, ?_⟩,
            ?_⟩
          · rw [e1]; exact hc.lower
          · rw [e1]; exact hc.upper
          · rw [e1]; exact hc.amax
          · intro hfr
            rw [e1]
            exact hc.fresh hfr
        · rw [if_neg hp]
          obtain ⟨e1, e2, e3, e4⟩ := dupsbuf_append_fields s2 (s2.node t).P_id P_id
          have en : ∀ i, (dupsbuf_append s2 (s2.node t).P_id P_id).1.node i = s2.node i := by
            intro i
            exact node_congr e1 i
          refine ⟨_, rfl, ⟨linksIn_congr hc.links (by rw [e1]) (fun i k => by rw [en]), hc.good,
            e2.trans hc.codes, e3.trans hc.plen, ?_, ?_, ?_⟩, ?_⟩
          · rw [e1]; exact hc.lower
          · rw [e1]; exact hc.upper
          · rw [e1, e4]; exact hc.amax
          · intro hfr
            rw [e1]
            exact hc.fresh hfr

theorem initLoop_ctl : ∀ (ps : List Pattern) (s : State) (F : List Int) (i : Nat),
    LinksIn s → GoodF F → s.ACnodebuf_base_codes = pad F →
    match initCtl s.ACnodebuf_pattern_length F ps with
    | .error e => ULdna_init_loop s i ps = .error e
    | .ok (plen1, F1) => ∃ s1, ULdna_init_loop s i ps = .ok s1 ∧
        AddCtl s (ps.map List.length).sum plen1 F1 s1 := by
  intro ps
  induction ps with
  | nil =>
    intro s F i hl hF hbc
    simp only [initCtl, ULdna_init_loop]
    exact ⟨s, rfl, ⟨hl, hF, hbc, rfl, le_refl _, by simp, fun _ => rfl⟩⟩
  | cons P rest ih =>
    intro s F i hl hF hbc
    simp only [initCtl, ULdna_init_loop]
    have hadd := addPattern_ctl s F P ((i : Int) + 1) hl hF hbc
    cases hr : addCtl s.ACnodebuf_pattern_length F P with
    | error e =>
      rw [hr] at hadd
      simp only [hadd]
    | ok r =>
      obtain ⟨plen1, F1⟩ := r
      rw [hr] at hadd
      obtain ⟨s1, hs1, hc, _⟩ := hadd
      simp only [hs1]
      have := ih s1 F1 (i + 1) hc.links hc.good hc.codes
      rw [hc.plen] at this
      cases hr2 : initCtl plen1 F1 rest with
      | error e =>
        rw [hr2] at this
        exact this
      | ok r2 =>
        obtain ⟨plen2, F2⟩ := r2
        rw [hr2] at this
        obtain ⟨s2, hs2, hc2⟩ := this
        refine ⟨s2, hs2, ⟨hc2.links, hc2.good, hc2.codes, hc2.plen,
          le_trans hc.lower hc2.lower, ?_, ?_⟩⟩
        · have h1 := hc.upper
          have h2 := hc2.upper
          simp only [List.map_cons, List.sum_cons]
          omega
        · intro hcap
          have hlow := hc2.lower
          have e1 := hc.amax (by omega)
          rw [← e1]
          exact hc2.amax (by rw [e1]; exact hcap)

/-! ## Growth of the node buffer -/

theorem grow_refl (s : State) : Grow s s := ⟨le_refl _, fun _ => rfl⟩

theorem grow_trans {s s1 s2 : State} (h1 : Grow s s1) (h2 : Grow s1 s2) : Grow s s2 := by
  refine ⟨le_trans h1.1 h2.1, ?_⟩
  intro hcap
  have e1 := h1.2 (by have := h2.1; omega)
  rw [← e1]
  exact h2.2 (by rw [e1]; exact hcap)

/-- When the nodes of the last state fit in the capacity of the first, so do
those of the state in between, and the capacity is the same there. -/
theorem grow_split {s s1 s2 : State} (h1 : Grow s s1) (h2 : Grow s1 s2)
    (hcap : (s2.ACnodebuf.length : Int) ≤ s.ACnodebuf_maxcount) :
    (s1.ACnodebuf.length : Int) ≤ s.ACnodebuf_maxcount ∧
    (s2.ACnodebuf.length : Int) ≤ s1.ACnodebuf_maxcount := by
  have hle := h2.1
  have c1 : (s1.ACnodebuf.length : Int) ≤ s.ACnodebuf_maxcount := by omega
  refine ⟨c1, ?_⟩
  rw [h1.2 c1]
  exact hcap

theorem grow_congr {s s0 s1 : State} (h : Grow s0 s1) (e1 : s0.ACnodebuf = s.ACnodebuf)
    (e2 : s0.ACnodebuf_maxcount = s.ACnodebuf_maxcount) : Grow s s1 := by
  unfold Grow at h ⊢
  rw [e1, e2] at h
  exact h

theorem newNode_grow (t : State) : Grow t (ACnodebuf_newNode t).1 := by
  rw [newNode_eq]
  refine ⟨by simp, ?_⟩
  intro hcap
  have : ¬ t.ACnodebuf_count ≥ t.ACnodebuf_maxcount := by
    unfold State.ACnodebuf_count
    simp only [List.length_append, List.length_singleton, Nat.cast_add, Nat.cast_one] at hcap
    omega
  simp only [this, if_false]

theorem try_grow (s : State) (c : Int) (k node fld : Nat) :
    Grow s (ACnodebuf_tryMovingToChild s c k node fld).1 := by
  have key : ∀ t : State, Grow t
      (if (t.node node).getLink fld = -1 then
          (if t.ACnodebuf_count ≥ t.ACnodebuf_maxcount then
            ((ACnodebuf_newNode t).1, some (ACnodebuf_newNode t).2.toNat)
          else
            ({ (ACnodebuf_newNode t).1 with
                ACnodebuf := (ACnodebuf_newNode t).1.ACnodebuf.set node
                  (((ACnodebuf_newNode t).1.node node).setLink fld (ACnodebuf_newNode t).2) },
              some (ACnodebuf_newNode t).2.toNat))
        else (t, some ((t.node node).getLink fld).toNat)).1 := by
    intro t
    have hg := newNode_grow t
    by_cases hl : (t.node node).getLink fld = -1
    · rw [if_pos hl]
      by_cases hc : t.ACnodebuf_count ≥ t.ACnodebuf_maxcount
      · rw [if_pos hc]
        exact hg
      · rw [if_neg hc]
        unfold Grow at hg ⊢
        simpa using hg
    · rw [if_neg hl]
      exact grow_refl t
  unfold ACnodebuf_tryMovingToChild
  by_cases h1 : s.ACnodebuf_base_codes[k]?.getD 0 = -1
  · rw [if_pos h1]
    exact grow_congr (key { s with ACnodebuf_base_codes := s.ACnodebuf_base_codes.set k c })
      rfl rfl
  · by_cases h2 : c ≠ s.ACnodebuf_base_codes[k]?.getD 0
    · rw [if_neg h1, if_pos h2]
      exact grow_refl s
    · rw [if_neg h1, if_neg h2]
      exact key s

theorem step_grow {s s1 : State} {node ch : Nat} {c : Int}
    (h : ACnodebuf_addPattern_step s node c = .ok (s1, ch)) : Grow s s1 := by
  unfold ACnodebuf_addPattern_step at h
  have g0 := try_grow s c 0 node 0
  rcases h0 : ACnodebuf_tryMovingToChild s c 0 node 0 with ⟨t1, _ | ch1⟩
  · rw [h0] at h g0
    simp only at h g0
    have g1 := grow_trans g0 (try_grow t1 c 1 node 1)
    rcases h1 : ACnodebuf_tryMovingToChild t1 c 1 node 1 with ⟨t2, _ | ch2⟩
    · rw [h1] at h g1
      simp only at h g1
      have g2 := grow_trans g1 (try_grow t2 c 2 node 2)
      rcases h2 : ACnodebuf_tryMovingToChild t2 c 2 node 2 with ⟨t3, _ | ch3⟩
      · rw [h2] at h g2
        simp only at h g2
        have g3 := grow_trans g2 (try_grow t3 c 3 node 3)
        rcases h3 : ACnodebuf_tryMovingToChild t3 c 3 node 3 with ⟨t4, _ | ch4⟩
        · rw [h3] at h
          cases h
        · rw [h3] at h g3
          cases h
          exact g3
      · rw [h2] at h g2
        cases h
        exact g2
    · rw [h1] at h g1
      cases h
      exact g1
  · rw [h0] at h g0
    cases h
    exact g0

theorem loop_grow : ∀ (P : List Int) (s s1 : State) (node t : Nat),
    ACnodebuf_addPattern_loop s node P = .ok (s1, t) → Grow s s1 := by
  intro P
  induction P with
  | nil =>
    intro s s1 node t h
    simp only [ACnodebuf_addPattern_loop, Except.ok.injEq, Prod.mk.injEq] at h
    rw [← h.1]
    exact grow_refl s
  | cons c rest ih =>
    intro s s1 node t h
    simp only [ACnodebuf_addPattern_loop] at h
    cases hs : ACnodebuf_addPattern_step s node c with
    | error e => rw [hs] at h; cases h
    | ok r =>
      obtain ⟨s2, ch⟩ := r
      rw [hs] at h
      exact grow_trans (step_grow hs) (ih s2 s1 ch t h)

/-- A successful `ACnodebuf_addPattern`, taken apart: the length is accepted,
the loop ends at a node `t`, and the pattern id is written or registered as a
duplicate. -/
theorem addPattern_ok_cases {s s1 : State} {P : Pattern} {P_id : Int}
    (h : ACnodebuf_addPattern s P P_id = .ok s1) :
    ∃ s2 t, ACnodebuf_addPattern_loop
        { s with ACnodebuf_pattern_length := (P.length : Int) } 0 P = .ok (s2, t) ∧
      ((s.ACnodebuf_pattern_length = -1 ∧ (P.length : Int) ≠ 0) ∨
        (s.ACnodebuf_pattern_length ≠ -1 ∧ (P.length : Int) = s.ACnodebuf_pattern_length)) ∧
      (((s2.node t).P_id = -1 ∧ s1 = s2.setP_id t P_id) ∨
        ((s2.node t).P_id ≠ -1 ∧ s1 = (dupsbuf_append s2 (s2.node t).P_id P_id).1)) := by
  have h1 : ¬ (s.ACnodebuf_pattern_length = -1 ∧ (P.length : Int) = 0) := by
    intro hc
    simp only [ACnodebuf_addPattern, hc.1, hc.2, if_true] at h
    cases h
  have h2 : ¬ (s.ACnodebuf_pattern_length ≠ -1 ∧
      (P.length : Int) ≠ s.ACnodebuf_pattern_length) := by
    intro hc
    simp only [ACnodebuf_addPattern, hc.1, hc.2, if_false, ne_eq, not_false_eq_true,
      if_true] at h
    cases h
  rw [addPattern_eq s P _ h1 h2] at h
  cases hl : ACnodebuf_addPattern_loop
      { s with ACnodebuf_pattern_length := (P.length : Int) } 0 P with
  | error e => rw [hl] at h; cases h
  | ok r =>
    obtain ⟨s2, t⟩ := r
    rw [hl] at h
    simp only at h
    refine ⟨s2, t, rfl, ?_, ?_⟩
    · by_cases hp : s.ACnodebuf_pattern_length = -1
      · exact Or.inl ⟨hp, fun e => h1 ⟨hp, e⟩⟩
      · refine Or.inr ⟨hp, ?_⟩
        by_contra e
        exact h2 ⟨hp, e⟩
    · by_cases hp : (s2.node t).P_id = -1
      · rw [if_pos hp] at h
        cases h
        exact Or.inl ⟨hp, rfl⟩
      · rw [if_neg hp] at h
        cases h
        exact Or.inr ⟨hp, rfl⟩

/-- The write of the pattern id, or the registration of a duplicate, leaves
the size and the capacity of the node buffer as the loop left them. -/
theorem addPattern_fin {s s1 : State} {P : Pattern} {P_id : Int}
    (h : ACnodebuf_addPattern s P P_id = .ok s1) :
    ∀ (s2 : State) (t : Nat), ACnodebuf_addPattern_loop
        { s with ACnodebuf_pattern_length := (P.length : Int) } 0 P = .ok (s2, t) →
      s1.ACnodebuf.length = s2.ACnodebuf.length ∧
      s1.ACnodebuf_maxcount = s2.ACnodebuf_maxcount := by
  intro s2 t hl
  obtain ⟨s3, t3, hl3, _, hfin⟩ := addPattern_ok_cases h
  rw [hl] at hl3
  simp only [Except.ok.injEq, Prod.mk.injEq] at hl3
  obtain ⟨rfl, rfl⟩ := hl3
  rcases hfin with ⟨_, e⟩ | ⟨_, e⟩
  · rw [e]
    exact ⟨by simp [State.setP_id], rfl⟩
  · obtain ⟨e1, _, _, e4⟩ := dupsbuf_append_fields s2 (s2.node t).P_id P_id
    rw [e, e1, e4]
    exact ⟨rfl, rfl⟩

theorem addPattern_grow {s s1 : State} {P : Pattern} {P_id : Int}
    (h : ACnodebuf_addPattern s P P_id = .ok s1) : Grow s s1 := by
  obtain ⟨s2, t, hl, _, _⟩ := addPattern_ok_cases h
  obtain ⟨e1, e2⟩ := addPattern_fin h s2 t hl
  have hg := grow_congr (loop_grow P _ s2 0 t hl) rfl rfl
  unfold Grow at hg ⊢
  rw [e1, e2]
  exact hg

/-- When the nodes after a successful `ACnodebuf_addPattern` fit in the
capacity before the call, so do those at the end of its loop. -/
theorem addPattern_loop_cap {s s1 : State} {P : Pattern} {P_id : Int}
    (h : ACnodebuf_addPattern s P P_id = .ok s1)
    (hcap : (s1.ACnodebuf.length : Int) ≤ s.ACnodebuf_maxcount) :
    ∀ (s2 : State) (t : Nat), ACnodebuf_addPattern_loop
        { s with ACnodebuf_pattern_length := (P.length : Int) } 0 P = .ok (s2, t) →
      (s2.ACnodebuf.length : Int) ≤
        ({ s with ACnodebuf_pattern_length := (P.length : Int) } : State).ACnodebuf_maxcount := by
  intro s2 t hl
  obtain ⟨e1, _⟩ := addPattern_fin h s2 t hl
  show (s2.ACnodebuf.length : Int) ≤ s.ACnodebuf_maxcount
  rw [← e1]
  exact hcap

theorem initLoop_grow : ∀ (rest : List Pattern) (s s1 : State) (i : Nat),
    ULdna_init_loop s i rest = .ok s1 → Grow s s1 := by
  intro rest
  induction rest with
  | nil =>
    intro s s1 i h
    simp only [ULdna_init_loop, Except.ok.injEq] at h
    rw [← h]
    exact grow_refl s
  | cons P tl ih =>
    intro s s1 i h
    simp only [ULdna_init_loop] at h
    cases ha : ACnodebuf_addPattern s P ((i : Int) + 1) with
    | error e => rw [ha] at h; cases h
    | ok s2 =>
      rw [ha] at h
      exact grow_trans (addPattern_grow ha) (ih s2 s1 (i + 1) h)

/-! ## The length check and the alphabet, as functions of the dictionary -/

theorem alphaStep_ok {F : List Int} (S : Finset Int) (hS : S.card ≤ 4) (hF : GoodF F)
    (hFS : ∀ x, x ∈ F → x ∈ S) (c : Int) (hc : c ∈ S) :
    ∃ F1, alphaStep F c = some F1 ∧ GoodF F1 ∧ ∀ x, x ∈ F1 → x ∈ S := by
  cases h : alphaStep F c with
  | some F1 =>
    obtain ⟨g, _, _, hsub⟩ := alphaStep_good hF c h
    refine ⟨F1, rfl, g, ?_⟩
    intro x hx
    rcases hsub x hx with h1 | h1
    · exact hFS x h1
    · rw [h1]; exact hc
  | none =>
    exfalso
    unfold alphaStep at h
    split_ifs at h with h1 h2
    have hnd : (c :: F).Nodup := List.nodup_cons.2 ⟨h1, hF.nodup⟩
    have hsub : (c :: F).toFinset ⊆ S := by
      intro x hx
      rw [List.mem_toFinset] at hx
      rcases List.mem_cons.1 hx with e | e
      · rw [e]; exact hc
      · exact hFS x e
    have := Finset.card_le_card hsub
    rw [List.toFinset_card_of_nodup hnd] at this
    simp only [List.length_cons] at this
    omega

theorem alphaRun_ok (S : Finset Int) (hS : S.card ≤ 4) : ∀ (P : List Int) (F : List Int),
    GoodF F → (∀ x, x ∈ F → x ∈ S) → (∀ c, c ∈ P → c ∈ S) →
    ∃ F1, alphaRun F P = some F1 ∧ GoodF F1 ∧ ∀ x, x ∈ F1 → x ∈ S := by
  intro P
  induction P with
  | nil => intro F hF hFS _; exact ⟨F, rfl, hF, hFS⟩
  | cons c rest ih =>
    intro F hF hFS hP
    obtain ⟨F1, h1, g1, s1⟩ := alphaStep_ok S hS hF hFS c (hP c (List.mem_cons_self _ _))
    simp only [alphaRun, h1]
    exact ih F1 g1 s1 (fun x hx => hP x (List.mem_cons_of_mem _ hx))

theorem alphaRun_good : ∀ (P : List Int) (F F1 : List Int), GoodF F → alphaRun F P = some F1 →
    GoodF F1 ∧ (∀ x, x ∈ F → x ∈ F1) ∧ (∀ c, c ∈ P → c ≠ -1 → c ∈ F1) ∧
      (∀ x, x ∈ F1 → x ∈ F ∨ x ∈ P) := by
  intro P
  induction P with
  | nil =>
    intro F F1 hF h
    cases h
    exact ⟨hF, fun _ h => h, fun _ h => absurd h (List.not_mem_nil _), fun _ h => Or.inl h⟩
  | cons c rest ih =>
    intro F F1 hF h
    simp only [alphaRun] at h
    cases ha : alphaStep F c with
    | none => rw [ha] at h; cases h
    | some F2 =>
      rw [ha] at h
      obtain ⟨g2, hpre, hc, hsub⟩ := alphaStep_good hF c ha
      obtain ⟨g1, i1, i2, i3⟩ := ih F2 F1 g2 h
      have hmono : ∀ x, x ∈ F → x ∈ F2 := by
        intro x hx
        obtain ⟨j, hj, e⟩ := List.getElem_of_mem hx
        have := hpre j x (by rw [List.getElem?_eq_getElem hj, e])
        exact List.getElem?_mem this
      refine ⟨g1, fun x hx => i1 x (hmono x hx), ?_, ?_⟩
      · intro x hx hne
        rcases List.mem_cons.1 hx with e | e
        · rw [e]; exact i1 c (hc (e ▸ hne))
        · exact i2 x e hne
      · intro x hx
        rcases i3 x hx with e | e
        · rcases hsub x e with e2 | e2
          · exact Or.inl e2
          · exact Or.inr (e2 ▸ List.mem_cons_self _ _)
        · exact Or.inr (List.mem_cons_of_mem _ e)

theorem alphaRun_firstOcc : ∀ (P : List Int) (F F1 : List Int), (∀ c, c ∈ P → c ≠ -1) →
    alphaRun F P = some F1 → F1 = firstOcc F P := by
  intro P
  induction P with
  | nil => intro F F1 _ h; cases h; rfl
  | cons c rest ih =>
    intro F F1 hP h
    have hc := hP c (List.mem_cons_self _ _)
    simp only [alphaRun] at h
    unfold alphaStep at h
    unfold firstOcc
    by_cases h1 : c ∈ F
    · rw [if_pos h1] at h ⊢
      exact ih F F1 (fun x hx => hP x (List.mem_cons_of_mem _ hx)) h
    · rw [if_neg h1] at h ⊢
      by_cases h2 : F.length < 4
      · rw [if_pos h2, if_neg hc] at h
        exact ih _ F1 (fun x hx => hP x (List.mem_cons_of_mem _ hx)) h
      · rw [if_neg h2] at h
        cases h

theorem alphaRun_append : ∀ (P Q : List Int) (F : List Int),
    alphaRun F (P ++ Q) = (alphaRun F P).bind (fun F1 => alphaRun F1 Q) := by
  intro P
  induction P with
  | nil => intro Q F; rfl
  | cons c rest ih =>
    intro Q F
    simp only [List.cons_append, alphaRun]
    cases alphaStep F c with
    | none => rfl
    | some F1 => exact ih Q F1

theorem firstOcc_append : ∀ (P Q : List Int) (F : List Int),
    firstOcc F (P ++ Q) = firstOcc (firstOcc F P) Q := by
  intro P
  induction P with
  | nil => intro Q F; rfl
  | cons c rest ih =>
    intro Q F
    simp only [List.cons_append, firstOcc]
    split_ifs <;> exact ih Q _

theorem addCtl_ok {plen plen1 : Int} {F F1 : List Int} {P : Pattern}
    (hv : plen = -1 ∨ 1 ≤ plen) (h : addCtl plen F P = .ok (plen1, F1)) :
    plen1 = (P.length : Int) ∧ alphaRun F P = some F1 ∧ 1 ≤ plen1 ∧
      (plen ≠ -1 → plen1 = plen) := by
  unfold addCtl at h
  split_ifs at h with h1 h2
  cases hr : alphaRun F P with
  | none => rw [hr] at h; cases h
  | some F2 =>
    rw [hr] at h
    cases h
    refine ⟨rfl, rfl, ?_, ?_⟩
    · by_cases hp : plen = -1
      · have : ¬ (P.length : Int) = 0 := fun e => h1 ⟨hp, e⟩
        omega
      · have : (P.length : Int) = plen := by
          by_contra e
          exact h2 ⟨hp, e⟩
        omega
    · intro hp
      by_contra e
      exact h2 ⟨hp, e⟩

theorem initCtl_ok : ∀ (d : List Pattern) (plen plen1 : Int) (F F1 : List Int),
    (plen = -1 ∨ 1 ≤ plen) → initCtl plen F d = .ok (plen1, F1) →
    alphaRun F d.flatten = some F1 ∧ (plen ≠ -1 → plen1 = plen) ∧
      (∀ P, P ∈ d → (P.length : Int) = plen1 ∧ 1 ≤ plen1) := by
  intro d
  induction d with
  | nil =>
    intro plen plen1 F F1 _ h
    cases h
    exact ⟨rfl, fun _ => rfl, fun _ hP => absurd hP (List.not_mem_nil _)⟩
  | cons P rest ih =>
    intro plen plen1 F F1 hv h
    simp only [initCtl] at h
    cases ha : addCtl plen F P with
    | error e => rw [ha] at h; cases h
    | ok r =>
      obtain ⟨plen2, F2⟩ := r
      rw [ha] at h
      obtain ⟨a1, a2, a3, a4⟩ := addCtl_ok hv ha
      obtain ⟨b1, b2, b3⟩ := ih plen2 plen1 F2 F1 (Or.inr a3) h
      have e21 : plen1 = plen2 := b2 (by omega)
      refine ⟨?_, ?_, ?_⟩
      · rw [List.flatten_cons, alphaRun_append, a2]
        exact b1
      · intro hp
        rw [e21, a4 hp]
      · intro Q hQ
        rcases List.mem_cons.1 hQ with e | e
        · rw [e, e21, ← a1]
          exact ⟨rfl, a3⟩
        · exact b3 Q e

theorem initCtl_uniform (L : Nat) (hL : 1 ≤ L) : ∀ (d : List Pattern) (plen : Int) (F : List Int),
    (plen = -1 ∨ plen = (L : Int)) → (∀ P, P ∈ d → P.length = L) →
    initCtl plen F d =
      match alphaRun F d.flatten with
      | none => .error Err.moreThan4Letters
      | some F1 => .ok ((if d = [] then plen else (L : Int)), F1) := by
  intro d
  induction d with
  | nil => intro plen F _ _; rfl
  | cons P rest ih =>
    intro plen F hv hd
    have hP : P.length = L := hd P (List.mem_cons_self _ _)
    simp only [initCtl, List.flatten_cons, alphaRun_append]
    unfold addCtl
    have h1 : ¬ (plen = -1 ∧ (P.length : Int) = 0) := by
      rw [hP]; intro h; omega
    have h2 : ¬ (plen ≠ -1 ∧ (P.length : Int) ≠ plen) := by
      rw [hP]; intro h; omega
    rw [if_neg h1, if_neg h2]
    cases hr : alphaRun F P with
    | none => rfl
    | some F2 =>
      simp only [Option.some_bind]
      rw [ih (P.length : Int) F2 (Or.inr (by rw [hP]))
        (fun Q hQ => hd Q (List.mem_cons_of_mem _ hQ))]
      cases alphaRun F2 rest.flatten with
      | none => rfl
      | some F3 =>
        simp only [hP]
        by_cases hre : rest = []
        · simp [hre]
        · simp [hre]

theorem initCtl_error : ∀ (d : List Pattern) (plen : Int) (F : List Int) (e : Err),
    (plen = -1 ∨ 1 ≤ plen) → initCtl plen F d = .error e →
    (e = Err.emptyPatterns → plen = -1 ∧ d.head? = some []) ∧
      (e = Err.moreThan4Letters → alphaRun F d.flatten = none) := by
  intro d
  induction d with
  | nil => intro plen F e _ h; cases h
  | cons P rest ih =>
    intro plen F e hv h
    simp only [initCtl] at h
    cases ha : addCtl plen F P with
    | error e2 =>
      rw [ha] at h
      cases h
      unfold addCtl at ha
      split_ifs at ha with h1 h2
      · cases ha
        refine ⟨fun _ => ⟨h1.1, ?_⟩, fun h => (by cases h)⟩
        have : P.length = 0 := by exact_mod_cast h1.2
        simp [List.length_eq_zero.1 this]
      · cases ha
        exact ⟨fun h => (by cases h), fun h => (by cases h)⟩
      · cases hr : alphaRun F P with
        | none =>
          rw [hr] at ha
          cases ha
          refine ⟨fun h => (by cases h), fun _ => ?_⟩
          rw [List.flatten_cons, alphaRun_append, hr]
          rfl
        | some F2 => rw [hr] at ha; cases ha
    | ok r =>
      obtain ⟨plen2, F2⟩ := r
      rw [ha] at h
      obtain ⟨a1, a2, a3, a4⟩ := addCtl_ok hv ha
      obtain ⟨b1, b2⟩ := ih plen2 F2 e (Or.inr a3) h
      refine ⟨fun he => ?_, fun he => ?_⟩
      · have := (b1 he).1
        omega
      · rw [List.flatten_cons, alphaRun_append, a2]
        exact b2 he

/-! ## `ULdna_init`: errors, base codes and node count -/

theorem init_root (g : State) :
    (ACnodebuf_newNode (ACnodebuf_reset (dupsbuf_reset g))).1 = rootState := by
  simp [ACnodebuf_newNode, ACnodebuf_reset, dupsbuf_reset, rootState, State.ACnodebuf_count]

theorem ULdna_init_eq (g : State) (d : List Pattern) :
    ULdna_init g d = ULdna_init_loop rootState 0 d := by
  unfold ULdna_init
  rw [init_root]

theorem root_node (i : Nat) : rootState.node i = ACNode.fresh := by
  cases i with
  | zero => rfl
  | succ j => exact node_ge _ _ (by simp [rootState])

theorem root_links : LinksIn rootState := by
  refine ⟨by simp [rootState], ?_⟩
  intro i k _ h
  rw [root_node, fresh_getLink] at h
  exact absurd rfl h

theorem root_lastFresh : LastFresh rootState 0 :=
  ⟨rfl, fun k _ => by rw [root_node, fresh_getLink]⟩

theorem good_nil : GoodF [] := ⟨List.nodup_nil, List.not_mem_nil _, by simp⟩

theorem root_codes : rootState.ACnodebuf_base_codes = pad [] := rfl

theorem init_ctl (g : State) (d : List Pattern) :
    match initCtl (-1) [] d with
    | .error e => ULdna_init g d = .error e
    | .ok (plen1, F1) => ∃ s1, ULdna_init g d = .ok s1 ∧
        AddCtl rootState (d.map List.length).sum plen1 F1 s1 := by
  rw [ULdna_init_eq]
  exact initLoop_ctl d rootState [] 0 root_links good_nil root_codes

theorem init_lower (g : State) (P : Pattern) (rest : List Pattern) (s : State)
    (h : ULdna_init g (P :: rest) = .ok s) : P.length + 1 ≤ s.ACnodebuf.length := by
  rw [ULdna_init_eq] at h
  simp only [ULdna_init_loop] at h
  have hadd := addPattern_ctl rootState [] P ((0 : Nat) + 1 : Int) root_links good_nil root_codes
  cases hr : addCtl rootState.ACnodebuf_pattern_length [] P with
  | error e =>
    rw [hr] at hadd
    rw [hadd] at h
    cases h
  | ok r =>
    obtain ⟨plen1, F1⟩ := r
    rw [hr] at hadd
    obtain ⟨s1, hs1, hc, hfr⟩ := hadd
    rw [hs1] at h
    have hcount := hfr root_lastFresh
    have hloop := initLoop_ctl rest s1 F1 (0 + 1) hc.links hc.good hc.codes
    cases hr2 : initCtl s1.ACnodebuf_pattern_length F1 rest with
    | error e =>
      rw [hr2] at hloop
      simp only [hloop] at h
      cases h
    | ok r2 =>
      rw [hr2] at hloop
      obtain ⟨s2, hs2, hc2⟩ := hloop
      simp only [hs2] at h
      cases h
      have := hc2.lower
      have h1 : rootState.ACnodebuf.length = 1 := rfl
      omega

theorem sum_length_uniform (L : Nat) : ∀ (d : List Pattern), (∀ P, P ∈ d → P.length = L) →
    (d.map List.length).sum = d.length * L := by
  intro d
  induction d with
  | nil => intro _; simp
  | cons P rest ih =>
    intro h
    simp only [List.map_cons, List.sum_cons, List.length_cons]
    rw [ih (fun Q hQ => h Q (List.mem_cons_of_mem _ hQ)), h P (List.mem_cons_self _ _)]
    ring

/-- A dictionary of patterns of one length `L ≥ 1` with at most 4 distinct
chars: `ULdna_init` returns a state, whose base codes, pattern length and node
count are bounded as follows. -/
theorem init_uniform_ok (g : State) (d : List Pattern) (L : Nat) (hL : 1 ≤ L)
    (hlen : ∀ P, P ∈ d → P.length = L) (h4 : d.flatten.toFinset.card ≤ 4) :
    ∃ s F, ULdna_init g d = .ok s ∧ alphaRun [] d.flatten = some F ∧
      AddCtl rootState (d.length * L) (if d = [] then -1 else (L : Int)) F s := by
  obtain ⟨F, hF, _, _⟩ := alphaRun_ok d.flatten.toFinset h4 d.flatten [] good_nil
    (fun x hx => absurd hx (List.not_mem_nil _)) (fun c hc => List.mem_toFinset.2 hc)
  have h1 := init_ctl g d
  rw [initCtl_uniform L hL d (-1) [] (Or.inl rfl) hlen, hF] at h1
  obtain ⟨s, hs, hc⟩ := h1
  rw [sum_length_uniform L d hlen] at hc
  exact ⟨s, F, hs, hF, hc⟩

/-- What a successful `ULdna_init` says of the dictionary and of the state. -/
theorem init_ok_facts (g : State) (d : List Pattern) (s : State) (h : ULdna_init g d = .ok s) :
    ∃ F, alphaRun [] d.flatten = some F ∧ GoodF F ∧ s.ACnodebuf_base_codes = pad F ∧
      (∀ P, P ∈ d → (P.length : Int) = s.ACnodebuf_pattern_length ∧ 1 ≤ P.length) := by
  have h1 := init_ctl g d
  cases hr : initCtl (-1) [] d with
  | error e =>
    rw [hr] at h1
    rw [h1] at h
    cases h
  | ok r =>
    obtain ⟨plen1, F1⟩ := r
    rw [hr] at h1
    obtain ⟨s1, hs1, hc⟩ := h1
    rw [hs1] at h
    cases h
    obtain ⟨a1, _, a3⟩ := initCtl_ok d (-1) plen1 [] F1 (Or.inl rfl) hr
    refine ⟨F1, a1, hc.good, hc.codes, ?_⟩
    intro P hP
    obtain ⟨b1, b2⟩ := a3 P hP
    rw [hc.plen]
    exact ⟨b1, by omega⟩

theorem init_not_ok_error (g : State) (d : List Pattern)
    (h : ∀ s, ULdna_init g d ≠ .ok s) :
    ∃ e, ULdna_init g d = .error e ∧ initCtl (-1) [] d = .error e := by
  have h1 := init_ctl g d
  cases hr : initCtl (-1) [] d with
  | error e =>
    rw [hr] at h1
    exact ⟨e, h1, rfl⟩
  | ok r =>
    rw [hr] at h1
    obtain ⟨s1, hs1, _⟩ := h1
    exact absurd hs1 (h s1)

/-- The loop of `ULdna_init` on a dictionary in two parts: the second part is
added from the state the first part leaves, unless the first part fails. -/
theorem initLoop_append : ∀ (pre rest : List Pattern) (s : State) (i : Nat),
    ULdna_init_loop s i (pre ++ rest) =
      match ULdna_init_loop s i pre with
      | .ok s1 => ULdna_init_loop s1 (i + pre.length) rest
      | .error e => .error e := by
  intro pre
  induction pre with
  | nil => intro rest s i; rfl
  | cons P tl ih =>
    intro rest s i
    simp only [List.cons_append, ULdna_init_loop, List.length_cons]
    cases ACnodebuf_addPattern s P ((i : Int) + 1) with
    | error e => rfl
    | ok s1 =>
      have e := ih rest s1 (i + 1)
      have hi : i + 1 + tl.length = i + (tl.length + 1) := by omega
      rw [hi] at e
      exact e

/-! ## The tree: labels of the nodes and reading a char sequence -/

theorem slotOf_some {bc : List Int} {c : Int} {k : Nat} (h : slotOf bc c = some k) :
    k < 4 ∧ bc[k]?.getD 0 = c := by
  unfold slotOf at h
  rw [find_range4_some] at h
  exact ⟨h.1, h.2.1⟩

theorem ext_refl (s : State) (F : List Int) : Ext s s F F :=
  ⟨fun _ _ _ _ => rfl, fun _ _ h => h, fun _ => rfl, le_refl _⟩

theorem ext_trans {s s1 s2 : State} {F F1 F2 : List Int} (h1 : Ext s s1 F F1)
    (h2 : Ext s1 s2 F1 F2) : Ext s s2 F F2 := by
  refine ⟨?_, fun j x h => h2.codes j x (h1.codes j x h), fun i => (h2.pid i).trans (h1.pid i),
    le_trans h1.count h2.count⟩
  intro i k hk hne
  have e1 := h1.nodes i k hk hne
  rw [h2.nodes i k hk (by rw [e1]; exact hne), e1]

theorem step_ext {s s1 : State} {n k ch : Nat} {c : Int} {F F' : List Int}
    (h : StepFacts s n c F' k s1 ch) (hF : GoodF F) (ha : alphaStep F c = some F') :
    Ext s s1 F F' := by
  refine ⟨?_, (alphaStep_good hF c ha).2.1, ?_, (step_count h).1⟩
  · intro i k1 hk1 hne
    rw [h.nodes i]
    by_cases hnew : ((s.node n).getLink k = -1 ∧ i = n) ∧ s.ACnodebuf_count < s.ACnodebuf_maxcount
    · rw [if_pos hnew]
      have hkk : k1 ≠ k := by
        intro e
        rw [e, hnew.1.2] at hne
        exact hne hnew.1.1
      rw [getLink_setLink_ne _ _ _ _ hk1 h.hk hkk, hnew.1.2]
    · rw [if_neg hnew]
  · intro i
    rw [h.nodes i]
    by_cases hnew : ((s.node n).getLink k = -1 ∧ i = n) ∧ s.ACnodebuf_count < s.ACnodebuf_maxcount
    · rw [if_pos hnew, setLink_P_id, hnew.1.2]
    · rw [if_neg hnew]

theorem step_link {s s1 : State} {n k ch : Nat} {c : Int} {F' : List Int}
    (h : StepFacts s n c F' k s1 ch)
    (hcap : (s1.ACnodebuf.length : Int) ≤ s.ACnodebuf_maxcount) :
    (s1.node n).getLink k = (ch : Int) := by
  rw [(step_cap h hcap).2 n, h.child]
  by_cases hlk : (s.node n).getLink k = -1
  · rw [if_pos ⟨hlk, rfl⟩, if_pos hlk, getLink_setLink]
  · rw [if_neg (fun hh => hlk hh.1), if_neg hlk]

theorem step_tinv {s s1 : State} {n k ch : Nat} {c : Int} {F F' : List Int}
    {lab : Nat → List Int} (h : StepFacts s n c F' k s1 ch) (hT : TInv s F lab)
    (hn : n < s.ACnodebuf.length) (hc : c ≠ -1) (ha : alphaStep F c = some F')
    (hcap : (s1.ACnodebuf.length : Int) ≤ s.ACnodebuf_maxcount) :
    ∃ lab1, TInv s1 F' lab1 ∧ (∀ i, i < s.ACnodebuf.length → lab1 i = lab i) ∧
      lab1 ch = lab n ++ [c] := by
  have hnodes := (step_cap h hcap).2
  obtain ⟨hg, hpre, _, _⟩ := alphaStep_good hT.good c ha
  obtain ⟨hl1, _⟩ := step_links h hT.links
  by_cases hlk : (s.node n).getLink k = -1
  · have hch : ch = s.ACnodebuf.length := by
      have := h.child
      rw [if_pos hlk] at this
      exact_mod_cast this
    refine ⟨Function.update lab s.ACnodebuf.length (lab n ++ [c]), ⟨hl1, hg, h.codes, ?_⟩, ?_, ?_⟩
    · intro i k1 hk1 hne
      rw [hnodes i] at hne ⊢
      have hupd : ∀ j, j < s.ACnodebuf.length →
          Function.update lab s.ACnodebuf.length (lab n ++ [c]) j = lab j :=
        fun j hj => Function.update_noteq (by omega) _ _
      by_cases hi : i = n
      · rw [if_pos ⟨hlk, hi⟩] at hne ⊢
        rw [hi, hupd n hn]
        by_cases hkk : k1 = k
        · rw [hkk, getLink_setLink]
          refine ⟨c, h.bound hc, ?_⟩
          simp
        · rw [getLink_setLink_ne _ _ _ _ hk1 h.hk hkk] at hne ⊢
          obtain ⟨j, hj, hjlt⟩ := hT.links.2 n k1 hk1 hne
          obtain ⟨c1, e1, e2⟩ := hT.label n k1 hk1 hne
          refine ⟨c1, hpre k1 c1 e1, ?_⟩
          rw [hj] at e2 ⊢
          simp only [Int.toNat_ofNat] at e2 ⊢
          rw [hupd j hjlt, e2]
      · rw [if_neg (fun hh => hi hh.2)] at hne ⊢
        obtain ⟨j, hj, hjlt⟩ := hT.links.2 i k1 hk1 hne
        obtain ⟨c1, e1, e2⟩ := hT.label i k1 hk1 hne
        have hilt : i < s.ACnodebuf.length := by
          by_contra hge
          rw [node_ge s i (by omega), fresh_getLink] at hne
          exact hne rfl
        refine ⟨c1, hpre k1 c1 e1, ?_⟩
        rw [hj] at e2 ⊢
        simp only [Int.toNat_ofNat] at e2 ⊢
        rw [hupd j hjlt, hupd i hilt, e2]
    · intro i hi
      exact Function.update_noteq (by omega) _ _
    · rw [hch]
      simp
  · have hsame : ∀ i, s1.node i = s.node i := by
      intro i
      rw [hnodes i, if_neg (fun hh => hlk hh.1)]
    refine ⟨lab, ⟨hl1, hg, h.codes, ?_⟩, fun _ _ => rfl, ?_⟩
    · intro i k1 hk1 hne
      rw [hsame i] at hne ⊢
      obtain ⟨c1, e1, e2⟩ := hT.label i k1 hk1 hne
      exact ⟨c1, hpre k1 c1 e1, e2⟩
    · obtain ⟨c1, e1, e2⟩ := hT.label n k h.hk hlk
      have e3 := hpre k c1 e1
      rw [h.bound hc] at e3
      cases e3
      have hch := h.child
      rw [if_neg hlk] at hch
      rw [← hch] at e2
      simpa using e2

theorem walk_cons {s : State} {n t : Nat} {c : Int} {rest : List Int} :
    walk s n (c :: rest) = some t ↔
      ∃ k, slotOf s.ACnodebuf_base_codes c = some k ∧ (s.node n).getLink k ≠ -1 ∧
        walk s ((s.node n).getLink k).toNat rest = some t := by
  simp only [walk]
  cases hs : slotOf s.ACnodebuf_base_codes c with
  | none => simp
  | some k =>
    by_cases hl : (s.node n).getLink k = -1
    · simp [hl]
    · simp [hl]

/-- A link that is followed for the char `c` goes through the slot that holds
`c`, and `c` is not the sentinel. -/
theorem walk_slot {s : State} {F : List Int} {lab : Nat → List Int} (hT : TInv s F lab)
    {n k : Nat} {c : Int} (hs : slotOf s.ACnodebuf_base_codes c = some k)
    (hl : (s.node n).getLink k ≠ -1) : F[k]? = some c ∧ c ≠ -1 := by
  obtain ⟨hk, hc⟩ := slotOf_some hs
  obtain ⟨c1, e1, _⟩ := hT.label n k hk hl
  rw [hT.codes, pad_get F k hk, e1] at hc
  simp only [Option.getD_some] at hc
  subst hc
  refine ⟨e1, ?_⟩
  intro e
  exact hT.good.nosent (e ▸ List.getElem?_mem e1)

theorem walk_label {s : State} {F : List Int} {lab : Nat → List Int} (hT : TInv s F lab) :
    ∀ (P : List Int) (n t : Nat), walk s n P = some t → lab t = lab n ++ P := by
  intro P
  induction P with
  | nil =>
    intro n t h
    simp only [walk, Option.some.injEq] at h
    rw [h]; simp
  | cons c rest ih =>
    intro n t h
    obtain ⟨k, hs, hl, hw⟩ := walk_cons.1 h
    obtain ⟨hk, _⟩ := slotOf_some hs
    obtain ⟨e1, _⟩ := walk_slot hT hs hl
    obtain ⟨c1, e2, e3⟩ := hT.label n k hk hl
    rw [e1] at e2
    cases e2
    rw [ih _ t hw, e3]
    simp

theorem walk_lt {s : State} {F : List Int} {lab : Nat → List Int} (hT : TInv s F lab) :
    ∀ (P : List Int) (n t : Nat), n < s.ACnodebuf.length → walk s n P = some t →
      t < s.ACnodebuf.length := by
  intro P
  induction P with
  | nil =>
    intro n t hn h
    simp only [walk, Option.some.injEq] at h
    omega
  | cons c rest ih =>
    intro n t _ h
    obtain ⟨k, hs, hl, hw⟩ := walk_cons.1 h
    obtain ⟨j, hj, hjlt⟩ := hT.links.2 n k (slotOf_some hs).1 hl
    rw [hj] at hw
    exact ih j t hjlt hw

theorem walk_mono {s s1 : State} {F F1 : List Int} {lab : Nat → List Int} (hT : TInv s F lab)
    (hg : GoodF F1) (hbc : s1.ACnodebuf_base_codes = pad F1) (hE : Ext s s1 F F1) :
    ∀ (P : List Int) (n t : Nat), walk s n P = some t → walk s1 n P = some t := by
  intro P
  induction P with
  | nil => intro n t h; exact h
  | cons c rest ih =>
    intro n t h
    obtain ⟨k, hs, hl, hw⟩ := walk_cons.1 h
    obtain ⟨e1, hc⟩ := walk_slot hT hs hl
    have hl1 := hE.nodes n k (slotOf_some hs).1 hl
    refine walk_cons.2 ⟨k, ?_, by rw [hl1]; exact hl, by rw [hl1]; exact ih _ t hw⟩
    rw [hbc]
    exact (slotOf_pad hg c hc k).2 (hE.codes k c e1)

theorem loop_trie : ∀ (P : List Int) (s : State) (n : Nat) (F : List Int)
    (lab : Nat → List Int), TInv s F lab → n < s.ACnodebuf.length → (∀ c, c ∈ P → c ≠ -1) →
    ∀ (s1 : State) (t : Nat), ACnodebuf_addPattern_loop s n P = .ok (s1, t) →
    (s1.ACnodebuf.length : Int) ≤ s.ACnodebuf_maxcount →
    ∃ F1 lab1, LoopTrie s n P F lab s1 t F1 lab1 := by
  intro P
  induction P with
  | nil =>
    intro s n F lab hT _ _ s1 t h _
    simp only [ACnodebuf_addPattern_loop, Except.ok.injEq, Prod.mk.injEq] at h
    obtain ⟨rfl, rfl⟩ := h
    exact ⟨F, lab, ⟨rfl, hT, ext_refl _ _, fun _ _ => rfl, rfl, rfl, rfl⟩⟩
  | cons c rest ih =>
    intro s n F lab hT hn hP s1 t h hcap
    have hc : c ≠ -1 := hP c (List.mem_cons_self _ _)
    simp only [ACnodebuf_addPattern_loop] at h
    cases ha : alphaStep F c with
    | none =>
      rw [step_err c hn hT.good hT.codes ha] at h
      cases h
    | some F2 =>
      obtain ⟨k, s2, ch, hstep, hf⟩ := step_ok c hT.links hn hT.good hT.codes ha
      rw [hstep] at h
      simp only at h
      obtain ⟨hl2, hch⟩ := step_links hf hT.links
      obtain ⟨_, _, hcx⟩ := loop_ok_ctl rest s2 ch F2 hl2 hch (alphaStep_good hT.good c ha).1
        hf.codes s1 t h
      have hcap2 : (s2.ACnodebuf.length : Int) ≤ s.ACnodebuf_maxcount := by
        have := hcx.lower
        omega
      have emax := (step_cap hf hcap2).1
      obtain ⟨lab2, hT2, hlab2, _⟩ := step_tinv hf hT hn hc ha hcap2
      obtain ⟨F1, lab1, hL⟩ := ih s2 ch F2 lab2 hT2 hch
        (fun x hx => hP x (List.mem_cons_of_mem _ hx)) s1 t h (by rw [emax]; exact hcap)
      have hE2 := step_ext hf hT.good ha
      refine ⟨F1, lab1, ⟨?_, hL.tinv, ext_trans hE2 hL.ext, ?_, ?_, hL.dups.trans hf.dups,
        hL.plen.trans hf.plen⟩⟩
      · simp only [alphaRun, ha]
        exact hL.run
      · intro i hi
        rw [hL.labs i (lt_of_lt_of_le hi hE2.count), hlab2 i hi]
      · have hlink := step_link hf hcap2
        have hne : (s2.node n).getLink k ≠ -1 := by
          rw [hlink]; omega
        have hl1 := hL.ext.nodes n k hf.hk hne
        refine walk_cons.2 ⟨k, ?_, by rw [hl1]; exact hne, ?_⟩
        · rw [hL.tinv.codes]
          exact (slotOf_pad hL.tinv.good c hc k).2 (hL.ext.codes k c (hf.bound hc))
        · rw [hl1, hlink]
          simpa using hL.reach

/-! ## The buffer of duplicates -/

theorem appendtoline_vals (line : DupsBufLine) (p : Int) :
    (dupsbuf_appendtoline line p).1.vals = line.vals ++ [p] := by
  unfold dupsbuf_appendtoline
  by_cases h : line.count ≥ line.maxcount <;> simp [h]

theorem appendtoline_first (line : DupsBufLine) (p o : Int) (h : line.first = some o) :
    (dupsbuf_appendtoline line p).1.first = some o := by
  unfold DupsBufLine.first at h ⊢
  rw [appendtoline_vals]
  cases hv : line.vals with
  | nil => rw [hv] at h; cases h
  | cons a rest => rw [hv] at h; simpa using h

theorem scan_none (o p : Int) : ∀ (ls : List DupsBufLine), dupsbuf_scan o p ls = none →
    ∀ l, l ∈ ls → l.first ≠ some o := by
  intro ls
  induction ls with
  | nil => intro _ l hl; exact absurd hl (List.not_mem_nil _)
  | cons line rest ih =>
    intro h l hl
    simp only [dupsbuf_scan] at h
    by_cases h1 : line.vals.head? = some o
    · rw [if_pos h1] at h; cases h
    · rw [if_neg h1] at h
      cases hr : dupsbuf_scan o p rest with
      | some r => rw [hr] at h; cases h
      | none =>
        rcases List.mem_cons.1 hl with e | e
        · rw [e]; exact h1
        · exact ih hr l e

theorem scan_some (o p : Int) : ∀ (ls ls1 : List DupsBufLine) (r : Int),
    dupsbuf_scan o p ls = some (ls1, r) →
    ls1.map DupsBufLine.first = ls.map DupsBufLine.first ∧
    (∀ l, l ∈ ls → ∃ l1, l1 ∈ ls1 ∧ l1.first = l.first ∧ ∀ x, x ∈ l.vals → x ∈ l1.vals) ∧
    (∃ l1, l1 ∈ ls1 ∧ l1.first = some o ∧ p ∈ l1.vals) := by
  intro ls
  induction ls with
  | nil => intro ls1 r h; cases h
  | cons line rest ih =>
    intro ls1 r h
    simp only [dupsbuf_scan] at h
    by_cases h1 : line.vals.head? = some o
    · rw [if_pos h1] at h
      simp only [Option.some.injEq, Prod.mk.injEq] at h
      obtain ⟨rfl, _⟩ := h
      have hf := appendtoline_first line p o h1
      have hv := appendtoline_vals line p
      refine ⟨?_, ?_, ?_⟩
      · simp only [List.map_cons, hf]
        congr 1
        exact h1.symm
      · intro l hl
        rcases List.mem_cons.1 hl with e | e
        · refine ⟨_, List.mem_cons_self _ _, ?_, ?_⟩
          · rw [hf, e]; exact h1.symm
          · intro x hx
            rw [hv]
            rw [e] at hx
            exact List.mem_append_left _ hx
        · exact ⟨l, List.mem_cons_of_mem _ e, rfl, fun _ hx => hx⟩
      · exact ⟨_, List.mem_cons_self _ _, hf, by rw [hv]; simp⟩
    · rw [if_neg h1] at h
      cases hr : dupsbuf_scan o p rest with
      | none => rw [hr] at h; cases h
      | some r1 =>
        obtain ⟨rest1, r2⟩ := r1
        rw [hr] at h
        simp only [Option.some.injEq, Prod.mk.injEq] at h
        obtain ⟨rfl, _⟩ := h
        obtain ⟨a1, a2, l1, b1, b2, b3⟩ := ih rest1 r2 hr
        refine ⟨?_, ?_, ⟨l1, List.mem_cons_of_mem _ b1, b2, b3⟩⟩
        · simp only [List.map_cons, a1]
        · intro l hl
          rcases List.mem_cons.1 hl with e | e
          · exact ⟨l, by rw [e]; exact List.mem_cons_self _ _, rfl, fun _ hx => hx⟩
          · obtain ⟨l2, c1, c2, c3⟩ := a2 l e
            exact ⟨l2, List.mem_cons_of_mem _ c1, c2, c3⟩

/-- What `dupsbuf_append` does to the lines: the first values stay pairwise
distinct, every line keeps its first value and its values, and a line whose
first value is `o` holds `p`. -/
theorem dupsbuf_append_lines (s : State) (o p : Int) :
    ((s.dupsbuf.map DupsBufLine.first).Nodup →
      ((dupsbuf_append s o p).1.dupsbuf.map DupsBufLine.first).Nodup) ∧
    (∀ l, l ∈ s.dupsbuf → ∃ l1, l1 ∈ (dupsbuf_append s o p).1.dupsbuf ∧
      l1.first = l.first ∧ ∀ x, x ∈ l.vals → x ∈ l1.vals) ∧
    (∃ l1, l1 ∈ (dupsbuf_append s o p).1.dupsbuf ∧ l1.first = some o ∧ p ∈ l1.vals) := by
  unfold dupsbuf_append
  cases hr : dupsbuf_scan o p s.dupsbuf with
  | some r =>
    obtain ⟨ls1, r1⟩ := r
    obtain ⟨a1, a2, a3⟩ := scan_some o p s.dupsbuf ls1 r1 hr
    exact ⟨fun h => by simpa only [a1] using h, a2, a3⟩
  | none =>
    have hnone := scan_none o p s.dupsbuf hr
    have hd : ∀ t : State, t.dupsbuf = s.dupsbuf →
        ((s.dupsbuf.map DupsBufLine.first).Nodup →
          ((t.dupsbuf ++ [(dupsbuf_appendtoline (dupsbuf_appendtoline
            { vals := [], maxcount := 0 } o).1 p).1]).map DupsBufLine.first).Nodup) ∧
        (∀ l, l ∈ s.dupsbuf → ∃ l1, l1 ∈ t.dupsbuf ++ [(dupsbuf_appendtoline
            (dupsbuf_appendtoline { vals := [], maxcount := 0 } o).1 p).1] ∧
          l1.first = l.first ∧ ∀ x, x ∈ l.vals → x ∈ l1.vals) ∧
        (∃ l1, l1 ∈ t.dupsbuf ++ [(dupsbuf_appendtoline
            (dupsbuf_appendtoline { vals := [], maxcount := 0 } o).1 p).1] ∧
          l1.first = some o ∧ p ∈ l1.vals) := by
      intro t ht
      have hv : (dupsbuf_appendtoline (dupsbuf_appendtoline
          { vals := [], maxcount := 0 } o).1 p).1.vals = [o, p] := by
        rw [appendtoline_vals, appendtoline_vals]
        rfl
      have hf : (dupsbuf_appendtoline (dupsbuf_appendtoline
          { vals := [], maxcount := 0 } o).1 p).1.first = some o := by
        unfold DupsBufLine.first
        rw [hv]
        rfl
      rw [ht]
      refine ⟨?_, ?_, ⟨_, List.mem_append_right _ (List.mem_singleton_self _), hf, by rw [hv]; simp⟩⟩
      · intro hnd
        rw [List.map_append, List.map_singleton, hf]
        refine List.Nodup.append hnd (List.nodup_singleton _) ?_
        intro x hx1 hx2
        rw [List.mem_singleton] at hx2
        obtain ⟨l, hl, e⟩ := List.mem_map.1 hx1
        exact hnone l hl (e.trans hx2)
      · intro l hl
        exact ⟨l, List.mem_append_left _ hl, rfl, fun _ hx => hx⟩
    by_cases hc : s.dupsbuf_count ≥ s.dupsbuf_maxcount
    · simp only [hc, if_true]
      exact hd _ rfl
    · simp only [hc, if_false]
      exact hd _ rfl

/-! ## Owners and duplicates -/

theorem walk_congr {s s1 : State} (hbc : s1.ACnodebuf_base_codes = s.ACnodebuf_base_codes)
    (hn : ∀ i k, (s1.node i).getLink k = (s.node i).getLink k) :
    ∀ (P : List Int) (n : Nat), walk s1 n P = walk s n P := by
  intro P
  induction P with
  | nil => intro n; rfl
  | cons c rest ih =>
    intro n
    simp only [walk, hbc, hn, ih]

theorem tinv_congr {s s1 : State} {F : List Int} {lab : Nat → List Int} (hT : TInv s F lab)
    (hc : s1.ACnodebuf.length = s.ACnodebuf.length)
    (hbc : s1.ACnodebuf_base_codes = s.ACnodebuf_base_codes)
    (hn : ∀ i k, (s1.node i).getLink k = (s.node i).getLink k) : TInv s1 F lab := by
  refine ⟨linksIn_congr hT.links hc hn, hT.good, hbc.trans hT.codes, ?_⟩
  intro i k hk hne
  rw [hn] at hne ⊢
  exact hT.label i k hk hne

theorem pid_lt {s : State} {t : Nat} (h : (s.node t).P_id ≠ -1) : t < s.ACnodebuf.length := by
  by_contra hge
  rw [node_ge s t (by omega)] at h
  exact h rfl

theorem getElem?_snoc_cases {ds : List Pattern} {P Q : Pattern} {k : Nat}
    (h : (ds ++ [P])[k]? = some Q) : ds[k]? = some Q ∨ (k = ds.length ∧ Q = P) := by
  by_cases hk : k < ds.length
  · rw [List.getElem?_append_left hk] at h
    exact Or.inl h
  · rw [List.getElem?_append_right (by omega)] at h
    right
    have h2 : k - ds.length = 0 := by
      by_contra hne
      rw [List.getElem?_eq_none (by simp; omega)] at h
      cases h
    rw [h2] at h
    simp only [List.getElem?_cons_zero, Option.some.injEq] at h
    exact ⟨by omega, h.symm⟩

theorem firstIdx_append_of_mem {P : Pattern} : ∀ {ds : List Pattern} (rest : List Pattern),
    P ∈ ds → firstIdx P (ds ++ rest) = firstIdx P ds := by
  intro ds
  induction ds with
  | nil => intro _ h; exact absurd h (List.not_mem_nil _)
  | cons Q tl ih =>
    intro rest h
    simp only [List.cons_append, firstIdx]
    by_cases hq : Q = P
    · rw [if_pos hq, if_pos hq]
    · rw [if_neg hq, if_neg hq]
      rcases List.mem_cons.1 h with e | e
      · exact absurd e.symm hq
      · exact congrArg (fun x => x + 1) (ih rest e)

theorem firstIdx_snoc_of_not_mem {P : Pattern} : ∀ {ds : List Pattern},
    P ∉ ds → firstIdx P (ds ++ [P]) = ds.length := by
  intro ds
  induction ds with
  | nil => intro _; simp [firstIdx]
  | cons Q tl ih =>
    intro h
    simp only [List.cons_append, firstIdx, List.length_cons]
    have hq : ¬ Q = P := fun e => h (e ▸ List.mem_cons_self _ _)
    rw [if_neg hq]
    exact congrArg (fun x => x + 1) (ih (fun hm => h (List.mem_cons_of_mem _ hm)))

theorem firstIdx_spec {P : Pattern} : ∀ {ds : List Pattern}, P ∈ ds →
    ds[firstIdx P ds]? = some P ∧ ∀ k, ds[k]? = some P → firstIdx P ds ≤ k := by
  intro ds
  induction ds with
  | nil => intro h; exact absurd h (List.not_mem_nil _)
  | cons Q tl ih =>
    intro h
    simp only [firstIdx]
    by_cases hq : Q = P
    · rw [if_pos hq]
      exact ⟨by simp [hq], fun _ _ => Nat.zero_le _⟩
    · rw [if_neg hq]
      rcases List.mem_cons.1 h with e | e
      · exact absurd e.symm hq
      · obtain ⟨a1, a2⟩ := ih e
        refine ⟨by simpa using a1, ?_⟩
        intro k hk
        cases k with
        | zero =>
          simp only [List.getElem?_cons_zero, Option.some.injEq] at hk
          exact absurd hk hq
        | succ j =>
          simp only [List.getElem?_cons_succ] at hk
          have := a2 j hk
          omega

/-- The terminal node had no pattern id: the new pattern becomes its owner. -/
theorem dinv_owner {s s2 : State} {F F1 : List Int} {lab lab1 : Nat → List Int}
    {ds : List Pattern} {P : Pattern} {t : Nat} (hD : DInv s F lab ds)
    (hT2 : TInv s2 F1 lab1) (hE : Ext s s2 F F1)
    (hlabs : ∀ i, i < s.ACnodebuf.length → lab1 i = lab i)
    (hreach : walk s2 0 P = some t) (hdups : s2.dupsbuf = s.dupsbuf)
    (hp : (s2.node t).P_id = -1) :
    DInv (s2.setP_id t ((ds.length : Int) + 1)) F1 lab1 (ds ++ [P]) := by
  have ht : t < s2.ACnodebuf.length := walk_lt hT2 P 0 t hT2.links.1 hreach
  obtain ⟨e1, e2, e3⟩ := setP_id_facts s2 t ((ds.length : Int) + 1) ht
  have hroot : lab1 0 = [] := by rw [hlabs 0 hD.tinv.links.1, hD.root]
  have hlabt : lab1 t = P := by
    rw [walk_label hT2 P 0 t hreach, hroot]; rfl
  have hmono := walk_mono hD.tinv hT2.good hT2.codes hE
  have hwalk : ∀ Q n, walk (s2.setP_id t ((ds.length : Int) + 1)) n Q = walk s2 n Q :=
    walk_congr rfl e3
  have hPnot : P ∉ ds := by
    intro hmem
    obtain ⟨t1, w1, p1⟩ := hD.complete P hmem
    have w2 := hmono P 0 t1 w1
    rw [hreach] at w2
    cases w2
    rw [hE.pid t] at hp
    exact p1 hp
  have hidx : firstIdx P (ds ++ [P]) = ds.length := firstIdx_snoc_of_not_mem hPnot
  refine ⟨tinv_congr hT2 e1 rfl e3, hroot, ?_, ?_, ?_, ?_⟩
  · intro t0 hne
    rw [e2 t0] at hne ⊢
    by_cases h0 : t0 = t
    · rw [if_pos h0]
      rw [h0, hlabt, hidx]
      exact ⟨List.mem_append_right _ (List.mem_singleton_self _), rfl⟩
    · rw [if_neg h0] at hne ⊢
      rw [hE.pid t0] at hne ⊢
      obtain ⟨a1, a2⟩ := hD.sound t0 hne
      rw [hlabs t0 (pid_lt hne), firstIdx_append_of_mem _ a1]
      exact ⟨List.mem_append_left _ a1, a2⟩
  · intro Q hQ
    rcases List.mem_append.1 hQ with hQ1 | hQ1
    · obtain ⟨t1, w1, p1⟩ := hD.complete Q hQ1
      refine ⟨t1, by rw [hwalk]; exact hmono Q 0 t1 w1, ?_⟩
      rw [e2 t1]
      by_cases h0 : t1 = t
      · rw [if_pos h0]
        show ((ds.length : Int) + 1) ≠ -1
        omega
      · rw [if_neg h0, hE.pid t1]
        exact p1
    · rw [List.mem_singleton] at hQ1
      refine ⟨t, by rw [hwalk, hQ1]; exact hreach, ?_⟩
      rw [e2 t, if_pos rfl]
      show ((ds.length : Int) + 1) ≠ -1
      omega
  · show (s2.dupsbuf.map DupsBufLine.first).Nodup
    rw [hdups]
    exact hD.heads
  · intro k Q hk hne
    rcases getElem?_snoc_cases hk with h1 | ⟨h1, h2⟩
    · have hmem : Q ∈ ds := List.getElem?_mem h1
      rw [firstIdx_append_of_mem _ hmem] at hne ⊢
      obtain ⟨line, l1, l2, l3⟩ := hD.dups k Q h1 hne
      exact ⟨line, by show line ∈ s2.dupsbuf; rw [hdups]; exact l1, l2, l3⟩
    · rw [h2, hidx] at hne
      exact absurd h1.symm hne

/-- The terminal node has a pattern id: the new pattern is registered as a
duplicate of that owner. -/
theorem dinv_duplicate {s s2 : State} {F F1 : List Int} {lab lab1 : Nat → List Int}
    {ds : List Pattern} {P : Pattern} {t : Nat} (hD : DInv s F lab ds)
    (hT2 : TInv s2 F1 lab1) (hE : Ext s s2 F F1)
    (hlabs : ∀ i, i < s.ACnodebuf.length → lab1 i = lab i)
    (hreach : walk s2 0 P = some t) (hdups : s2.dupsbuf = s.dupsbuf)
    (hp : (s2.node t).P_id ≠ -1) :
    DInv (dupsbuf_append s2 (s2.node t).P_id ((ds.length : Int) + 1)).1 F1 lab1 (ds ++ [P]) := by
  obtain ⟨e1, e2, _, _⟩ := dupsbuf_append_fields s2 (s2.node t).P_id ((ds.length : Int) + 1)
  obtain ⟨d1, d2, d3⟩ := dupsbuf_append_lines s2 (s2.node t).P_id ((ds.length : Int) + 1)
  generalize (dupsbuf_append s2 (s2.node t).P_id ((ds.length : Int) + 1)).1 = s3 at e1 e2 d1 d2 d3
  have en : ∀ i, s3.node i = s2.node i := node_congr e1
  have hroot : lab1 0 = [] := by rw [hlabs 0 hD.tinv.links.1, hD.root]
  have hlabt : lab1 t = P := by
    rw [walk_label hT2 P 0 t hreach, hroot]; rfl
  have hmono := walk_mono hD.tinv hT2.good hT2.codes hE
  have hwalk : ∀ Q n, walk s3 n Q = walk s2 n Q :=
    walk_congr e2 (fun i k => by rw [en])
  have hp1 : (s.node t).P_id ≠ -1 := by rw [← hE.pid t]; exact hp
  obtain ⟨o1, o2⟩ := hD.sound t hp1
  rw [← hlabs t (pid_lt hp1), hlabt] at o1 o2
  refine ⟨tinv_congr hT2 (by rw [e1]) e2 (fun i k => by rw [en]), hroot, ?_, ?_, ?_, ?_⟩
  · intro t0 hne
    rw [en t0, hE.pid t0] at hne ⊢
    obtain ⟨a1, a2⟩ := hD.sound t0 hne
    rw [hlabs t0 (pid_lt hne), firstIdx_append_of_mem _ a1]
    exact ⟨List.mem_append_left _ a1, a2⟩
  · intro Q hQ
    have hQ1 : Q ∈ ds := by
      rcases List.mem_append.1 hQ with h1 | h1
      · exact h1
      · rw [List.mem_singleton] at h1
        rw [h1]; exact o1
    obtain ⟨t1, w1, p1⟩ := hD.complete Q hQ1
    refine ⟨t1, by rw [hwalk]; exact hmono Q 0 t1 w1, ?_⟩
    rw [en t1, hE.pid t1]
    exact p1
  · exact d1 (by rw [hdups]; exact hD.heads)
  · intro k Q hk hne
    rcases getElem?_snoc_cases hk with h1 | ⟨h1, h2⟩
    · have hmem : Q ∈ ds := List.getElem?_mem h1
      rw [firstIdx_append_of_mem _ hmem] at hne ⊢
      obtain ⟨line, l1, l2, l3⟩ := hD.dups k Q h1 hne
      obtain ⟨line1, m1, m2, m3⟩ := d2 line (by rw [hdups]; exact l1)
      exact ⟨line1, m1, m2.trans l2, m3 _ l3⟩
    · obtain ⟨line1, m1, m2, m3⟩ := d3
      rw [h2, firstIdx_append_of_mem _ o1, h1]
      refine ⟨line1, m1, ?_, m3⟩
      rw [m2, hE.pid t, o2]

theorem dinv_plen {s : State} {F : List Int} {lab : Nat → List Int} {ds : List Pattern}
    (hD : DInv s F lab ds) (v : Int) :
    DInv { s with ACnodebuf_pattern_length := v } F lab ds := by
  refine ⟨⟨hD.tinv.links, hD.tinv.good, hD.tinv.codes, hD.tinv.label⟩, hD.root, hD.sound,
    ?_, hD.heads, hD.dups⟩
  intro P hP
  obtain ⟨t, w, p⟩ := hD.complete P hP
  refine ⟨t, ?_, p⟩
  have e := @walk_congr s { s with ACnodebuf_pattern_length := v } rfl (fun _ _ => rfl) P 0
  rw [e]
  exact w

/-- A successful `ACnodebuf_addPattern` of the next pattern keeps the state as
described by `DInv`. -/
theorem addPattern_dinv {s s1 : State} {F : List Int} {lab : Nat → List Int}
    {ds : List Pattern} (P : Pattern) (hD : DInv s F lab ds) (hP : ∀ c, c ∈ P → c ≠ -1)
    (h : ACnodebuf_addPattern s P ((ds.length : Int) + 1) = .ok s1)
    (hcap : (s1.ACnodebuf.length : Int) ≤ s.ACnodebuf_maxcount) :
    ∃ F1 lab1, DInv s1 F1 lab1 (ds ++ [P]) := by
  have hcap2 := addPattern_loop_cap h hcap
  have h1 : ¬ (s.ACnodebuf_pattern_length = -1 ∧ (P.length : Int) = 0) := by
    intro hc
    simp only [ACnodebuf_addPattern, hc.1, hc.2, if_true] at h
    cases h
  have h2 : ¬ (s.ACnodebuf_pattern_length ≠ -1 ∧
      (P.length : Int) ≠ s.ACnodebuf_pattern_length) := by
    intro hc
    simp only [ACnodebuf_addPattern, hc.1, hc.2, if_false, ne_eq, not_false_eq_true,
      if_true] at h
    cases h
  rw [addPattern_eq s P _ h1 h2] at h
  have hD0 := dinv_plen hD (P.length : Int)
  generalize ({ s with ACnodebuf_pattern_length := (P.length : Int) } : State) = s0
    at h hD0 hcap2
  cases hl : ACnodebuf_addPattern_loop s0 0 P with
  | error e => rw [hl] at h; cases h
  | ok r =>
    obtain ⟨s2, t⟩ := r
    rw [hl] at h
    simp only at h
    obtain ⟨F1, lab1, hL⟩ := loop_trie P s0 0 F lab hD0.tinv hD0.tinv.links.1 hP s2 t hl
      (hcap2 s2 t hl)
    by_cases hp : (s2.node t).P_id = -1
    · rw [if_pos hp] at h
      cases h
      exact ⟨F1, lab1, dinv_owner hD0 hL.tinv hL.ext hL.labs hL.reach hL.dups hp⟩
    · rw [if_neg hp] at h
      cases h
      exact ⟨F1, lab1, dinv_duplicate hD0 hL.tinv hL.ext hL.labs hL.reach hL.dups hp⟩

theorem initLoop_dinv : ∀ (rest : List Pattern) (s s1 : State) (F : List Int)
    (lab : Nat → List Int) (ds : List Pattern), DInv s F lab ds →
    (∀ P, P ∈ rest → ∀ c, c ∈ P → c ≠ -1) →
    ULdna_init_loop s ds.length rest = .ok s1 →
    (s1.ACnodebuf.length : Int) ≤ s.ACnodebuf_maxcount →
    ∃ F1 lab1, DInv s1 F1 lab1 (ds ++ rest) := by
  intro rest
  induction rest with
  | nil =>
    intro s s1 F lab ds hD _ h _
    simp only [ULdna_init_loop, Except.ok.injEq] at h
    subst h
    exact ⟨F, lab, by simpa using hD⟩
  | cons P tl ih =>
    intro s s1 F lab ds hD hP h hcap
    simp only [ULdna_init_loop] at h
    cases ha : ACnodebuf_addPattern s P ((ds.length : Int) + 1) with
    | error e => rw [ha] at h; cases h
    | ok s2 =>
      rw [ha] at h
      simp only at h
      obtain ⟨c1, c2⟩ := grow_split (addPattern_grow ha) (initLoop_grow tl s2 s1 _ h) hcap
      obtain ⟨F2, lab2, hD2⟩ := addPattern_dinv P hD (hP P (List.mem_cons_self _ _)) ha c1
      have hlen : (ds ++ [P]).length = ds.length + 1 := by simp
      rw [← hlen] at h
      obtain ⟨F1, lab1, hD1⟩ := ih s2 s1 F2 lab2 (ds ++ [P]) hD2
        (fun Q hQ => hP Q (List.mem_cons_of_mem _ hQ)) h c2
      exact ⟨F1, lab1, by simpa using hD1⟩

theorem root_dinv : DInv rootState [] (fun _ => []) [] := by
  refine ⟨⟨root_links, good_nil, root_codes, ?_⟩, rfl, ?_, ?_, List.nodup_nil, ?_⟩
  · intro i k _ h
    rw [root_node, fresh_getLink] at h
    exact absurd rfl h
  · intro t h
    rw [root_node] at h
    exact absurd rfl h
  · intro P hP
    exact absurd hP (List.not_mem_nil _)
  · intro k P hk
    simp at hk

/-- After a successful `ULdna_init` on a dictionary without the char of code
`-1`, that has not grown the node buffer beyond its first capacity, the state
is as `DInv` describes it for the whole dictionary. -/
theorem init_dinv (g : State) (d : List Pattern) (s : State) (h : ULdna_init g d = .ok s)
    (hs : ∀ P, P ∈ d → ∀ c, c ∈ P → c ≠ -1) (hcap : s.ACnodebuf_count ≤ 50000) :
    ∃ F lab, DInv s F lab d := by
  rw [ULdna_init_eq] at h
  obtain ⟨F, lab, hD⟩ := initLoop_dinv d rootState s [] (fun _ => []) [] root_dinv hs h hcap
  exact ⟨F, lab, by simpa using hD⟩

theorem node_some (s : State) (t : Nat) (h : t < s.ACnodebuf.length) :
    s.ACnodebuf[t]? = some (s.node t) := by
  simp [State.node, List.getElem?_eq_getElem h]

/-- The node a pattern of the dictionary leads to, its owner, and the line of
the duplicates of that owner. -/
theorem dinv_owner_of {s : State} {F : List Int} {lab : Nat → List Int} {d : List Pattern}
    (hD : DInv s F lab d) {k : Nat} {P : Pattern} (hk : d[k]? = some P) :
    ∃ t, walk s 0 P = some t ∧ s.ACnodebuf[t]? = some (s.node t) ∧
      (s.node t).P_id = ((firstIdx P d : Nat) : Int) + 1 ∧
      d[firstIdx P d]? = some P ∧ firstIdx P d ≤ k ∧
      (∀ m, m < firstIdx P d → d[m]? ≠ some P) ∧
      (firstIdx P d ≠ k → ∃ line, line ∈ s.dupsbuf ∧
        line.vals.head? = some (((firstIdx P d : Nat) : Int) + 1) ∧
        ((k : Int) + 1) ∈ line.vals ∧
        ∀ line2, line2 ∈ s.dupsbuf →
          line2.vals.head? = some (((firstIdx P d : Nat) : Int) + 1) → line2 = line) := by
  have hmem : P ∈ d := List.getElem?_mem hk
  obtain ⟨t, w, p⟩ := hD.complete P hmem
  have hlab : lab t = P := by
    rw [walk_label hD.tinv P 0 t w, hD.root]; rfl
  obtain ⟨_, o2⟩ := hD.sound t p
  rw [hlab] at o2
  obtain ⟨f1, f2⟩ := firstIdx_spec hmem
  refine ⟨t, w, node_some s t (pid_lt p), o2, f1, f2 k hk, ?_, ?_⟩
  · intro m hm e
    have := f2 m e
    omega
  · intro hne
    obtain ⟨line, l1, l2, l3⟩ := hD.dups k P hk hne
    refine ⟨line, l1, l2, l3, ?_⟩
    intro line2 m1 m2
    exact List.inj_on_of_nodup_map hD.heads m1 l1 (m2.trans l2.symm)

/-! ## The loop of `ACnodebuf_addPattern` as an induction, and the tree of links -/

theorem loop_induct (I : State → Nat → List Int → List Int → List Int → Prop)
    (hstep : ∀ (s : State) (n : Nat) (F pre : List Int) (c : Int) (rest F' : List Int)
      (k : Nat) (s1 : State) (ch : Nat), LinksIn s → n < s.ACnodebuf.length → GoodF F →
      s.ACnodebuf_base_codes = pad F → alphaStep F c = some F' → StepFacts s n c F' k s1 ch →
      I s n F pre (c :: rest) → I s1 ch F' (pre ++ [c]) rest) :
    ∀ (P : List Int) (s : State) (n : Nat) (F pre : List Int), LinksIn s →
      n < s.ACnodebuf.length → GoodF F → s.ACnodebuf_base_codes = pad F → I s n F pre P →
      ∀ (s1 : State) (t : Nat), ACnodebuf_addPattern_loop s n P = .ok (s1, t) →
      ∃ F1, alphaRun F P = some F1 ∧ GoodF F1 ∧ s1.ACnodebuf_base_codes = pad F1 ∧
        LinksIn s1 ∧ t < s1.ACnodebuf.length ∧ s1.dupsbuf = s.dupsbuf ∧
        s1.ACnodebuf_pattern_length = s.ACnodebuf_pattern_length ∧ I s1 t F1 (pre ++ P) [] := by
  intro P
  induction P with
  | nil =>
    intro s n F pre hl hn hF hbc hI s1 t h
    simp only [ACnodebuf_addPattern_loop, Except.ok.injEq, Prod.mk.injEq] at h
    obtain ⟨rfl, rfl⟩ := h
    exact ⟨F, rfl, hF, hbc, hl, hn, rfl, rfl, by simpa using hI⟩
  | cons c rest ih =>
    intro s n F pre hl hn hF hbc hI s1 t h
    simp only [ACnodebuf_addPattern_loop] at h
    cases ha : alphaStep F c with
    | none =>
      rw [step_err c hn hF hbc ha] at h
      cases h
    | some F2 =>
      obtain ⟨k, s2, ch, hstep2, hf⟩ := step_ok c hl hn hF hbc ha
      rw [hstep2] at h
      simp only at h
      obtain ⟨hl2, hch⟩ := step_links hf hl
      have hI2 := hstep s n F pre c rest F2 k s2 ch hl hn hF hbc ha hf hI
      obtain ⟨F1, r1, r2, r3, r4, r5, r6, r7, r8⟩ :=
        ih s2 ch F2 (pre ++ [c]) hl2 hch (alphaStep_good hF c ha).1 hf.codes hI2 s1 t h
      refine ⟨F1, ?_, r2, r3, r4, r5, r6.trans hf.dups, r7.trans hf.plen, by simpa using r8⟩
      simp only [alphaRun, ha]
      exact r1

/-- The same induction for a loop during which the node buffer is not grown:
each iteration is known to stay within the capacity. -/
theorem loop_induct_cap (I : State → Nat → List Int → List Int → List Int → Prop)
    (hstep : ∀ (s : State) (n : Nat) (F pre : List Int) (c : Int) (rest F' : List Int)
      (k : Nat) (s1 : State) (ch : Nat), LinksIn s → n < s.ACnodebuf.length → GoodF F →
      s.ACnodebuf_base_codes = pad F → alphaStep F c = some F' → StepFacts s n c F' k s1 ch →
      (s1.ACnodebuf.length : Int) ≤ s.ACnodebuf_maxcount →
      I s n F pre (c :: rest) → I s1 ch F' (pre ++ [c]) rest) :
    ∀ (P : List Int) (s : State) (n : Nat) (F pre : List Int), LinksIn s →
      n < s.ACnodebuf.length → GoodF F → s.ACnodebuf_base_codes = pad F → I s n F pre P →
      ∀ (s1 : State) (t : Nat), ACnodebuf_addPattern_loop s n P = .ok (s1, t) →
      (s1.ACnodebuf.length : Int) ≤ s.ACnodebuf_maxcount →
      ∃ F1, alphaRun F P = some F1 ∧ GoodF F1 ∧ s1.ACnodebuf_base_codes = pad F1 ∧
        LinksIn s1 ∧ t < s1.ACnodebuf.length ∧ s1.dupsbuf = s.dupsbuf ∧
        s1.ACnodebuf_pattern_length = s.ACnodebuf_pattern_length ∧ I s1 t F1 (pre ++ P) [] := by
  intro P
  induction P with
  | nil =>
    intro s n F pre hl hn hF hbc hI s1 t h _
    simp only [ACnodebuf_addPattern_loop, Except.ok.injEq, Prod.mk.injEq] at h
    obtain ⟨rfl, rfl⟩ := h
    exact ⟨F, rfl, hF, hbc, hl, hn, rfl, rfl, by simpa using hI⟩
  | cons c rest ih =>
    intro s n F pre hl hn hF hbc hI s1 t h hcap
    simp only [ACnodebuf_addPattern_loop] at h
    cases ha : alphaStep F c with
    | none =>
      rw [step_err c hn hF hbc ha] at h
      cases h
    | some F2 =>
      obtain ⟨k, s2, ch, hstep2, hf⟩ := step_ok c hl hn hF hbc ha
      rw [hstep2] at h
      simp only at h
      obtain ⟨hl2, hch⟩ := step_links hf hl
      obtain ⟨c1, c2⟩ := grow_split (step_grow hstep2) (loop_grow rest s2 s1 ch t h) hcap
      have hI2 := hstep s n F pre c rest F2 k s2 ch hl hn hF hbc ha hf c1 hI
      obtain ⟨F1, r1, r2, r3, r4, r5, r6, r7, r8⟩ :=
        ih s2 ch F2 (pre ++ [c]) hl2 hch (alphaStep_good hF c ha).1 hf.codes hI2 s1 t h c2
      refine ⟨F1, ?_, r2, r3, r4, r5, r6.trans hf.dups, r7.trans hf.plen, by simpa using r8⟩
      simp only [alphaRun, ha]
      exact r1

theorem tree_links {s : State} (hT : TreeInv s) : LinksIn s :=
  ⟨hT.root, fun i k hk hne => by
    obtain ⟨j, hj, _, hlt⟩ := hT.up i k hk hne
    exact ⟨j, hj, hlt⟩⟩

/-- The link `k1` of node `i` after one loop iteration: the new link, or the
link as it was. -/
theorem step_getLink {s s1 : State} {n k ch : Nat} {c : Int} {F' : List Int}
    (h : StepFacts s n c F' k s1 ch) (hcap : (s1.ACnodebuf.length : Int) ≤ s.ACnodebuf_maxcount)
    (i k1 : Nat) (hk1 : k1 < 4) :
    (s1.node i).getLink k1 =
      if (s.node n).getLink k = -1 ∧ i = n ∧ k1 = k then (s.ACnodebuf.length : Int)
      else (s.node i).getLink k1 := by
  rw [(step_cap h hcap).2 i]
  by_cases hnew : (s.node n).getLink k = -1 ∧ i = n
  · rw [if_pos hnew]
    by_cases hkk : k1 = k
    · rw [if_pos ⟨hnew.1, hnew.2, hkk⟩, hkk, getLink_setLink]
    · rw [if_neg (fun hh => hkk hh.2.2), getLink_setLink_ne _ _ _ _ hk1 h.hk hkk, hnew.2]
  · rw [if_neg hnew, if_neg (fun hh => hnew ⟨hh.1, hh.2.1⟩)]

/-- The link `k1` of node `i` after one loop iteration, whether or not the
buffer has been grown: the link as it was, or the link from `n` to the new node. -/
theorem step_getLink_cases {s s1 : State} {n k ch : Nat} {c : Int} {F' : List Int}
    (h : StepFacts s n c F' k s1 ch) (i k1 : Nat) (hk1 : k1 < 4) :
    (s1.node i).getLink k1 = (s.node i).getLink k1 ∨
      ((s.node n).getLink k = -1 ∧ i = n ∧
        (s1.node i).getLink k1 = (s.ACnodebuf.length : Int)) := by
  rw [h.nodes i]
  by_cases hnew : ((s.node n).getLink k = -1 ∧ i = n) ∧ s.ACnodebuf_count < s.ACnodebuf_maxcount
  · rw [if_pos hnew]
    by_cases hkk : k1 = k
    · right
      rw [hkk, getLink_setLink]
      exact ⟨hnew.1.1, hnew.1.2, rfl⟩
    · left
      rw [getLink_setLink_ne _ _ _ _ hk1 h.hk hkk, hnew.1.2]
  · rw [if_neg hnew]
    exact Or.inl rfl

theorem step_up {s s1 : State} {n k ch : Nat} {c : Int} {F' : List Int}
    (h : StepFacts s n c F' k s1 ch) (hU : UpLinks s) (hn : n < s.ACnodebuf.length) :
    UpLinks s1 ∧ n < ch := by
  have hcnt := step_count h
  have hcount := h.count
  refine ⟨⟨by have := hU.1; omega, ?_⟩, ?_⟩
  · intro i k1 hk1 hne
    rcases step_getLink_cases h i k1 hk1 with e | ⟨hlk, hi, e⟩
    · rw [e] at hne ⊢
      obtain ⟨j, hj, h1, h2⟩ := hU.2 i k1 hk1 hne
      exact ⟨j, hj, h1, by omega⟩
    · rw [if_pos hlk] at hcount
      exact ⟨s.ACnodebuf.length, e, by omega, by omega⟩
  · have hch := h.child
    by_cases hlk : (s.node n).getLink k = -1
    · rw [if_pos hlk] at hch
      omega
    · rw [if_neg hlk] at hch
      obtain ⟨j, hj, h1, _⟩ := hU.2 n k h.hk hlk
      rw [hj] at hch
      omega

theorem tree_up {s : State} (hT : TreeInv s) : UpLinks s := ⟨hT.root, hT.up⟩

theorem up_links {s : State} (hU : UpLinks s) : LinksIn s :=
  ⟨hU.1, fun i k hk hne => by
    obtain ⟨j, hj, _, hlt⟩ := hU.2 i k hk hne
    exact ⟨j, hj, hlt⟩⟩

theorem up_congr {s s1 : State} (hU : UpLinks s)
    (hc : s1.ACnodebuf.length = s.ACnodebuf.length)
    (hn : ∀ i k, (s1.node i).getLink k = (s.node i).getLink k) : UpLinks s1 := by
  refine ⟨by rw [hc]; exact hU.1, ?_⟩
  intro i k hk hne
  rw [hn] at hne ⊢
  rw [hc]
  exact hU.2 i k hk hne

theorem step_tree {s s1 : State} {n k ch : Nat} {c : Int} {F' : List Int}
    (h : StepFacts s n c F' k s1 ch) (hT : TreeInv s) (hn : n < s.ACnodebuf.length)
    (hcap : (s1.ACnodebuf.length : Int) ≤ s.ACnodebuf_maxcount) :
    TreeInv s1 ∧ n < ch := by
  have step_getLink := fun (h : StepFacts s n c F' k s1 ch) => step_getLink h hcap
  have hcnt := step_count h
  have hcount := h.count
  refine ⟨⟨?_, ?_, ?_, by have := hT.root; omega⟩, ?_⟩
  · intro i k1 hk1 hne
    rw [step_getLink h i k1 hk1] at hne ⊢
    by_cases hnew : (s.node n).getLink k = -1 ∧ i = n ∧ k1 = k
    · rw [if_pos hnew]
      rw [if_pos hnew.1] at hcount
      exact ⟨s.ACnodebuf.length, rfl, by rw [hnew.2.1]; exact hn, by omega⟩
    · rw [if_neg hnew] at hne ⊢
      obtain ⟨j, hj, h1, h2⟩ := hT.up i k1 hk1 hne
      exact ⟨j, hj, h1, by omega⟩
  · intro j hj0 hjlt
    by_cases hjold : j < s.ACnodebuf.length
    · obtain ⟨i, k1, hk1, e⟩ := hT.parent j hj0 hjold
      refine ⟨i, k1, hk1, ?_⟩
      rw [step_getLink h i k1 hk1, if_neg, e]
      intro hnew
      rw [hnew.2.1, hnew.2.2, hnew.1] at e
      omega
    · have hlk : (s.node n).getLink k = -1 := by
        by_contra hlk
        rw [if_neg hlk] at hcount
        omega
      rw [if_pos hlk] at hcount
      refine ⟨n, k, h.hk, ?_⟩
      rw [step_getLink h n k h.hk, if_pos ⟨hlk, rfl, rfl⟩]
      have : j = s.ACnodebuf.length := by omega
      rw [this]
  · intro i k1 i1 k2 hk1 hk2 hne e
    rw [step_getLink h i k1 hk1] at hne e
    rw [step_getLink h i1 k2 hk2] at e
    by_cases hnew : (s.node n).getLink k = -1 ∧ i = n ∧ k1 = k
    · rw [if_pos hnew] at e
      by_cases hnew1 : (s.node n).getLink k = -1 ∧ i1 = n ∧ k2 = k
      · exact ⟨hnew.2.1.trans hnew1.2.1.symm, hnew.2.2.trans hnew1.2.2.symm⟩
      · rw [if_neg hnew1] at e
        have hne1 : (s.node i1).getLink k2 ≠ -1 := by rw [← e]; omega
        obtain ⟨j, hj, _, hjlt⟩ := hT.up i1 k2 hk2 hne1
        rw [hj] at e
        omega
    · rw [if_neg hnew] at hne e
      by_cases hnew1 : (s.node n).getLink k = -1 ∧ i1 = n ∧ k2 = k
      · rw [if_pos hnew1] at e
        obtain ⟨j, hj, _, hjlt⟩ := hT.up i k1 hk1 hne
        rw [hj] at e
        omega
      · rw [if_neg hnew1] at e
        exact hT.inj i k1 i1 k2 hk1 hk2 hne e
  · have hch := h.child
    by_cases hlk : (s.node n).getLink k = -1
    · rw [if_pos hlk] at hch
      omega
    · rw [if_neg hlk] at hch
      obtain ⟨j, hj, h1, _⟩ := hT.up n k h.hk hlk
      rw [hj] at hch
      omega

theorem tree_congr {s s1 : State} (hT : TreeInv s)
    (hc : s1.ACnodebuf.length = s.ACnodebuf.length)
    (hn : ∀ i k, (s1.node i).getLink k = (s.node i).getLink k) : TreeInv s1 := by
  refine ⟨?_, ?_, ?_, by rw [hc]; exact hT.root⟩
  · intro i k hk hne
    rw [hn] at hne ⊢
    rw [hc]
    exact hT.up i k hk hne
  · intro j hj0 hjlt
    rw [hc] at hjlt
    obtain ⟨i, k, hk, e⟩ := hT.parent j hj0 hjlt
    exact ⟨i, k, hk, by rw [hn]; exact e⟩
  · intro i k i1 k1 hk hk1 hne e
    rw [hn] at hne e
    rw [hn] at e
    exact hT.inj i k i1 k1 hk hk1 hne e

/-- The part of `RInv` that does not depend on the capacity. -/
theorem addPattern_rinv_up {s s1 : State} {P : Pattern} {P_id : Int} (hR : RInv s)
    (h : ACnodebuf_addPattern s P P_id = .ok s1) :
    UpLinks s1 ∧ (s1.node 0).P_id = -1 ∧
      (s1.ACnodebuf_pattern_length = -1 ∨ 1 ≤ s1.ACnodebuf_pattern_length) ∧
      ∃ F, GoodF F ∧ s1.ACnodebuf_base_codes = pad F := by
  obtain ⟨s2, t, hl, hlen, hfin⟩ := addPattern_ok_cases h
  obtain ⟨F, hF, hbc⟩ := hR.codes
  have hP1 : 1 ≤ (P.length : Int) := by
    rcases hlen with ⟨_, e⟩ | ⟨e1, e2⟩
    · omega
    · rcases hR.plen with e3 | e3
      · exact absurd e3 e1
      · omega
  have hU0 : UpLinks { s with ACnodebuf_pattern_length := (P.length : Int) } :=
    up_congr hR.up rfl (fun _ _ => rfl)
  obtain ⟨F1, _, g1, c1, _, ht, _, p1, hU2, hid2, hpre⟩ :=
    loop_induct (fun s n _ pre _ => UpLinks s ∧ (s.node 0).P_id = -1 ∧ pre.length ≤ n)
      (by
        intro s n F pre c rest F' k s1 ch _ hn hF _ ha hf hI
        obtain ⟨hU1, hlt⟩ := step_up hf hI.1 hn
        refine ⟨hU1, ?_, ?_⟩
        · rw [(step_ext hf hF ha).pid 0]
          exact hI.2.1
        · have := hI.2.2
          simp only [List.length_append, List.length_singleton]
          omega)
      P { s with ACnodebuf_pattern_length := (P.length : Int) } 0 F []
      (up_links hU0) hU0.1 hF hbc ⟨hU0, hR.rootId, by simp⟩ s2 t hl
  have ht0 : t ≠ 0 := by
    simp only [List.nil_append] at hpre
    omega
  rcases hfin with ⟨_, e⟩ | ⟨_, e⟩
  · obtain ⟨e1, e2, e3⟩ := setP_id_facts s2 t P_id ht
    rw [e]
    refine ⟨up_congr hU2 e1 e3, ?_, ?_, ⟨F1, g1, c1⟩⟩
    · rw [e2 0, if_neg (fun hh => ht0 hh.symm)]
      exact hid2
    · right
      show 1 ≤ s2.ACnodebuf_pattern_length
      rw [p1]
      exact hP1
  · obtain ⟨e1, e2, e3, _⟩ := dupsbuf_append_fields s2 (s2.node t).P_id P_id
    rw [e]
    refine ⟨up_congr hU2 (by rw [e1]) (fun i k => by rw [node_congr e1]), ?_, ?_,
      ⟨F1, g1, e2.trans c1⟩⟩
    · rw [node_congr e1]
      exact hid2
    · right
      rw [e3, p1]
      exact hP1

/-- A successful `ACnodebuf_addPattern` that does not grow the node buffer
keeps the tree of child links. -/
theorem addPattern_tree {s s1 : State} {P : Pattern} {P_id : Int} (hT : TreeInv s)
    (hcodes : ∃ F, GoodF F ∧ s.ACnodebuf_base_codes = pad F)
    (h : ACnodebuf_addPattern s P P_id = .ok s1)
    (hcap : (s1.ACnodebuf.length : Int) ≤ s.ACnodebuf_maxcount) : TreeInv s1 := by
  obtain ⟨s2, t, hl, _, hfin⟩ := addPattern_ok_cases h
  obtain ⟨F, hF, hbc⟩ := hcodes
  have hT0 : TreeInv { s with ACnodebuf_pattern_length := (P.length : Int) } :=
    tree_congr hT rfl (fun _ _ => rfl)
  obtain ⟨F1, _, _, _, _, ht, _, _, hT2⟩ :=
    loop_induct_cap (fun s _ _ _ _ => TreeInv s)
      (by
        intro s n F pre c rest F' k s1 ch _ hn _ _ _ hf hc hI
        exact (step_tree hf hI hn hc).1)
      P { s with ACnodebuf_pattern_length := (P.length : Int) } 0 F []
      (tree_links hT0) hT0.root hF hbc hT0 s2 t hl (addPattern_loop_cap h hcap s2 t hl)
  rcases hfin with ⟨_, e⟩ | ⟨_, e⟩
  · obtain ⟨e1, _, e3⟩ := setP_id_facts s2 t P_id ht
    rw [e]
    exact tree_congr hT2 e1 e3
  · obtain ⟨e1, _, _, _⟩ := dupsbuf_append_fields s2 (s2.node t).P_id P_id
    rw [e]
    exact tree_congr hT2 (by rw [e1]) (fun i k => by rw [node_congr e1])

theorem addPattern_rinv {s s1 : State} {P : Pattern} {P_id : Int} (hR : RInv s)
    (h : ACnodebuf_addPattern s P P_id = .ok s1) : RInv s1 := by
  obtain ⟨u1, u2, u3, u4⟩ := addPattern_rinv_up hR h
  refine ⟨u1, u2, u3, u4, ?_⟩
  intro hcap
  have hg := addPattern_grow h
  obtain ⟨hT, hm⟩ := hR.tree (by have := hg.1; omega)
  have hc : (s1.ACnodebuf.length : Int) ≤ s.ACnodebuf_maxcount := by rw [hm]; exact hcap
  exact ⟨addPattern_tree hT hR.codes h hc, (hg.2 hc).trans hm⟩

theorem root_tree : TreeInv rootState := by
  refine ⟨?_, ?_, ?_, by simp [rootState]⟩
  · intro i k _ h
    rw [root_node, fresh_getLink] at h
    exact absurd rfl h
  · intro j hj0 hjlt
    simp [rootState] at hjlt
    omega
  · intro i k i1 k1 _ _ h _
    rw [root_node, fresh_getLink] at h
    exact absurd rfl h

theorem root_rinv : RInv rootState :=
  ⟨tree_up root_tree, rfl, Or.inl rfl, ⟨[], good_nil, root_codes⟩, fun _ => ⟨root_tree, rfl⟩⟩

theorem reach_rinv {s : State} (h : Reach s) : RInv s := by
  induction h with
  | root g =>
    rw [init_root]
    exact root_rinv
  | add P P_id _ ha ih => exact addPattern_rinv ih ha

theorem initLoop_reach : ∀ (rest : List Pattern) (s s1 : State) (i : Nat), Reach s →
    ULdna_init_loop s i rest = .ok s1 → Reach s1 := by
  intro rest
  induction rest with
  | nil =>
    intro s s1 i hr h
    simp only [ULdna_init_loop, Except.ok.injEq] at h
    rw [← h]
    exact hr
  | cons P tl ih =>
    intro s s1 i hr h
    simp only [ULdna_init_loop] at h
    cases ha : ACnodebuf_addPattern s P ((i : Int) + 1) with
    | error e => rw [ha] at h; cases h
    | ok s2 =>
      rw [ha] at h
      exact ih s2 s1 (i + 1) (Reach.add P _ hr ha) h

/-- Every state a successful `ULdna_init` returns is a state of the builder. -/
theorem init_reach (g : State) (d : List Pattern) (s : State) (h : ULdna_init g d = .ok s) :
    Reach s :=
  initLoop_reach d _ s 0 (Reach.root g) h

/-! ## Depth of the nodes -/

theorem atDepth_mono {s s1 : State}
    (hn : ∀ (i k : Nat), k < 4 → (s.node i).getLink k ≠ -1 →
      (s1.node i).getLink k = (s.node i).getLink k) :
    ∀ {t m : Nat}, AtDepth s t m → AtDepth s1 t m := by
  intro t m h
  induction h with
  | root => exact AtDepth.root
  | child k _ hk hne ih =>
    have e := hn _ k hk hne
    rw [← e]
    exact AtDepth.child k ih hk (by rw [e]; exact hne)

theorem atDepth_dep {s : State} {dep : Nat → Nat} (d0 : dep 0 = 0)
    (dlink : ∀ (i k : Nat), k < 4 → (s.node i).getLink k ≠ -1 →
      dep ((s.node i).getLink k).toNat = dep i + 1) :
    ∀ {t m : Nat}, AtDepth s t m → dep t = m := by
  intro t m h
  induction h with
  | root => exact d0
  | child k _ hk hne ih => rw [dlink _ k hk hne, ih]

theorem step_depth {s s1 : State} {n k ch : Nat} {c : Int} {F' : List Int} {L : Nat}
    {dep : Nat → Nat} (h : StepFacts s n c F' k s1 ch) (hT : TreeInv s)
    (hn : n < s.ACnodebuf.length) (hD : DepMid s L dep n) (hm : dep n < L)
    (hcap : (s1.ACnodebuf.length : Int) ≤ s.ACnodebuf_maxcount) :
    ∃ dep1, DepMid s1 L dep1 ch ∧ dep1 ch = dep n + 1 := by
  have step_getLink := fun (h : StepFacts s n c F' k s1 ch) => step_getLink h hcap
  have hnodes0 := (step_cap h hcap).2
  obtain ⟨_, hnch⟩ := step_tree h hT hn hcap
  have hpid : ∀ i, (s1.node i).P_id = (s.node i).P_id := by
    intro i
    rw [hnodes0 i]
    by_cases hnew : (s.node n).getLink k = -1 ∧ i = n
    · rw [if_pos hnew, setLink_P_id, hnew.2]
    · rw [if_neg hnew]
  have hcount := h.count
  have hchild := h.child
  have hnP : (s.node n).P_id = -1 := by
    rcases hD.cur with hs | hf
    · exact (hs.1 hm).2
    · exact hf.2
  by_cases hlk : (s.node n).getLink k = -1
  · rw [if_pos hlk] at hcount hchild
    have hch : ch = s.ACnodebuf.length := by exact_mod_cast hchild
    have hupd : ∀ j, j < s.ACnodebuf.length →
        Function.update dep s.ACnodebuf.length (dep n + 1) j = dep j :=
      fun j hj => Function.update_noteq (by omega) _ _
    have hmono : ∀ (i k1 : Nat), k1 < 4 → (s.node i).getLink k1 ≠ -1 →
        (s1.node i).getLink k1 = (s.node i).getLink k1 := by
      intro i k1 hk1 hne
      rw [step_getLink h i k1 hk1, if_neg]
      intro hh
      rw [hh.2.1, hh.2.2] at hne
      exact hne hlk
    refine ⟨Function.update dep s.ACnodebuf.length (dep n + 1), ⟨?_, ?_, ?_, ?_, ?_, ?_⟩, ?_⟩
    · rw [hupd 0 hT.root]; exact hD.d0
    · intro i k1 hk1 hne
      rw [step_getLink h i k1 hk1] at hne ⊢
      by_cases hnew : (s.node n).getLink k = -1 ∧ i = n ∧ k1 = k
      · rw [if_pos hnew, hnew.2.1, hupd n hn]
        simp
      · rw [if_neg hnew] at hne ⊢
        obtain ⟨j, hj, hij, hjlt⟩ := hT.up i k1 hk1 hne
        have := hD.dlink i k1 hk1 hne
        rw [hj] at this ⊢
        simp only [Int.toNat_ofNat] at this ⊢
        rw [hupd j hjlt, hupd i (by omega), this]
    · intro t ht
      by_cases e : t = s.ACnodebuf.length
      · rw [e]; simp; omega
      · rw [hupd t (by omega)]
        exact hD.dle t (by omega)
    · intro t ht
      by_cases e : t = s.ACnodebuf.length
      · have h1 : AtDepth s1 n (dep n) := atDepth_mono hmono (hD.reach n hn)
        have h2 := AtDepth.child k h1 h.hk
          (by rw [step_getLink h n k h.hk, if_pos ⟨hlk, rfl, rfl⟩]; omega)
        rw [step_getLink h n k h.hk, if_pos ⟨hlk, rfl, rfl⟩] at h2
        rw [e]
        simpa using h2
      · rw [hupd t (by omega)]
        exact atDepth_mono hmono (hD.reach t (by omega))
    · intro t ht hne
      have htlt : t < s.ACnodebuf.length := by omega
      unfold Settled
      rw [hupd t htlt, hpid t]
      by_cases e : t = n
      · rw [e]
        refine ⟨fun _ => ⟨⟨k, h.hk, ?_⟩, hnP⟩, fun hh => by omega⟩
        rw [step_getLink h n k h.hk, if_pos ⟨hlk, rfl, rfl⟩]
        omega
      · have hs := hD.others t htlt e
        have hl : ∀ k1, k1 < 4 → (s1.node t).getLink k1 = (s.node t).getLink k1 := by
          intro k1 hk1
          rw [step_getLink h t k1 hk1, if_neg (fun hh => e hh.2.1)]
        refine ⟨fun hh => ?_, fun hh => ?_⟩
        · obtain ⟨⟨k1, hk1, hne1⟩, hp⟩ := hs.1 hh
          exact ⟨⟨k1, hk1, by rw [hl k1 hk1]; exact hne1⟩, hp⟩
        · obtain ⟨hall, hp⟩ := hs.2 hh
          exact ⟨fun k1 hk1 => by rw [hl k1 hk1]; exact hall k1 hk1, hp⟩
    · right
      rw [hch, hpid, node_ge s _ (le_refl _)]
      refine ⟨fun k1 hk1 => ?_, rfl⟩
      rw [step_getLink h _ k1 hk1, if_neg (fun hh => by omega), node_ge s _ (le_refl _)]
      exact fresh_getLink k1
    · rw [hch]; simp
  · rw [if_neg hlk] at hcount hchild
    have hnodes : ∀ i, s1.node i = s.node i := by
      intro i
      rw [hnodes0 i, if_neg (fun hh => hlk hh.1)]
    have hdch : dep ch = dep n + 1 := by
      have := hD.dlink n k h.hk hlk
      rw [← hchild] at this
      simpa using this
    have hsett : ∀ t, Settled s L dep t → Settled s1 L dep t := by
      intro t hs
      unfold Settled at hs ⊢
      rw [hnodes t]
      exact hs
    refine ⟨dep, ⟨hD.d0, ?_, ?_, ?_, ?_, ?_⟩, hdch⟩
    · intro i k1 hk1 hne
      rw [hnodes i] at hne ⊢
      exact hD.dlink i k1 hk1 hne
    · intro t ht
      exact hD.dle t (by omega)
    · intro t ht
      exact atDepth_mono (fun i k1 _ _ => by rw [hnodes i]) (hD.reach t (by omega))
    · intro t ht hne
      by_cases e : t = n
      · rw [e]
        apply hsett
        rcases hD.cur with hs | hf
        · exact hs
        · exact absurd (hf.1 k h.hk) hlk
      · exact hsett t (hD.others t (by omega) e)
    · left
      apply hsett
      have hchlt : ch < s.ACnodebuf.length := by
        obtain ⟨j, hj, _, hjlt⟩ := hT.up n k h.hk hlk
        rw [hj] at hchild
        omega
      exact hD.others ch hchlt (by omega)

theorem depMid_congr {s s1 : State} {L : Nat} {dep : Nat → Nat} {n : Nat}
    (hD : DepMid s L dep n) (hc : s1.ACnodebuf.length = s.ACnodebuf.length)
    (hn : ∀ i, s1.node i = s.node i) : DepMid s1 L dep n := by
  have hs : ∀ t, Settled s L dep t → Settled s1 L dep t := by
    intro t h
    unfold Settled at h ⊢
    rw [hn t]
    exact h
  refine ⟨hD.d0, ?_, ?_, ?_, ?_, ?_⟩
  · intro i k hk hne
    rw [hn i] at hne ⊢
    exact hD.dlink i k hk hne
  · intro t ht
    exact hD.dle t (by omega)
  · intro t ht
    exact atDepth_mono (fun i k _ _ => by rw [hn i]) (hD.reach t (by omega))
  · intro t ht hne
    exact hs t (hD.others t (by omega) hne)
  · rcases hD.cur with h | h
    · exact Or.inl (hs n h)
    · right
      rw [hn n]
      exact h

theorem depFull_mid {s : State} {L : Nat} {dep : Nat → Nat} (hD : DepFull s L dep)
    (hroot : 0 < s.ACnodebuf.length) : DepMid s L dep 0 :=
  ⟨hD.d0, hD.dlink, hD.dle, hD.reach, fun t ht _ => hD.all t ht, Or.inl (hD.all 0 hroot)⟩

/-- A successful `ACnodebuf_addPattern` of a pattern of length `L`, with an id
other than `-1`, leaves every node settled. -/
theorem addPattern_dep {s s1 : State} {P : Pattern} {P_id : Int} {L : Nat} {dep : Nat → Nat}
    (hT : TreeInv s) (hcodes : ∃ F, GoodF F ∧ s.ACnodebuf_base_codes = pad F)
    (hD : DepMid s L dep 0) (hL : P.length = L) (hid : P_id ≠ -1)
    (h : ACnodebuf_addPattern s P P_id = .ok s1)
    (hcap : (s1.ACnodebuf.length : Int) ≤ s.ACnodebuf_maxcount) :
    ∃ dep1, DepFull s1 L dep1 ∧ s1.ACnodebuf_pattern_length = (L : Int) := by
  obtain ⟨s2, t, hl, _, hfin⟩ := addPattern_ok_cases h
  obtain ⟨F, hF, hbc⟩ := hcodes
  have hT0 : TreeInv { s with ACnodebuf_pattern_length := (P.length : Int) } :=
    tree_congr hT rfl (fun _ _ => rfl)
  have hD0 : DepMid { s with ACnodebuf_pattern_length := (P.length : Int) } L dep 0 :=
    depMid_congr hD rfl (fun _ => rfl)
  obtain ⟨F1, _, _, _, _, ht, _, p1, hT2, _, dep2, hD2, hdt⟩ :=
    loop_induct_cap
      (fun s n _ pre rest => TreeInv s ∧ pre.length + rest.length = L ∧
        ∃ dep, DepMid s L dep n ∧ dep n = pre.length)
      (by
        intro s n F pre c rest F' k s1 ch _ hn _ _ _ hf hc hI
        obtain ⟨hT, hlen, dep0, hM, hdn⟩ := hI
        simp only [List.length_cons] at hlen
        obtain ⟨dep1, hM1, hd1⟩ := step_depth hf hT hn hM (by omega) hc
        refine ⟨(step_tree hf hT hn hc).1, ?_, dep1, hM1, ?_⟩
        · simp only [List.length_append, List.length_singleton]
          omega
        · simp only [List.length_append, List.length_singleton]
          omega)
      P { s with ACnodebuf_pattern_length := (P.length : Int) } 0 F []
      (tree_links hT0) hT0.root hF hbc
      ⟨hT0, by simpa using hL, dep, hD0, by rw [hD0.d0]; rfl⟩ s2 t hl
      (addPattern_loop_cap h hcap s2 t hl)
  simp only [List.nil_append] at hdt
  rw [hL] at hdt
  have hp2 : s2.ACnodebuf_pattern_length = (L : Int) := by
    rw [p1, ← hL]
  rcases hfin with ⟨hp, e⟩ | ⟨hp, e⟩
  · obtain ⟨e1, e2, e3⟩ := setP_id_facts s2 t P_id ht
    have hfresh : (∀ k, k < 4 → (s2.node t).getLink k = -1) := by
      rcases hD2.cur with hs | hf
      · exact absurd hp (hs.2 hdt).2
      · exact hf.1
    rw [e]
    refine ⟨dep2, ⟨hD2.d0, ?_, ?_, ?_, ?_⟩, hp2⟩
    · intro i k hk hne
      rw [e3] at hne ⊢
      exact hD2.dlink i k hk hne
    · intro t1 ht1
      exact hD2.dle t1 (by omega)
    · intro t1 ht1
      exact atDepth_mono (fun i k _ _ => by rw [e3]) (hD2.reach t1 (by omega))
    · intro t1 ht1
      unfold Settled
      by_cases et : t1 = t
      · rw [et]
        refine ⟨fun hh => by omega, fun _ => ⟨fun k hk => ?_, ?_⟩⟩
        · rw [e3]; exact hfresh k hk
        · rw [e2 t, if_pos rfl]
          exact hid
      · have hs := hD2.others t1 (by omega) et
        unfold Settled at hs
        have hnd : (s2.setP_id t P_id).node t1 = s2.node t1 := by rw [e2 t1, if_neg et]
        rw [hnd]
        exact hs
  · obtain ⟨e1, _, e3, _⟩ := dupsbuf_append_fields s2 (s2.node t).P_id P_id
    have hst : Settled s2 L dep2 t := by
      rcases hD2.cur with hs | hf
      · exact hs
      · exact absurd hf.2 hp
    have hfull : DepFull s2 L dep2 :=
      ⟨hD2.d0, hD2.dlink, hD2.dle, hD2.reach, fun t1 ht1 => by
        by_cases et : t1 = t
        · rw [et]; exact hst
        · exact hD2.others t1 ht1 et⟩
    have hmid := depMid_congr (depFull_mid hfull hT2.root) (congrArg List.length e1)
      (node_congr e1)
    rw [e]
    refine ⟨dep2, ⟨hmid.d0, hmid.dlink, hmid.dle, hmid.reach, fun t1 ht1 => ?_⟩, e3.trans hp2⟩
    by_cases et : t1 = 0
    · rcases hmid.cur with hs | hf
      · rw [et]; exact hs
      · have h0 := hfull.all 0 hT2.root
        unfold Settled at h0 ⊢
        rw [et, node_congr e1 0]
        exact h0
    · exact hmid.others t1 ht1 et

theorem initLoop_dep (L : Nat) (hL : 1 ≤ L) : ∀ (rest : List Pattern) (s s1 : State) (i : Nat)
    (dep : Nat → Nat), Reach s → DepFull s L dep → s.ACnodebuf_pattern_length = (L : Int) →
    ULdna_init_loop s i rest = .ok s1 → (s1.ACnodebuf.length : Int) ≤ 50000 →
    ∃ dep1, DepFull s1 L dep1 ∧ s1.ACnodebuf_pattern_length = (L : Int) := by
  intro rest
  induction rest with
  | nil =>
    intro s s1 i dep _ hD hp h _
    simp only [ULdna_init_loop, Except.ok.injEq] at h
    rw [← h]
    exact ⟨dep, hD, hp⟩
  | cons P tl ih =>
    intro s s1 i dep hr hD hp h hcap
    simp only [ULdna_init_loop] at h
    cases ha : ACnodebuf_addPattern s P ((i : Int) + 1) with
    | error e => rw [ha] at h; cases h
    | ok s2 =>
      rw [ha] at h
      obtain ⟨_, _, _, hlen, _⟩ := addPattern_ok_cases ha
      have hPL : P.length = L := by
        rcases hlen with ⟨e, _⟩ | ⟨_, e⟩
        · rw [hp] at e; omega
        · rw [hp] at e; exact_mod_cast e
      have hR := reach_rinv hr
      have g1 := (addPattern_grow ha).1
      have g2 := (initLoop_grow tl s2 s1 _ h).1
      obtain ⟨hT, hm⟩ := hR.tree (by omega)
      obtain ⟨dep2, hD2, hp2⟩ :=
        addPattern_dep hT hR.codes (depFull_mid hD hT.root) hPL (by omega) ha
          (by rw [hm]; omega)
      exact ih s2 s1 (i + 1) dep2 (Reach.add P _ hr ha) hD2 hp2 h hcap

theorem root_depMid (L : Nat) : DepMid rootState L (fun _ => 0) 0 := by
  refine ⟨rfl, ?_, fun _ _ => Nat.zero_le _, ?_, ?_, Or.inr ⟨?_, rfl⟩⟩
  · intro i k _ h
    rw [root_node, fresh_getLink] at h
    exact absurd rfl h
  · intro t ht
    have : t = 0 := by simp [rootState] at ht; omega
    rw [this]
    exact AtDepth.root
  · intro t ht hne
    have : t = 0 := by simp [rootState] at ht; omega
    exact absurd this hne
  · intro k _
    rw [root_node, fresh_getLink]

/-- After a successful `ULdna_init` on a non-empty dictionary, that has not
grown the node buffer beyond its first capacity, every node is settled for the
length of the first pattern, which is the fixed length. -/
theorem init_dep (g : State) (P : Pattern) (rest : List Pattern) (s : State)
    (h : ULdna_init g (P :: rest) = .ok s) (hcap : s.ACnodebuf_count ≤ 50000) :
    1 ≤ P.length ∧ ∃ dep, DepFull s P.length dep ∧
      s.ACnodebuf_pattern_length = (P.length : Int) := by
  unfold State.ACnodebuf_count at hcap
  rw [ULdna_init_eq] at h
  simp only [ULdna_init_loop] at h
  cases ha : ACnodebuf_addPattern rootState P (((0 : Nat) : Int) + 1) with
  | error e => rw [ha] at h; cases h
  | ok s2 =>
    rw [ha] at h
    obtain ⟨_, _, _, hlen, _⟩ := addPattern_ok_cases ha
    have hP1 : 1 ≤ P.length := by
      rcases hlen with ⟨_, e⟩ | ⟨e, _⟩
      · omega
      · exact absurd rfl e
    have hr : Reach rootState := by
      have := Reach.root zeroStatics
      rw [init_root] at this
      exact this
    have g2 := (initLoop_grow rest s2 s _ h).1
    obtain ⟨dep2, hD2, hp2⟩ :=
      addPattern_dep root_tree root_rinv.codes (root_depMid P.length) rfl (by omega) ha
        (by show (s2.ACnodebuf.length : Int) ≤ 50000; omega)
    exact ⟨hP1, initLoop_dep P.length hP1 rest s2 s (0 + 1) dep2 (Reach.add P _ hr ha) hD2 hp2 h
      hcap⟩

/-! ## Nodes and the char sequences that start a pattern -/

theorem walk_append {s : State} : ∀ (Q R : List Int) (a : Nat),
    walk s a (Q ++ R) = (walk s a Q).bind (fun u => walk s u R) := by
  intro Q
  induction Q with
  | nil => intro R a; rfl
  | cons c rest ih =>
    intro R a
    simp only [List.cons_append, walk]
    cases slotOf s.ACnodebuf_base_codes c with
    | none => rfl
    | some k =>
      simp only
      split_ifs
      · rfl
      · exact ih R _

theorem step_pinv {s s1 : State} {n k ch : Nat} {c : Int} {F F' : List Int}
    {lab : Nat → List Int} {ds : List Pattern} {pre rest : List Int}
    (h : StepFacts s n c F' k s1 ch) (hP : PInv s F lab ds (pre ++ c :: rest))
    (hn : n < s.ACnodebuf.length) (hc : c ≠ -1) (ha : alphaStep F c = some F')
    (hlab : lab n = pre) (hcap : (s1.ACnodebuf.length : Int) ≤ s.ACnodebuf_maxcount) :
    ∃ lab1, PInv s1 F' lab1 ds ((pre ++ [c]) ++ rest) ∧ lab1 ch = pre ++ [c] := by
  have step_link := fun (h : StepFacts s n c F' k s1 ch) => step_link h hcap
  obtain ⟨lab1, hT1, hl1, hch⟩ := step_tinv h hP.tinv hn hc ha hcap
  have hE := step_ext h hP.tinv.good ha
  have hmono := walk_mono hP.tinv hT1.good hT1.codes hE
  have hcount := h.count
  have hchild := h.child
  have hwn : walk s1 n [c] = some ch := by
    refine walk_cons.2 ⟨k, ?_, ?_, ?_⟩
    · rw [hT1.codes]
      exact (slotOf_pad hT1.good c hc k).2 (h.bound hc)
    · rw [step_link h]; omega
    · rw [step_link h]; simp [walk]
  have hself_ch : walk s1 0 (lab n ++ [c]) = some ch := by
    rw [walk_append, hmono (lab n) 0 n (hP.self n hn)]
    exact hwn
  have hold : ∀ i, i < s1.ACnodebuf.length → ¬ i < s.ACnodebuf.length → i = ch := by
    intro i hi hni
    by_cases hlk : (s.node n).getLink k = -1
    · rw [if_pos hlk] at hcount hchild
      omega
    · rw [if_neg hlk] at hcount
      omega
  rw [hlab] at hch hself_ch
  refine ⟨lab1, ⟨hT1, ?_, ?_, ?_⟩, hch⟩
  · rw [hl1 0 hP.tinv.links.1]; exact hP.root
  · intro i hi
    by_cases hlt : i < s.ACnodebuf.length
    · rw [hl1 i hlt]
      exact hmono (lab i) 0 i (hP.self i hlt)
    · rw [hold i hi hlt, hch]
      exact hself_ch
  · intro i hi
    by_cases hlt : i < s.ACnodebuf.length
    · rw [hl1 i hlt, List.append_assoc]
      exact hP.pref i hlt
    · rw [hold i hi hlt, hch]
      exact Or.inr (Or.inr ⟨rest, rfl⟩)

theorem pinv_congr {s s1 : State} {F : List Int} {lab : Nat → List Int} {ds : List Pattern}
    {cur : List Int} (hP : PInv s F lab ds cur)
    (hc : s1.ACnodebuf.length = s.ACnodebuf.length)
    (hbc : s1.ACnodebuf_base_codes = s.ACnodebuf_base_codes)
    (hn : ∀ i k, (s1.node i).getLink k = (s.node i).getLink k) : PInv s1 F lab ds cur := by
  refine ⟨tinv_congr hP.tinv hc hbc hn, hP.root, ?_, ?_⟩
  · intro i hi
    rw [walk_congr hbc hn]
    exact hP.self i (by omega)
  · intro i hi
    exact hP.pref i (by omega)

/-- A successful `ACnodebuf_addPattern` of a pattern without the char of code
`-1` keeps the labels as `PInv` describes them. -/
theorem addPattern_pinv {s s1 : State} {F : List Int} {lab : Nat → List Int}
    {ds : List Pattern} {P : Pattern} {P_id : Int} (hP : PInv s F lab ds [])
    (hc : ∀ c, c ∈ P → c ≠ -1) (h : ACnodebuf_addPattern s P P_id = .ok s1)
    (hcap : (s1.ACnodebuf.length : Int) ≤ s.ACnodebuf_maxcount) :
    ∃ F1 lab1, PInv s1 F1 lab1 (ds ++ [P]) [] := by
  obtain ⟨s2, t, hl, _, hfin⟩ := addPattern_ok_cases h
  have hP0 : PInv { s with ACnodebuf_pattern_length := (P.length : Int) } F lab ds ([] ++ P) := by
    have := @pinv_congr s { s with ACnodebuf_pattern_length := (P.length : Int) } F lab ds []
      hP rfl rfl (fun _ _ => rfl)
    refine ⟨this.tinv, this.root, this.self, ?_⟩
    intro i hi
    rcases this.pref i hi with e | e | e
    · exact Or.inl e
    · exact Or.inr (Or.inl e)
    · obtain ⟨r, hr⟩ := e
      exact Or.inl (List.append_eq_nil.1 hr).1
  obtain ⟨F1, _, _, _, _, ht, _, _, _, lab2, hP2, _⟩ :=
    loop_induct_cap
      (fun s n F pre rest => (∀ c, c ∈ rest → c ≠ -1) ∧
        ∃ lab, PInv s F lab ds (pre ++ rest) ∧ lab n = pre)
      (by
        intro s n F pre c rest F' k s1 ch _ hn _ _ ha hf hcp hI
        obtain ⟨hcs, lab0, hP0, hlab⟩ := hI
        obtain ⟨lab1, hP1, hl1⟩ :=
          step_pinv hf hP0 hn (hcs c (List.mem_cons_self _ _)) ha hlab hcp
        exact ⟨fun x hx => hcs x (List.mem_cons_of_mem _ hx), lab1, hP1, hl1⟩)
      P { s with ACnodebuf_pattern_length := (P.length : Int) } 0 F []
      hP0.tinv.links hP0.tinv.links.1 hP0.tinv.good hP0.tinv.codes
      ⟨hc, lab, hP0, hP0.root⟩ s2 t hl (addPattern_loop_cap h hcap s2 t hl)
  simp only [List.nil_append, List.append_nil] at hP2
  have hP3 : PInv s2 F1 lab2 (ds ++ [P]) [] := by
    refine ⟨hP2.tinv, hP2.root, hP2.self, ?_⟩
    intro i hi
    rcases hP2.pref i hi with e | ⟨Q, hQ, e⟩ | e
    · exact Or.inl e
    · exact Or.inr (Or.inl ⟨Q, List.mem_append_left _ hQ, e⟩)
    · exact Or.inr (Or.inl ⟨P, List.mem_append_right _ (List.mem_singleton_self _), e⟩)
  rcases hfin with ⟨_, e⟩ | ⟨_, e⟩
  · obtain ⟨e1, _, e3⟩ := setP_id_facts s2 t P_id ht
    rw [e]
    exact ⟨F1, lab2, pinv_congr hP3 e1 rfl e3⟩
  · obtain ⟨e1, e2, _, _⟩ := dupsbuf_append_fields s2 (s2.node t).P_id P_id
    rw [e]
    exact ⟨F1, lab2, pinv_congr hP3 (by rw [e1]) e2 (fun i k => by rw [node_congr e1])⟩

theorem initLoop_pinv : ∀ (rest : List Pattern) (s s1 : State) (F : List Int)
    (lab : Nat → List Int) (ds : List Pattern) (i : Nat), PInv s F lab ds [] →
    (∀ P, P ∈ rest → ∀ c, c ∈ P → c ≠ -1) → ULdna_init_loop s i rest = .ok s1 →
    (s1.ACnodebuf.length : Int) ≤ s.ACnodebuf_maxcount →
    ∃ F1 lab1, PInv s1 F1 lab1 (ds ++ rest) [] := by
  intro rest
  induction rest with
  | nil =>
    intro s s1 F lab ds i hP _ h _
    simp only [ULdna_init_loop, Except.ok.injEq] at h
    subst h
    exact ⟨F, lab, by simpa using hP⟩
  | cons P tl ih =>
    intro s s1 F lab ds i hP hc h hcap
    simp only [ULdna_init_loop] at h
    cases ha : ACnodebuf_addPattern s P ((i : Int) + 1) with
    | error e => rw [ha] at h; cases h
    | ok s2 =>
      rw [ha] at h
      obtain ⟨c1, c2⟩ := grow_split (addPattern_grow ha) (initLoop_grow tl s2 s1 _ h) hcap
      obtain ⟨F2, lab2, hP2⟩ := addPattern_pinv hP (hc P (List.mem_cons_self _ _)) ha c1
      obtain ⟨F1, lab1, hP1⟩ := ih s2 s1 F2 lab2 (ds ++ [P]) (i + 1) hP2
        (fun Q hQ => hc Q (List.mem_cons_of_mem _ hQ)) h c2
      exact ⟨F1, lab1, by simpa using hP1⟩

theorem root_pinv : PInv rootState [] (fun _ => []) [] [] := by
  refine ⟨root_dinv.tinv, rfl, ?_, fun _ _ => Or.inl rfl⟩
  intro i hi
  have : i = 0 := by simp [rootState] at hi; omega
  rw [this]
  rfl

theorem init_pinv (g : State) (d : List Pattern) (s : State) (h : ULdna_init g d = .ok s)
    (hs : ∀ P, P ∈ d → ∀ c, c ∈ P → c ≠ -1) (hcap : s.ACnodebuf_count ≤ 50000) :
    ∃ F lab, PInv s F lab d [] := by
  rw [ULdna_init_eq] at h
  obtain ⟨F, lab, hP⟩ := initLoop_pinv d rootState s [] (fun _ => []) [] 0 root_pinv hs h hcap
  exact ⟨F, lab, by simpa using hP⟩

/-- The char sequences read from the root in a finished tree are the starts of
the patterns, the empty one included. -/
theorem pinv_paths {s : State} {F : List Int} {lab : Nat → List Int} {d : List Pattern}
    (hP : PInv s F lab d []) (hcomp : ∀ P, P ∈ d → ∃ t, walk s 0 P = some t) (Q : List Int) :
    (∃ t, walk s 0 Q = some t) ↔ (Q = [] ∨ ∃ P, P ∈ d ∧ Q <+: P) := by
  constructor
  · rintro ⟨t, w⟩
    have ht := walk_lt hP.tinv Q 0 t hP.tinv.links.1 w
    have hl : lab t = Q := by rw [walk_label hP.tinv Q 0 t w, hP.root]; rfl
    rcases hP.pref t ht with e | e | e
    · exact Or.inl (hl ▸ e)
    · exact Or.inr (hl ▸ e)
    · obtain ⟨r, hr⟩ := e
      exact Or.inl (hl ▸ (List.append_eq_nil.1 hr).1)
  · rintro (e | ⟨P, hPd, r, hr⟩)
    · exact ⟨0, by rw [e]; rfl⟩
    · obtain ⟨t, w⟩ := hcomp P hPd
      rw [← hr, walk_append] at w
      cases hq : walk s 0 Q with
      | none => rw [hq] at w; cases w
      | some u => exact ⟨u, rfl⟩

theorem pinv_count {s : State} {F : List Int} {lab : Nat → List Int} {d : List Pattern}
    (hP : PInv s F lab d []) (hcomp : ∀ P, P ∈ d → ∃ t, walk s 0 P = some t) :
    s.ACnodebuf.length = 1 + ((d.flatMap List.inits).toFinset.erase []).card := by
  have himg : (Finset.range s.ACnodebuf.length).image lab
      = insert [] ((d.flatMap List.inits).toFinset.erase []) := by
    ext Q
    simp only [Finset.mem_image, Finset.mem_range, Finset.mem_insert, Finset.mem_erase,
      List.mem_toFinset, List.mem_flatMap, List.mem_inits]
    constructor
    · rintro ⟨i, hi, e⟩
      by_cases hq : Q = []
      · exact Or.inl hq
      · right
        refine ⟨hq, ?_⟩
        rcases hP.pref i hi with e1 | e1 | e1
        · exact absurd (e ▸ e1) hq
        · exact e ▸ e1
        · obtain ⟨r, hr⟩ := e1
          exact absurd (e ▸ (List.append_eq_nil.1 hr).1) hq
    · intro hQ
      have hex : ∃ t, walk s 0 Q = some t := by
        rw [pinv_paths hP hcomp]
        rcases hQ with e | ⟨_, e⟩
        · exact Or.inl e
        · exact Or.inr e
      obtain ⟨t, w⟩ := hex
      refine ⟨t, walk_lt hP.tinv Q 0 t hP.tinv.links.1 w, ?_⟩
      rw [walk_label hP.tinv Q 0 t w, hP.root]; rfl
  have hinj : Set.InjOn lab (Finset.range s.ACnodebuf.length : Set Nat) := by
    intro i hi j hj e
    have hi1 : i < s.ACnodebuf.length := by simpa using hi
    have hj1 : j < s.ACnodebuf.length := by simpa using hj
    have w1 := hP.self i hi1
    rw [e, hP.self j hj1] at w1
    exact (Option.some.inj w1).symm
  have hcard := Finset.card_image_of_injOn hinj
  rw [himg, Finset.card_insert_of_not_mem (by simp), Finset.card_range] at hcard
  omega

/-! ## The build that grows the node buffer

With one pattern of 50000 chars A the loop of `ACnodebuf_addPattern` creates
the nodes 1 to 49999 within the first capacity of 50000 nodes; the creation of
node 50000 grows the buffer, and the link from node 49999 to it is not written
in the buffer. -/

theorem loop_append : ∀ (P Q : List Int) (s : State) (n : Nat),
    ACnodebuf_addPattern_loop s n (P ++ Q) =
      match ACnodebuf_addPattern_loop s n P with
      | .ok (s1, t) => ACnodebuf_addPattern_loop s1 t Q
      | .error e => .error e := by
  intro P
  induction P with
  | nil => intro Q s n; rfl
  | cons c rest ih =>
    intro Q s n
    simp only [List.cons_append, ACnodebuf_addPattern_loop]
    cases ACnodebuf_addPattern_step s n c with
    | error e => rfl
    | ok r =>
      obtain ⟨s1, ch⟩ := r
      exact ih Q s1 ch

theorem alphaStep_same (c : Int) : alphaStep [c] c = some [c] := by
  unfold alphaStep
  rw [if_pos (List.mem_singleton_self c)]

theorem alphaRun_same (c : Int) : ∀ m : Nat, alphaRun [c] (List.replicate m c) = some [c] := by
  intro m
  induction m with
  | zero => rfl
  | succ k ih =>
    rw [List.replicate_succ]
    simp only [alphaRun, alphaStep_same]
    exact ih

theorem good_A : GoodF [65] := ⟨by simp, by decide, by simp⟩

/-- The loop on `m + 1` chars A from the root state, while the nodes fit in the
first capacity: it ends at the last node, which has no child. -/
theorem chain_first (v : Int) (m : Nat) (hm : m + 2 ≤ 50000) :
    ∃ (s1 : State) (t : Nat),
      ACnodebuf_addPattern_loop { rootState with ACnodebuf_pattern_length := v } 0
        (List.replicate (m + 1) 65) = .ok (s1, t) ∧
      s1.ACnodebuf.length = m + 2 ∧ LastFresh s1 t ∧ s1.ACnodebuf_maxcount = 50000 ∧
      LinksIn s1 ∧ s1.ACnodebuf_base_codes = pad [65] ∧ (∀ i, (s1.node i).P_id = -1) ∧
      walk s1 0 (List.replicate (m + 1) 65) = some t ∧
      s1.ACnodebuf_pattern_length = v ∧ s1.dupsbuf = [] := by
  have hT0 : TInv { rootState with ACnodebuf_pattern_length := v } [] (fun _ => []) :=
    tinv_congr root_dinv.tinv rfl rfl (fun _ _ => rfl)
  have hfr0 : LastFresh { rootState with ACnodebuf_pattern_length := v } 0 :=
    ⟨rfl, fun k hk => root_lastFresh.2 k hk⟩
  have hrun : alphaRun [] (List.replicate (m + 1) 65) = some [65] := by
    rw [List.replicate_succ]
    have h1 : alphaStep [] 65 = some [65] := by decide
    simp only [alphaRun, h1]
    exact alphaRun_same 65 m
  have hctl := loop_ctl (List.replicate (m + 1) 65)
    { rootState with ACnodebuf_pattern_length := v } 0 [] hT0.links hT0.links.1 good_nil
    root_codes
  rw [hrun] at hctl
  obtain ⟨s1, t, hloop, hc⟩ := hctl
  have hlen : s1.ACnodebuf.length = m + 2 := by
    have h1 : s1.ACnodebuf.length = 1 + (List.replicate (m + 1) (65 : Int)).length :=
      hc.fresh hfr0
    rw [List.length_replicate] at h1
    omega
  have hcap : (s1.ACnodebuf.length : Int) ≤
      ({ rootState with ACnodebuf_pattern_length := v } : State).ACnodebuf_maxcount := by
    show (s1.ACnodebuf.length : Int) ≤ 50000
    omega
  obtain ⟨F1, lab1, hL⟩ := loop_trie (List.replicate (m + 1) 65)
    { rootState with ACnodebuf_pattern_length := v } 0 [] (fun _ => []) hT0 hT0.links.1
    (fun c hc => by rw [List.eq_of_mem_replicate hc]; decide) s1 t hloop hcap
  refine ⟨s1, t, hloop, hlen, hc.last hfr0, hc.amax hcap, hc.links, hc.codes, ?_, hL.reach,
    hc.plen, hc.dups⟩
  intro i
  rw [hL.ext.pid i]
  show (rootState.node i).P_id = -1
  rw [root_node]
  rfl

/-- The first pattern of `m + 2` chars A, when `m + 2` is the first capacity of
the node buffer: the call succeeds and leaves the state `OverflowState`
describes. -/
theorem overflow_first (m : Nat) (hm : m + 2 = 50000) :
    ∃ s, ACnodebuf_addPattern rootState (List.replicate (m + 1) 65 ++ [65])
        (((0 : Nat) : Int) + 1) = .ok s ∧ OverflowState s m := by
  have hPlen : (List.replicate (m + 1) (65 : Int) ++ [65]).length = m + 2 := by
    rw [List.length_append, List.length_replicate, List.length_singleton]
  obtain ⟨s1, t, hloop, hlen, hfr, hmax, hlinks, hcodes, hpid, hwalk, hplen, hdups⟩ :=
    chain_first (((List.replicate (m + 1) (65 : Int) ++ [65]).length : Nat) : Int) m
      (by omega)
  have ht : t = m + 1 := by
    have := hfr.1
    omega
  obtain ⟨k, s2, ch, hstep, hf⟩ :=
    step_ok 65 hlinks (by omega : t < s1.ACnodebuf.length) good_A hcodes (alphaStep_same 65)
  have hlk : (s1.node t).getLink k = -1 := hfr.2 k hf.hk
  have hcount := hf.count
  have hchild := hf.child
  rw [if_pos hlk] at hcount hchild
  have hch : ch = m + 2 := by omega
  have hfull : s1.ACnodebuf_count ≥ s1.ACnodebuf_maxcount := by
    unfold State.ACnodebuf_count
    omega
  have hnodes : ∀ i, s2.node i = s1.node i := by
    intro i
    rw [hf.nodes i, if_neg]
    intro hh
    have := hh.2
    omega
  have hfin : ACnodebuf_addPattern rootState (List.replicate (m + 1) 65 ++ [65])
      (((0 : Nat) : Int) + 1) = .ok (s2.setP_id ch (((0 : Nat) : Int) + 1)) := by
    rw [addPattern_eq rootState _ _
      (by
        intro hh
        have := hh.2
        rw [hPlen] at this
        omega)
      (fun hh => hh.1 rfl)]
    rw [loop_append, hloop]
    simp only [ACnodebuf_addPattern_loop, hstep]
    rw [if_pos (by rw [hnodes]; exact hpid ch)]
  obtain ⟨e1, e2, e3⟩ := setP_id_facts s2 ch (((0 : Nat) : Int) + 1) (by omega)
  refine ⟨s2.setP_id ch (((0 : Nat) : Int) + 1), hfin, ?_, hf.codes, ?_, ?_, ?_, ?_, ?_, ?_,
    ?_, ?_⟩
  · rw [e1]
    omega
  · show s2.ACnodebuf_pattern_length = ((m + 2 : Nat) : Int)
    rw [hf.plen, hplen, hPlen]
  · intro i k1 hk1
    rw [e3, hnodes]
    by_cases hne : (s1.node i).getLink k1 = -1
    · exact Or.inl hne
    · obtain ⟨j, hj, hjlt⟩ := hlinks.2 i k1 hk1 hne
      exact Or.inr ⟨j, hj, by omega⟩
  · intro k1 hk1
    rw [e3, hnodes, ← ht]
    exact hfr.2 k1 hk1
  · rw [e2, if_neg (by omega), hnodes]
    exact hpid _
  · rw [e2, hch, if_pos rfl]
    simp
  · have hw := @walk_congr s1 (s2.setP_id ch (((0 : Nat) : Int) + 1))
      (hf.codes.trans hcodes.symm) (fun i k => by rw [e3, hnodes])
      (List.replicate (m + 1) 65) 0
    rw [hw, hwalk, ht]
  · show s2.dupsbuf = []
    rw [hf.dups, hdups]
  · show s2.ACnodebuf_maxcount = 100000
    rw [hf.amax, if_pos (And.intro hlk hfull), hmax]
    norm_num

theorem init_one (g : State) (P : Pattern) (s : State)
    (h : ACnodebuf_addPattern rootState P (((0 : Nat) : Int) + 1) = .ok s) :
    ULdna_init g [P] = .ok s := by
  rw [ULdna_init_eq]
  simp only [ULdna_init_loop, h]

theorem init_two (g : State) (P Q : Pattern) (s s1 : State)
    (h : ACnodebuf_addPattern rootState P (((0 : Nat) : Int) + 1) = .ok s)
    (h1 : ACnodebuf_addPattern s Q (((0 + 1 : Nat) : Int) + 1) = .ok s1) :
    ULdna_init g [P, Q] = .ok s1 := by
  rw [ULdna_init_eq]
  simp only [ULdna_init_loop, h, h1]

/-- The state `ULdna_init` returns on the dictionary of one pattern of 50000
chars A: 50001 nodes; no link goes to node 50000, which holds the pattern id;
node 49999, reached by the first 49999 chars, has no child and no pattern id. -/
theorem overflow_build (g : State) :
    ∃ s, ULdna_init g [List.replicate 50000 65] = .ok s ∧
      s.ACnodebuf.length = 50001 ∧ s.ACnodebuf_base_codes = pad [65] ∧
      s.ACnodebuf_pattern_length = 50000 ∧
      (∀ i k, k < 4 → (s.node i).getLink k = -1 ∨
        ∃ j : Nat, (s.node i).getLink k = (j : Int) ∧ j < 50000) ∧
      (∀ k, k < 4 → (s.node 49999).getLink k = -1) ∧
      (s.node 49999).P_id = -1 ∧ (s.node 50000).P_id = 1 ∧
      walk s 0 (List.replicate 49999 65) = some 49999 := by
  have hP : List.replicate 50000 (65 : Int) = List.replicate (49998 + 1) 65 ++ [65] :=
    List.replicate_succ' 49999 65
  obtain ⟨s, h, hO⟩ := overflow_first 49998 rfl
  have hi := init_one g _ s h
  rw [← hP] at hi
  exact ⟨s, hi, hO.len, hO.codes, hO.plen, hO.links, hO.leaf, hO.pid, hO.pidLast, hO.path⟩

/-- One loop iteration on a char whose slot has a link at the node: nothing is
written, and the iteration moves to the child. -/
theorem step_on_path {s : State} {F : List Int} (hF : GoodF F)
    (hbc : s.ACnodebuf_base_codes = pad F) {n k : Nat} {c : Int}
    (hn : n < s.ACnodebuf.length) (hc : c ≠ -1)
    (hs : slotOf s.ACnodebuf_base_codes c = some k) (hl : (s.node n).getLink k ≠ -1) :
    ACnodebuf_addPattern_step s n c = .ok (s, ((s.node n).getLink k).toNat) := by
  have hk : F[k]? = some c := by
    rw [hbc] at hs
    exact (slotOf_pad hF c hc k).1 hs
  have ha : alphaStep F c = some F := by
    unfold alphaStep
    rw [if_pos (List.getElem?_mem hk)]
  obtain ⟨k1, _, hslot, hset, hb⟩ := alpha_slot hF c ha
  have h1 := hb hc
  have hk1 : k1 < F.length := by
    by_contra hge
    rw [List.getElem?_eq_none (by omega)] at h1
    cases h1
  have hkk : k1 = k := List.getElem?_inj hk1 hF.nodup (h1.trans hk.symm)
  have hs0 : ({ s with ACnodebuf_base_codes := pad F } : State) = s := by rw [← hbc]
  rw [step_eq s n c hn, hbc, hslot]
  simp only [hset]
  rw [hs0, hkk, descend_old s n k hl]

/-- The loop on chars that a path of the tree reads: nothing is written, and
the loop ends at the end of the path. -/
theorem loop_on_path {s : State} {F : List Int} (hF : GoodF F)
    (hbc : s.ACnodebuf_base_codes = pad F) (hl : LinksIn s) :
    ∀ (P : List Int) (n t : Nat), (∀ c, c ∈ P → c ≠ -1) → n < s.ACnodebuf.length →
      walk s n P = some t → ACnodebuf_addPattern_loop s n P = .ok (s, t) := by
  intro P
  induction P with
  | nil =>
    intro n t _ _ h
    simp only [walk, Option.some.injEq] at h
    rw [h]
    rfl
  | cons c rest ih =>
    intro n t hP hn h
    obtain ⟨k, hs, hlk, hw⟩ := walk_cons.1 h
    obtain ⟨j, hj, hjlt⟩ := hl.2 n k (slotOf_some hs).1 hlk
    simp only [ACnodebuf_addPattern_loop,
      step_on_path hF hbc hn (hP c (List.mem_cons_self _ _)) hs hlk]
    rw [hj] at hw ⊢
    exact ih j t (fun x hx => hP x (List.mem_cons_of_mem _ hx)) hjlt hw

/-- The same pattern once more, on the state `OverflowState` describes: the
loop follows the links to the node before the last one, finds no link there,
creates a new node and writes the pattern id in it; nothing is registered as a
duplicate. -/
theorem overflow_second (s : State) (m : Nat) (hm : m + 2 = 50000)
    (hO : OverflowState s m) (P_id : Int) :
    ∃ s1, ACnodebuf_addPattern s (List.replicate (m + 1) 65 ++ [65]) P_id = .ok s1 ∧
      s1.dupsbuf = [] ∧ s1.ACnodebuf.length = m + 4 ∧ (s1.node (m + 3)).P_id = P_id ∧
      (s1.node (m + 2)).P_id = 1 := by
  have hPlen : (List.replicate (m + 1) (65 : Int) ++ [65]).length = m + 2 := by
    rw [List.length_append, List.length_replicate, List.length_singleton]
  have hlinks : LinksIn s := by
    refine ⟨by rw [hO.len]; omega, ?_⟩
    intro i k hk hne
    rcases hO.links i k hk with e | ⟨j, e, hj⟩
    · exact absurd e hne
    · exact ⟨j, e, by rw [hO.len]; omega⟩
  have hs0 : ({ s with ACnodebuf_pattern_length :=
      ((List.replicate (m + 1) (65 : Int) ++ [65]).length : Int) } : State) = s := by
    rw [hPlen, ← hO.plen]
  have hpath := loop_on_path good_A hO.codes hlinks (List.replicate (m + 1) 65) 0 (m + 1)
    (fun c hc => by rw [List.eq_of_mem_replicate hc]; decide) hlinks.1 hO.path
  obtain ⟨k, s2, ch, hstep, hf⟩ :=
    step_ok 65 hlinks (by rw [hO.len]; omega : m + 1 < s.ACnodebuf.length) good_A hO.codes
      (alphaStep_same 65)
  have hlk : (s.node (m + 1)).getLink k = -1 := hO.leaf k hf.hk
  have hcount := hf.count
  have hchild := hf.child
  rw [if_pos hlk, hO.len] at hcount hchild
  have hch : ch = m + 3 := by omega
  have hold : ∀ i, i ≠ m + 1 → s2.node i = s.node i := by
    intro i hi
    rw [hf.nodes i, if_neg (fun hh => hi hh.1.2)]
  have hnew : (s2.node ch).P_id = -1 := by
    rw [hch, hold _ (by omega), node_ge s _ (by rw [hO.len])]
    rfl
  have hfin : ACnodebuf_addPattern s (List.replicate (m + 1) 65 ++ [65]) P_id
      = .ok (s2.setP_id ch P_id) := by
    rw [addPattern_eq s _ _
      (by
        intro hh
        have := hh.2
        rw [hPlen] at this
        omega)
      (by
        intro hh
        apply hh.2
        rw [hPlen, hO.plen])]
    rw [hs0, loop_append, hpath]
    simp only [ACnodebuf_addPattern_loop, hstep]
    rw [if_pos hnew]
  obtain ⟨e1, e2, _⟩ := setP_id_facts s2 ch P_id (by omega)
  refine ⟨s2.setP_id ch P_id, hfin, ?_, ?_, ?_, ?_⟩
  · show s2.dupsbuf = []
    rw [hf.dups, hO.dups]
  · rw [e1]
    omega
  · rw [e2, hch, if_pos rfl]
  · rw [e2, if_neg (by omega), hold _ (by omega)]
    exact hO.pidLast

/-- The dictionary of twice the pattern of 50000 chars A: `ULdna_init` succeeds
with 50002 nodes and no line of duplicates; the ordinals 1 and 2 are the
pattern ids of two different nodes. -/
theorem overflow_twice (g : State) :
    ∃ s, ULdna_init g [List.replicate 50000 65, List.replicate 50000 65] = .ok s ∧
      s.dupsbuf = [] ∧ s.ACnodebuf.length = 50002 ∧
      (s.node 50000).P_id = 1 ∧ (s.node 50001).P_id = 2 := by
  have hP : List.replicate 50000 (65 : Int) = List.replicate (49998 + 1) 65 ++ [65] :=
    List.replicate_succ' 49999 65
  obtain ⟨s, h, hO⟩ := overflow_first 49998 rfl
  obtain ⟨s1, h1, d1, l1, p1, p2⟩ := overflow_second s 49998 rfl hO ((((0 + 1 : Nat)) : Int) + 1)
  have hi := init_two g _ _ s s1 h h1
  rw [← hP] at hi
  refine ⟨s1, hi, d1, l1, p2, ?_⟩
  rw [p1]
  norm_num
/-! ## The lines of duplicates as the classes of equal patterns -/

theorem ordinalsOf_mem {P : Pattern} {d : List Pattern} {x : Int} :
    x ∈ ordinalsOf P d ↔ ∃ k : Nat, k < d.length ∧ d[k]? = some P ∧ x = (k : Int) + 1 := by
  unfold ordinalsOf
  simp only [List.mem_map, List.mem_filter, List.mem_range, decide_eq_true_eq]
  constructor
  · rintro ⟨k, ⟨h1, h2⟩, h3⟩
    exact ⟨k, h1, h2, h3.symm⟩
  · rintro ⟨k, h1, h2, h3⟩
    exact ⟨k, ⟨h1, h2⟩, h3.symm⟩

theorem ordinalsOf_snoc (P Q : Pattern) (ds : List Pattern) :
    ordinalsOf P (ds ++ [Q]) =
      ordinalsOf P ds ++ (if Q = P then [(ds.length : Int) + 1] else []) := by
  unfold ordinalsOf
  have hlen : (ds ++ [Q]).length = ds.length + 1 := by simp
  rw [hlen, List.range_succ, List.filter_append, List.map_append]
  congr 1
  · congr 1
    apply List.filter_congr
    intro k hk
    rw [List.mem_range] at hk
    rw [List.getElem?_append_left hk]
  · have hq : (ds ++ [Q])[ds.length]? = some Q := by
      rw [List.getElem?_append_right (le_refl _)]
      simp
    by_cases e : Q = P
    · simp [hq, e]
    · simp [hq, e]

theorem ordinalsOf_not_mem {P : Pattern} {ds : List Pattern} (h : P ∉ ds) :
    ordinalsOf P ds = [] := by
  rw [List.eq_nil_iff_forall_not_mem]
  intro x hx
  obtain ⟨k, _, hk, _⟩ := ordinalsOf_mem.1 hx
  exact h (List.getElem?_mem hk)

theorem ordinalsOf_head {P : Pattern} : ∀ {ds : List Pattern}, P ∈ ds →
    (ordinalsOf P ds).head? = some (((firstIdx P ds : Nat) : Int) + 1) := by
  intro ds
  induction ds using List.reverseRecOn with
  | nil => intro h; exact absurd h (List.not_mem_nil _)
  | append_singleton ds Q ih =>
    intro h
    rw [ordinalsOf_snoc]
    by_cases hm : P ∈ ds
    · have := ih hm
      rw [firstIdx_append_of_mem _ hm]
      cases hv : ordinalsOf P ds with
      | nil => rw [hv] at this; cases this
      | cons a r => rw [hv] at this; simpa using this
    · have hq : Q = P := by
        rcases List.mem_append.1 h with e | e
        · exact absurd e hm
        · exact (List.mem_singleton.1 e).symm
      rw [ordinalsOf_not_mem hm, if_pos hq, hq, firstIdx_snoc_of_not_mem hm]
      rfl

theorem ordinalsOf_sorted (P : Pattern) (d : List Pattern) :
    (ordinalsOf P d).Pairwise (fun a b => a < b) := by
  unfold ordinalsOf
  rw [List.pairwise_map]
  have h := (List.pairwise_lt_range d.length).filter (fun k => decide (d[k]? = some P))
  exact h.imp (fun hab => by omega)

theorem ordinalsOf_le {P : Pattern} {d : List Pattern} {x : Int} (h : x ∈ ordinalsOf P d) :
    0 < x ∧ x ≤ (d.length : Int) := by
  obtain ⟨k, h1, _, h3⟩ := ordinalsOf_mem.1 h
  omega

theorem ordinalsOf_inj {P Q : Pattern} {d : List Pattern} {x : Int}
    (h1 : x ∈ ordinalsOf P d) (h2 : x ∈ ordinalsOf Q d) : P = Q := by
  obtain ⟨k, _, hk, e⟩ := ordinalsOf_mem.1 h1
  obtain ⟨k1, _, hk1, e1⟩ := ordinalsOf_mem.1 h2
  have : k = k1 := by omega
  rw [this, hk1] at hk
  exact (Option.some.inj hk).symm

theorem ordinalsOf_pos_length {P : Pattern} {ds : List Pattern} (h : P ∈ ds) :
    1 ≤ (ordinalsOf P ds).length := by
  have := ordinalsOf_head h
  cases hv : ordinalsOf P ds with
  | nil => rw [hv] at this; cases this
  | cons a r => simp

theorem ordinalsOf_snoc_ne {P Q : Pattern} (ds : List Pattern) (h : Q ≠ P) :
    ordinalsOf Q (ds ++ [P]) = ordinalsOf Q ds := by
  rw [ordinalsOf_snoc, if_neg (fun e => h e.symm), List.append_nil]

theorem ordinalsOf_snoc_self (P : Pattern) (ds : List Pattern) :
    ordinalsOf P (ds ++ [P]) = ordinalsOf P ds ++ [(ds.length : Int) + 1] := by
  rw [ordinalsOf_snoc, if_pos rfl]

theorem set_same {α : Type} : ∀ (l : List α) (i : Nat) (a : α), l[i]? = some a →
    l.set i a = l := by
  intro l
  induction l with
  | nil => intro i a h; simp at h
  | cons b r ih =>
    intro i a h
    cases i with
    | zero =>
      simp only [List.getElem?_cons_zero, Option.some.injEq] at h
      rw [h]; rfl
    | succ j =>
      simp only [List.getElem?_cons_succ] at h
      simp only [List.set_cons_succ, ih j a h]

theorem second_le {P : Pattern} {ds : List Pattern} (h : 2 ≤ (ordinalsOf P ds).length) :
    (ordinalsOf P ds)[1]?.getD 0 ≤ (ds.length : Int) := by
  have hlt : 1 < (ordinalsOf P ds).length := by omega
  rw [List.getElem?_eq_getElem hlt]
  exact (ordinalsOf_le (List.getElem_mem hlt)).2

/-- The new pattern is not in the dictionary yet: the lines stay as they are. -/
theorem dupX_skip {L : List (List Int)} {ds : List Pattern} {P : Pattern}
    (hX : DupX L ds) (hP : P ∉ ds) : DupX L (ds ++ [P]) := by
  refine ⟨?_, ?_, hX.heads, hX.seconds⟩
  · intro v hv
    obtain ⟨Q, hQ, e, hl⟩ := hX.lines v hv
    have hne : Q ≠ P := fun e1 => hP (e1 ▸ hQ)
    exact ⟨Q, List.mem_append_left _ hQ, by rw [ordinalsOf_snoc_ne ds hne]; exact e, hl⟩
  · intro Q hQ hl
    by_cases e : Q = P
    · rw [e, ordinalsOf_snoc_self, ordinalsOf_not_mem hP] at hl
      simp at hl
    · rw [ordinalsOf_snoc_ne ds e] at hl ⊢
      rcases List.mem_append.1 hQ with h1 | h1
      · exact hX.classes Q h1 hl
      · exact absurd (List.mem_singleton.1 h1) e

/-- The new pattern has one earlier occurrence: a line of the two ordinals is
added at the end. -/
theorem dupX_new {L : List (List Int)} {ds : List Pattern} {P : Pattern} {o : Int}
    (hX : DupX L ds) (hP : P ∈ ds) (ho : o = ((firstIdx P ds : Nat) : Int) + 1)
    (hnone : ∀ v, v ∈ L → v.head? ≠ some o) :
    DupX (L ++ [[o, (ds.length : Int) + 1]]) (ds ++ [P]) := by
  have hhead := ordinalsOf_head hP
  rw [← ho] at hhead
  have hone : ordinalsOf P ds = [o] := by
    have h1 := ordinalsOf_pos_length hP
    have h2 : ¬ 2 ≤ (ordinalsOf P ds).length := by
      intro h2
      exact hnone _ (hX.classes P hP h2) hhead
    cases hv : ordinalsOf P ds with
    | nil => rw [hv] at h1; simp at h1
    | cons a r =>
      rw [hv] at hhead h2
      simp only [List.head?_cons, Option.some.injEq] at hhead
      cases r with
      | nil => rw [hhead]
      | cons b r2 => simp at h2
  have hnew : ordinalsOf P (ds ++ [P]) = [o, (ds.length : Int) + 1] := by
    rw [ordinalsOf_snoc_self, hone]; rfl
  refine ⟨?_, ?_, ?_, ?_⟩
  · intro v hv
    rcases List.mem_append.1 hv with h1 | h1
    · obtain ⟨Q, hQ, e, hl⟩ := hX.lines v h1
      have hne : Q ≠ P := by
        intro e1
        rw [e, e1, hone] at hl
        simp at hl
      exact ⟨Q, List.mem_append_left _ hQ, by rw [ordinalsOf_snoc_ne ds hne]; exact e, hl⟩
    · rw [List.mem_singleton] at h1
      exact ⟨P, List.mem_append_right _ (List.mem_singleton_self _), by rw [hnew, h1],
        by rw [h1]; simp⟩
  · intro Q hQ hl
    by_cases e : Q = P
    · rw [e, hnew]
      exact List.mem_append_right _ (List.mem_singleton_self _)
    · rw [ordinalsOf_snoc_ne ds e] at hl ⊢
      rcases List.mem_append.1 hQ with h1 | h1
      · exact List.mem_append_left _ (hX.classes Q h1 hl)
      · exact absurd (List.mem_singleton.1 h1) e
  · rw [List.map_append, List.map_singleton]
    refine List.Nodup.append hX.heads (List.nodup_singleton _) ?_
    intro x hx1 hx2
    rw [List.mem_singleton] at hx2
    obtain ⟨v, hv, e⟩ := List.mem_map.1 hx1
    rw [hx2] at e
    exact hnone v hv (by simpa using e)
  · rw [List.map_append, List.map_singleton, List.pairwise_append]
    refine ⟨hX.seconds, List.pairwise_singleton _ _, ?_⟩
    intro a ha b hb
    rw [List.mem_singleton] at hb
    obtain ⟨v, hv, e⟩ := List.mem_map.1 ha
    obtain ⟨Q, _, e1, hl⟩ := hX.lines v hv
    rw [e1] at hl e
    have := second_le hl
    rw [hb, ← e]
    simp only [List.getElem?_cons_succ, List.getElem?_cons_zero, Option.getD_some]
    omega

/-- The new pattern already has its line: the new ordinal goes to the end of
that line. -/
theorem dupX_old {L : List (List Int)} {ds : List Pattern} {P : Pattern} {o : Int}
    {i : Nat} {v : List Int} (hX : DupX L ds) (hP : P ∈ ds)
    (ho : o = ((firstIdx P ds : Nat) : Int) + 1) (hi : L[i]? = some v)
    (hv : v.head? = some o) :
    DupX (L.set i (v ++ [(ds.length : Int) + 1])) (ds ++ [P]) := by
  have hhead := ordinalsOf_head hP
  rw [← ho] at hhead
  have hilt : i < L.length := by
    by_contra hge
    rw [List.getElem?_eq_none (by omega)] at hi
    cases hi
  obtain ⟨Q, _, e, hl⟩ := hX.lines v (List.getElem?_mem hi)
  have hQP : Q = P := by
    have h1 : o ∈ ordinalsOf Q ds := by rw [← e]; exact List.mem_of_mem_head? hv
    exact ordinalsOf_inj h1 (List.mem_of_mem_head? hhead)
  rw [hQP] at e
  have hnew : ordinalsOf P (ds ++ [P]) = v ++ [(ds.length : Int) + 1] := by
    rw [ordinalsOf_snoc_self, e]
  have hkeep : ∀ j, j ≠ i → (L.set i (v ++ [(ds.length : Int) + 1]))[j]? = L[j]? :=
    fun j hj => List.getElem?_set_ne (fun e1 => hj e1.symm)
  have hother : ∀ j w, L[j]? = some w → j ≠ i → ∀ R, w = ordinalsOf R ds → R ≠ P := by
    intro j w hj hji R hw hR
    have h1 : (L.map List.head?)[j]? = (L.map List.head?)[i]? := by
      rw [List.getElem?_map, List.getElem?_map, hj, hi, hw, hR, ← e]
    have hjlt : j < (L.map List.head?).length := by
      rw [List.length_map]
      by_contra hge
      rw [List.getElem?_eq_none (by omega)] at hj
      cases hj
    exact hji (List.getElem?_inj hjlt hX.heads h1)
  refine ⟨?_, ?_, ?_, ?_⟩
  · intro w hw
    obtain ⟨j, hj⟩ := List.mem_iff_getElem?.1 hw
    by_cases hji : j = i
    · rw [hji, List.getElem?_set_self hilt] at hj
      cases hj
      exact ⟨P, List.mem_append_right _ (List.mem_singleton_self _), hnew.symm,
        by simp; omega⟩
    · rw [hkeep j hji] at hj
      obtain ⟨R, hR, e1, hl1⟩ := hX.lines w (List.getElem?_mem hj)
      have hne := hother j w hj hji R e1
      exact ⟨R, List.mem_append_left _ hR, by rw [ordinalsOf_snoc_ne ds hne]; exact e1, hl1⟩
  · intro R hR hl1
    by_cases eR : R = P
    · rw [eR, hnew]
      exact List.getElem?_mem (List.getElem?_set_self hilt)
    · rw [ordinalsOf_snoc_ne ds eR] at hl1 ⊢
      have hRds : R ∈ ds := by
        rcases List.mem_append.1 hR with h1 | h1
        · exact h1
        · exact absurd (List.mem_singleton.1 h1) eR
      obtain ⟨j, hj⟩ := List.mem_iff_getElem?.1 (hX.classes R hRds hl1)
      have hji : j ≠ i := by
        intro hji
        rw [hji, hi] at hj
        have hv2 : v = ordinalsOf R ds := Option.some.inj hj
        have h0 : 0 < (ordinalsOf R ds).length := by omega
        have h1 : (ordinalsOf R ds)[0] ∈ ordinalsOf P ds := by
          rw [← e, hv2]
          exact List.getElem_mem h0
        exact eR (ordinalsOf_inj (List.getElem_mem h0) h1)
      exact List.getElem?_mem ((hkeep j hji).trans hj)
  · have h1 : (v ++ [(ds.length : Int) + 1]).head? = v.head? := by
      cases v with
      | nil => simp at hl
      | cons a r => rfl
    rw [List.map_set, h1, set_same _ i _ (by rw [List.getElem?_map, hi]; rfl)]
    exact hX.heads
  · have h1 : (v ++ [(ds.length : Int) + 1])[1]?.getD 0 = v[1]?.getD 0 := by
      rw [List.getElem?_append_left (by omega)]
    rw [List.map_set, h1, set_same _ i _ (by rw [List.getElem?_map, hi]; rfl)]
    exact hX.seconds

theorem scan_vals (o p : Int) : ∀ (ls : List DupsBufLine),
    match dupsbuf_scan o p ls with
    | some (ls1, _) => ∃ i line, ls[i]? = some line ∧ line.vals.head? = some o ∧
        ls1.map DupsBufLine.vals = (ls.map DupsBufLine.vals).set i (line.vals ++ [p])
    | none => ∀ l, l ∈ ls → l.vals.head? ≠ some o := by
  intro ls
  induction ls with
  | nil => intro l hl; exact absurd hl (List.not_mem_nil _)
  | cons l0 rest ih =>
    simp only [dupsbuf_scan]
    by_cases h0 : l0.vals.head? = some o
    · rw [if_pos h0]
      exact ⟨0, l0, by simp, h0, by simp [appendtoline_vals]⟩
    · rw [if_neg h0]
      cases hr : dupsbuf_scan o p rest with
      | none =>
        rw [hr] at ih
        intro l hl
        rcases List.mem_cons.1 hl with e | e
        · rw [e]; exact h0
        · exact ih l e
      | some r =>
        obtain ⟨rest1, r1⟩ := r
        rw [hr] at ih
        obtain ⟨i, line, a1, a2, a3⟩ := ih
        exact ⟨i + 1, line, by simpa using a1, a2, by simp [a3]⟩

/-- The values of the lines after `dupsbuf_append`: a line that starts with `o`
gets `p` at its end, or, when no line starts with `o`, the line `o`, `p` is
added after the lines. -/
theorem dupsbuf_append_vals (s : State) (o p : Int) :
    (∃ i v, (s.dupsbuf.map DupsBufLine.vals)[i]? = some v ∧ v.head? = some o ∧
      (dupsbuf_append s o p).1.dupsbuf.map DupsBufLine.vals
        = (s.dupsbuf.map DupsBufLine.vals).set i (v ++ [p])) ∨
    ((∀ v, v ∈ s.dupsbuf.map DupsBufLine.vals → v.head? ≠ some o) ∧
      (dupsbuf_append s o p).1.dupsbuf.map DupsBufLine.vals
        = s.dupsbuf.map DupsBufLine.vals ++ [[o, p]]) := by
  have hs := scan_vals o p s.dupsbuf
  unfold dupsbuf_append
  cases hr : dupsbuf_scan o p s.dupsbuf with
  | some r =>
    obtain ⟨ls1, r1⟩ := r
    rw [hr] at hs
    obtain ⟨i, line, a1, a2, a3⟩ := hs
    exact Or.inl ⟨i, line.vals, by rw [List.getElem?_map, a1]; rfl, a2, a3⟩
  | none =>
    rw [hr] at hs
    right
    refine ⟨?_, ?_⟩
    · intro v hv
      obtain ⟨l, hl, e⟩ := List.mem_map.1 hv
      rw [← e]
      exact hs l hl
    · have hv : (dupsbuf_appendtoline (dupsbuf_appendtoline
          { vals := [], maxcount := 0 } o).1 p).1.vals = [o, p] := by
        rw [appendtoline_vals, appendtoline_vals]
        rfl
      by_cases hc : s.dupsbuf_count ≥ s.dupsbuf_maxcount
      · simp only [hc, if_true, List.map_append, List.map_singleton, hv]
      · simp only [hc, if_false, List.map_append, List.map_singleton, hv]

theorem addPattern_dupX {s s1 : State} {F : List Int} {lab : Nat → List Int}
    {ds : List Pattern} (P : Pattern) (hD : DInv s F lab ds)
    (hX : DupX (s.dupsbuf.map DupsBufLine.vals) ds) (hP : ∀ c, c ∈ P → c ≠ -1)
    (h : ACnodebuf_addPattern s P ((ds.length : Int) + 1) = .ok s1)
    (hcap : (s1.ACnodebuf.length : Int) ≤ s.ACnodebuf_maxcount) :
    DupX (s1.dupsbuf.map DupsBufLine.vals) (ds ++ [P]) := by
  obtain ⟨s2, t, hl, _, hfin⟩ := addPattern_ok_cases h
  have hcap2 := addPattern_loop_cap h hcap s2 t hl
  have hD0 := dinv_plen hD (P.length : Int)
  have hd0 : ({ s with ACnodebuf_pattern_length := (P.length : Int) } : State).dupsbuf
      = s.dupsbuf := rfl
  generalize ({ s with ACnodebuf_pattern_length := (P.length : Int) } : State) = s0
    at hl hD0 hd0 hcap2
  obtain ⟨F1, lab1, hL⟩ := loop_trie P s0 0 F lab hD0.tinv hD0.tinv.links.1 hP s2 t hl hcap2
  have hmono := walk_mono hD0.tinv hL.tinv.good hL.tinv.codes hL.ext
  have hroot : lab1 0 = [] := by rw [hL.labs 0 hD0.tinv.links.1, hD0.root]
  have hlabt : lab1 t = P := by
    rw [walk_label hL.tinv P 0 t hL.reach, hroot]; rfl
  have hdups : s2.dupsbuf = s.dupsbuf := hL.dups.trans hd0
  rcases hfin with ⟨hp, e⟩ | ⟨hp, e⟩
  · have hPnot : P ∉ ds := by
      intro hmem
      obtain ⟨t1, w1, p1⟩ := hD0.complete P hmem
      have w2 := hmono P 0 t1 w1
      rw [hL.reach] at w2
      cases w2
      rw [hL.ext.pid t] at hp
      exact p1 hp
    have e2 : s1.dupsbuf = s.dupsbuf := by rw [e]; exact hdups
    rw [e2]
    exact dupX_skip hX hPnot
  · have hp1 : (s0.node t).P_id ≠ -1 := by rw [← hL.ext.pid t]; exact hp
    obtain ⟨o1, o2⟩ := hD0.sound t hp1
    rw [← hL.labs t (pid_lt hp1), hlabt] at o1 o2
    rw [← hL.ext.pid t] at o2
    rw [e]
    rcases dupsbuf_append_vals s2 (s2.node t).P_id ((ds.length : Int) + 1) with
      ⟨i, v, a1, a2, a3⟩ | ⟨a1, a2⟩
    · rw [a3, hdups]
      rw [hdups] at a1
      exact dupX_old hX o1 o2 a1 a2
    · rw [a2, hdups]
      rw [hdups] at a1
      exact dupX_new hX o1 o2 a1

theorem initLoop_dupX : ∀ (rest : List Pattern) (s s1 : State) (F : List Int)
    (lab : Nat → List Int) (ds : List Pattern), DInv s F lab ds →
    DupX (s.dupsbuf.map DupsBufLine.vals) ds →
    (∀ P, P ∈ rest → ∀ c, c ∈ P → c ≠ -1) →
    ULdna_init_loop s ds.length rest = .ok s1 →
    (s1.ACnodebuf.length : Int) ≤ s.ACnodebuf_maxcount →
    DupX (s1.dupsbuf.map DupsBufLine.vals) (ds ++ rest) := by
  intro rest
  induction rest with
  | nil =>
    intro s s1 F lab ds _ hX _ h _
    simp only [ULdna_init_loop, Except.ok.injEq] at h
    subst h
    simpa using hX
  | cons P tl ih =>
    intro s s1 F lab ds hD hX hP h hcap
    simp only [ULdna_init_loop] at h
    cases ha : ACnodebuf_addPattern s P ((ds.length : Int) + 1) with
    | error e => rw [ha] at h; cases h
    | ok s2 =>
      rw [ha] at h
      simp only at h
      obtain ⟨c1, c2⟩ := grow_split (addPattern_grow ha) (initLoop_grow tl s2 s1 _ h) hcap
      have hc := hP P (List.mem_cons_self _ _)
      obtain ⟨F2, lab2, hD2⟩ := addPattern_dinv P hD hc ha c1
      have hX2 := addPattern_dupX P hD hX hc ha c1
      have hlen : (ds ++ [P]).length = ds.length + 1 := by simp
      rw [← hlen] at h
      have := ih s2 s1 F2 lab2 (ds ++ [P]) hD2 hX2
        (fun Q hQ => hP Q (List.mem_cons_of_mem _ hQ)) h c2
      simpa using this

/-- After a successful `ULdna_init` on a dictionary without the char of code
`-1`, the lines of duplicates are as `DupX` describes them. -/
theorem init_dupX (g : State) (d : List Pattern) (s : State) (h : ULdna_init g d = .ok s)
    (hs : ∀ P, P ∈ d → ∀ c, c ∈ P → c ≠ -1) (hcap : s.ACnodebuf_count ≤ 50000) :
    DupX (s.dupsbuf.map DupsBufLine.vals) d := by
  rw [ULdna_init_eq] at h
  have hX0 : DupX (rootState.dupsbuf.map DupsBufLine.vals) [] :=
    ⟨fun v hv => absurd hv (List.not_mem_nil _), fun P hP => absurd hP (List.not_mem_nil _),
      List.nodup_nil, List.Pairwise.nil⟩
  have := initLoop_dupX d rootState s [] (fun _ => []) [] root_dinv hX0 hs h hcap
  simpa using this

/-! ## Claims on errors, node count and base codes -/

/-- C1: for every non-empty dictionary whose patterns all have the same length
`L ≥ 1` and together contain at most 4 distinct chars, `ULdna_init` returns a
state: none of the three errors is raised. -/
theorem C1_uniform_dictionary_succeeds (g : State) (d : List Pattern) (L : Nat)
    (_hne : d ≠ []) (hL : 1 ≤ L) (hlen : ∀ P, P ∈ d → P.length = L)
    (h4 : d.flatten.toFinset.card ≤ 4) :
    ∃ s, ULdna_init g d = .ok s := by
  obtain ⟨s, _, hs, _⟩ := init_uniform_ok g d L hL hlen h4
  exact ⟨s, hs⟩

/-- Witness of C1 on the dictionary AC, AG, AC. -/
theorem C1_uniform_dictionary_succeeds_witness :
    ∃ s, ULdna_init zeroStatics [[65, 67], [65, 71], [65, 67]] = .ok s :=
  C1_uniform_dictionary_succeeds zeroStatics [[65, 67], [65, 71], [65, 67]] 2
    (by decide) (by decide) (by decide) (by decide)

/-- C4: for every dictionary of `N ≥ 1` patterns of common length `L ≥ 1` over
at most 4 distinct chars, `ULdna_init` returns a state whose node count is at
least `L + 1` and at most `N * L + 1`. -/
theorem C4_node_count_bounds (g : State) (d : List Pattern) (L : Nat)
    (hne : d ≠ []) (hL : 1 ≤ L) (hlen : ∀ P, P ∈ d → P.length = L)
    (h4 : d.flatten.toFinset.card ≤ 4) :
    ∃ s, ULdna_init g d = .ok s ∧ (L : Int) + 1 ≤ s.ACnodebuf_count ∧
      s.ACnodebuf_count ≤ (d.length : Int) * (L : Int) + 1 := by
  obtain ⟨s, F, hs, _, hc⟩ := init_uniform_ok g d L hL hlen h4
  refine ⟨s, hs, ?_, ?_⟩
  · cases d with
    | nil => exact absurd rfl hne
    | cons P rest =>
      have := init_lower g P rest s hs
      rw [hlen P (List.mem_cons_self _ _)] at this
      unfold State.ACnodebuf_count
      exact_mod_cast this
  · have := hc.upper
    have h1 : rootState.ACnodebuf.length = 1 := rfl
    unfold State.ACnodebuf_count
    have h2 : s.ACnodebuf.length ≤ d.length * L + 1 := by omega
    exact_mod_cast h2

/-- Witness of C4 on the dictionary AC, AG, AC. -/
theorem C4_node_count_bounds_witness :
    ∃ s, ULdna_init zeroStatics [[65, 67], [65, 71], [65, 67]] = .ok s ∧
      ((2 : Nat) : Int) + 1 ≤ s.ACnodebuf_count ∧
      s.ACnodebuf_count ≤ (([[65, 67], [65, 71], [65, 67]] : List Pattern).length : Int) *
        ((2 : Nat) : Int) + 1 :=
  C4_node_count_bounds zeroStatics [[65, 67], [65, 71], [65, 67]] 2
    (by decide) (by decide) (by decide) (by decide)

/-- C5, as the code has it: on the dictionary AC, AG, AC `ULdna_init` returns a
node table of exactly 4 nodes (root, A, AC, AG), and the table of base codes
binds A to slot 0, C to slot 1 and G to slot 2, slot 3 being unassigned. -/
theorem C5_scenario_four_nodes (g : State) :
    ∃ s, ULdna_init g [[65, 67], [65, 71], [65, 67]] = .ok s ∧ s.ACnodebuf_count = 4 ∧
      s.ACnodebuf_base_codes = [65, 67, 71, -1] := by
  rw [ULdna_init_eq]
  exact ⟨_, rfl, rfl, rfl⟩

/-- C5 as stated fails: the node count on AC, AG, AC is not 5. -/
theorem C5_scenario_not_five_nodes :
    ∃ s, ULdna_init zeroStatics [[65, 67], [65, 71], [65, 67]] = .ok s ∧
      s.ACnodebuf_count ≠ 5 :=
  ⟨_, rfl, by decide⟩

/-- C9: on the empty dictionary `ULdna_init` raises no error: it returns the
state that holds the root alone. -/
theorem C9_empty_dictionary_accepted (g : State) : ULdna_init g [] = .ok rootState := by
  rw [ULdna_init_eq]
  rfl

/-- C6, as the code has it: a dictionary with five or more distinct chars other
than the char of code `-1` makes `ULdna_init` fail; when its patterns all have
one length the error is the alphabet one.  On AC, AG, AT, AA, AN the first four
patterns are added and adding the 5th raises the alphabet error. -/
theorem C6_five_symbols_fail (g : State) (d : List Pattern)
    (h5 : 5 ≤ (d.flatten.toFinset.erase (-1)).card) :
    (∃ e, ULdna_init g d = .error e) ∧
    ((∃ L : Nat, ∀ P, P ∈ d → P.length = L) → ULdna_init g d = .error Err.moreThan4Letters) ∧
    (∃ s4, ULdna_init g [[65, 67], [65, 71], [65, 84], [65, 65]] = .ok s4 ∧
      ACnodebuf_addPattern s4 [65, 78] 5 = .error Err.moreThan4Letters ∧
      ULdna_init g [[65, 67], [65, 71], [65, 84], [65, 65], [65, 78]]
        = .error Err.moreThan4Letters) := by
  have hno : ∀ s, ULdna_init g d ≠ .ok s := by
    intro s hs
    obtain ⟨F, hF, hg, _, _⟩ := init_ok_facts g d s hs
    obtain ⟨_, _, hin, _⟩ := alphaRun_good d.flatten [] F good_nil hF
    have hsub : d.flatten.toFinset.erase (-1) ⊆ F.toFinset := by
      intro x hx
      rw [Finset.mem_erase, List.mem_toFinset] at hx
      exact List.mem_toFinset.2 (hin x hx.2 hx.1)
    have h1 := Finset.card_le_card hsub
    have h2 := List.toFinset_card_le F
    have h3 := hg.len
    omega
  obtain ⟨e, he, hce⟩ := init_not_ok_error g d hno
  refine ⟨⟨e, he⟩, ?_, ?_⟩
  · rintro ⟨L, hlen⟩
    have hL : 1 ≤ L := by
      by_contra hL0
      have hfl : d.flatten = [] := by
        rw [List.flatten_eq_nil_iff]
        intro P hP
        exact List.length_eq_zero.1 (by rw [hlen P hP]; omega)
      rw [hfl] at h5
      simp at h5
    rw [initCtl_uniform L hL d (-1) [] (Or.inl rfl) hlen] at hce
    cases hr : alphaRun [] d.flatten with
    | none =>
      rw [hr] at hce
      cases hce
      exact he
    | some F => rw [hr] at hce; cases hce
  · rw [ULdna_init_eq, ULdna_init_eq]
    exact ⟨_, rfl, rfl, rfl⟩

/-- Witness of C6 on the dictionary AC, AG, AT, AA, AN. -/
theorem C6_five_symbols_fail_witness :
    ULdna_init zeroStatics [[65, 67], [65, 71], [65, 84], [65, 65], [65, 78]]
      = .error Err.moreThan4Letters :=
  (C6_five_symbols_fail zeroStatics [[65, 67], [65, 71], [65, 84], [65, 65], [65, 78]]
    (by decide)).2.1 ⟨2, by decide⟩

/-- C6 as stated fails: a dictionary with five distinct chars whose second
pattern has another length fails with the length error, and a one-pattern
dictionary whose five distinct chars include the char of code `-1` is
accepted. -/
theorem C6_five_symbols_other_outcomes :
    (5 ≤ ([[65], [67, 71, 84, 78]] : List Pattern).flatten.toFinset.card ∧
      ULdna_init zeroStatics [[65], [67, 71, 84, 78]] = .error Err.lengthMismatch) ∧
    (5 ≤ ([[-1, 65, 67, 71, 84]] : List Pattern).flatten.toFinset.card ∧
      ∃ s, ULdna_init zeroStatics [[-1, 65, 67, 71, 84]] = .ok s) :=
  ⟨⟨by decide, rfl⟩, ⟨by decide, ⟨_, rfl⟩⟩⟩

/-- C7, as the code has it: a dictionary that contains two patterns of
different lengths makes `ULdna_init` fail; the error is the length-mismatch one
whenever the first pattern is not empty and the dictionary has at most 4
distinct chars (otherwise an earlier check may raise its own error first). -/
theorem C7_mixed_lengths_fail (g : State) (d : List Pattern) (P Q : Pattern)
    (hP : P ∈ d) (hQ : Q ∈ d) (hne : P.length ≠ Q.length) :
    (∃ e, ULdna_init g d = .error e) ∧
    (d.head? ≠ some [] → d.flatten.toFinset.card ≤ 4 →
      ULdna_init g d = .error Err.lengthMismatch) := by
  have hno : ∀ s, ULdna_init g d ≠ .ok s := by
    intro s hs
    obtain ⟨_, _, _, _, hlen⟩ := init_ok_facts g d s hs
    have h1 := (hlen P hP).1
    have h2 := (hlen Q hQ).1
    omega
  obtain ⟨e, he, hce⟩ := init_not_ok_error g d hno
  refine ⟨⟨e, he⟩, ?_⟩
  intro hhead h4
  obtain ⟨c1, c2⟩ := initCtl_error d (-1) [] e (Or.inl rfl) hce
  obtain ⟨F, hF, _, _⟩ := alphaRun_ok d.flatten.toFinset h4 d.flatten [] good_nil
    (fun x hx => absurd hx (List.not_mem_nil _)) (fun c hc => List.mem_toFinset.2 hc)
  cases e with
  | emptyPatterns => exact absurd (c1 rfl).2 hhead
  | lengthMismatch => exact he
  | moreThan4Letters =>
    rw [c2 rfl] at hF
    cases hF

/-- Witness of C7 on the dictionary ACG, ACGT. -/
theorem C7_mixed_lengths_fail_witness :
    ULdna_init zeroStatics [[65, 67, 71], [65, 67, 71, 84]] = .error Err.lengthMismatch :=
  (C7_mixed_lengths_fail zeroStatics [[65, 67, 71], [65, 67, 71, 84]] [65, 67, 71]
    [65, 67, 71, 84] (by decide) (by decide) (by decide)).2 (by decide) (by decide)

/-- C7 as stated fails: with an empty first pattern the error is the
empty-pattern one, and with five distinct chars in the first pattern it is the
alphabet one, although the patterns have different lengths. -/
theorem C7_mixed_lengths_other_errors :
    ULdna_init zeroStatics [[], [65]] = .error Err.emptyPatterns ∧
    ULdna_init zeroStatics [[65, 67, 71, 84, 78], [65]] = .error Err.moreThan4Letters :=
  ⟨rfl, rfl⟩

/-- C8, as the code has it: a dictionary that contains a zero-length pattern
makes `ULdna_init` fail, and the error is the empty-pattern one exactly when
the first pattern of the dictionary is the zero-length one.  For a zero-length
pattern at a later position, after the patterns `pre`: when `ULdna_init`
succeeds on `pre` (no earlier pattern has failed) the error is the
length-mismatch one, and when it fails on `pre` the error is the one met
there. -/
theorem C8_empty_pattern_fails (g : State) (d : List Pattern) (h0 : [] ∈ d) :
    (∃ e, ULdna_init g d = .error e ∧ (e = Err.emptyPatterns ↔ d.head? = some [])) ∧
    (∀ (pre post : List Pattern), d = pre ++ [] :: post → pre ≠ [] →
      (∀ s1, ULdna_init g pre = .ok s1 → ULdna_init g d = .error Err.lengthMismatch) ∧
      (∀ e, ULdna_init g pre = .error e → ULdna_init g d = .error e)) := by
  refine ⟨?_, ?_⟩
  · have hno : ∀ s, ULdna_init g d ≠ .ok s := by
      intro s hs
      obtain ⟨_, _, _, _, hlen⟩ := init_ok_facts g d s hs
      have := (hlen [] h0).2
      simp at this
    obtain ⟨e, he, hce⟩ := init_not_ok_error g d hno
    refine ⟨e, he, ?_, ?_⟩
    · intro h
      exact ((initCtl_error d (-1) [] e (Or.inl rfl) hce).1 h).2
    · intro hhead
      cases d with
      | nil => cases hhead
      | cons P rest =>
        simp only [List.head?_cons, Option.some.injEq] at hhead
        subst hhead
        have : initCtl (-1) [] ([] :: rest) = .error Err.emptyPatterns := rfl
        rw [this] at hce
        cases hce
        rfl
  · intro pre post hd hpre
    subst hd
    refine ⟨?_, ?_⟩
    · intro s1 h1
      obtain ⟨_, _, _, _, hlen⟩ := init_ok_facts g pre s1 h1
      rw [ULdna_init_eq] at h1
      rw [ULdna_init_eq, initLoop_append, h1]
      cases pre with
      | nil => exact absurd rfl hpre
      | cons Q tl =>
        obtain ⟨e1, e2⟩ := hlen Q (List.mem_cons_self _ _)
        have c1 : s1.ACnodebuf_pattern_length ≠ -1 := by omega
        have c2 : ((([] : Pattern).length : Nat) : Int) ≠ s1.ACnodebuf_pattern_length := by
          simp only [List.length_nil]
          omega
        simp only [ULdna_init_loop, ACnodebuf_addPattern, c1, c2, if_false, ne_eq,
          not_false_eq_true, if_true]
    · intro e h1
      rw [ULdna_init_eq] at h1
      rw [ULdna_init_eq, initLoop_append, h1]

/-- Witness of C8: on the dictionary whose first pattern is empty the error is
the empty-pattern one; on AC, AG followed by the empty pattern, the first two
patterns being accepted, it is the length-mismatch one. -/
theorem C8_empty_pattern_fails_witness :
    (∃ e, ULdna_init zeroStatics [[], [65]] = .error e ∧
      (e = Err.emptyPatterns ↔ ([[], [65]] : List Pattern).head? = some [])) ∧
    (∃ s1, ULdna_init zeroStatics [[65, 67], [65, 71]] = .ok s1) ∧
    ULdna_init zeroStatics [[65, 67], [65, 71], []] = .error Err.lengthMismatch :=
  ⟨(C8_empty_pattern_fails zeroStatics [[], [65]] (by decide)).1,
   ⟨_, rfl⟩,
   ((C8_empty_pattern_fails zeroStatics [[65, 67], [65, 71], []] (by decide)).2
     [[65, 67], [65, 71]] [] rfl (by decide)).1 _ rfl⟩

/-- C8 as stated fails: a zero-length pattern after a pattern of length 1 fails
with the length-mismatch error, not the empty-pattern one. -/
theorem C8_empty_pattern_later_is_mismatch :
    ULdna_init zeroStatics [[65], []] = .error Err.lengthMismatch := rfl

/-- C10, as the code has it: after a successful `ULdna_init` on a dictionary in
which no char has the code `-1`, the table `ACnodebuf_base_codes` is the list of
the distinct chars of the dictionary in order of first occurrence, padded on
the right with `-1`; these chars are pairwise distinct and at most 4, and a
slot `k` holds `-1` only if the dictionary has at most `k` (so fewer than 4)
distinct chars. -/
theorem C10_base_codes_first_occurrence (g : State) (d : List Pattern) (s : State)
    (h : ULdna_init g d = .ok s) (hs : ∀ P, P ∈ d → ∀ c, c ∈ P → c ≠ -1) :
    s.ACnodebuf_base_codes = pad (firstOcc [] d.flatten) ∧
    (firstOcc [] d.flatten).Nodup ∧
    (∀ x, x ∈ firstOcc [] d.flatten ↔ x ∈ d.flatten) ∧
    (firstOcc [] d.flatten).length = d.flatten.toFinset.card ∧
    d.flatten.toFinset.card ≤ 4 ∧
    (∀ k, k < 4 → s.ACnodebuf_base_codes[k]? = some (-1) → d.flatten.toFinset.card ≤ k) := by
  obtain ⟨F, hF, hg, hbc, _⟩ := init_ok_facts g d s h
  have hflat : ∀ c, c ∈ d.flatten → c ≠ -1 := by
    intro c hc
    obtain ⟨P, hP, hcP⟩ := List.mem_flatten.1 hc
    exact hs P hP c hcP
  have hFO : F = firstOcc [] d.flatten := alphaRun_firstOcc d.flatten [] F hflat hF
  obtain ⟨_, _, hin, hout⟩ := alphaRun_good d.flatten [] F good_nil hF
  have hmem : ∀ x, x ∈ F ↔ x ∈ d.flatten := by
    intro x
    constructor
    · intro hx
      rcases hout x hx with e | e
      · exact absurd e (List.not_mem_nil _)
      · exact e
    · intro hx
      exact hin x hx (hflat x hx)
  have hcard : F.length = d.flatten.toFinset.card := by
    rw [← List.toFinset_card_of_nodup hg.nodup]
    congr 1
    ext x
    rw [List.mem_toFinset, List.mem_toFinset, hmem]
  rw [← hFO]
  refine ⟨hbc, hg.nodup, hmem, hcard, by rw [← hcard]; exact hg.len, ?_⟩
  intro k hk hk1
  rw [← hcard]
  by_contra hlt
  have hkF : k < F.length := by omega
  have h1 := pad_get F k hk
  rw [← hbc, hk1, List.getElem?_eq_getElem hkF] at h1
  simp only [Option.getD_some] at h1
  exact hg.nosent (h1 ▸ List.getElem_mem hkF)

/-- Witness of C10 on the dictionary AC, AG, AC. -/
theorem C10_base_codes_first_occurrence_witness :
    ∃ s, ULdna_init zeroStatics [[65, 67], [65, 71], [65, 67]] = .ok s ∧
      s.ACnodebuf_base_codes
        = pad (firstOcc [] ([[65, 67], [65, 71], [65, 67]] : List Pattern).flatten) :=
  ⟨_, rfl, (C10_base_codes_first_occurrence zeroStatics [[65, 67], [65, 71], [65, 67]] _ rfl
    (by decide)).1⟩

/-- C10 as stated fails when a char has the code `-1`: on the one-pattern
dictionary of the chars `-1`, A the table binds A to slot 0, while the distinct
chars in order of first occurrence are `-1`, A; and on `-1`, A, C, G slot 3 is
unassigned although the dictionary has 4 distinct chars. -/
theorem C10_sentinel_char_breaks_order :
    (∃ s, ULdna_init zeroStatics [[-1, 65]] = .ok s ∧
      s.ACnodebuf_base_codes = [65, -1, -1, -1] ∧
      s.ACnodebuf_base_codes ≠ pad (firstOcc [] ([[-1, 65]] : List Pattern).flatten)) ∧
    (∃ s, ULdna_init zeroStatics [[-1, 65, 67, 71]] = .ok s ∧
      s.ACnodebuf_base_codes[3]? = some (-1) ∧
      ([[-1, 65, 67, 71]] : List Pattern).flatten.toFinset.card = 4) :=
  ⟨⟨_, rfl, rfl, by decide⟩, ⟨_, rfl, rfl, by decide⟩⟩

/-! ## Claims on owners, duplicates and the round trip -/

/-- C2, as the code has it: after a successful `ULdna_init` on a dictionary in
which no char has the code `-1`, that has built at most 50000 nodes (the first
capacity of the node buffer), for positions `i < j` (from 0; the ordinals are
`i + 1`, `j + 1`) holding the same pattern `P`, the node reached by reading `P`
from the root stores as `P_id` the smallest ordinal `m + 1` whose pattern is
`P` (so `m ≤ i`), exactly one line of duplicates starts with `m + 1`, and that
line holds the ordinal of every other position of `P`, `j + 1` among them.  On
AC, AG, AC the owner of AC is 1, the owner of AG is 2 and the lines of
duplicates are the one line 1, 3. -/
theorem C2_owner_and_duplicates (g : State) (d : List Pattern) (s : State)
    (h : ULdna_init g d = .ok s) (hs : ∀ P, P ∈ d → ∀ c, c ∈ P → c ≠ -1)
    (hcap : s.ACnodebuf_count ≤ 50000)
    (i j : Nat) (P : Pattern) (hij : i < j) (hi : d[i]? = some P) (hj : d[j]? = some P) :
    (∃ (m t : Nat) (nd : ACNode), m ≤ i ∧ d[m]? = some P ∧ (∀ m1, m1 < m → d[m1]? ≠ some P) ∧
      walk s 0 P = some t ∧ s.ACnodebuf[t]? = some nd ∧ nd.P_id = (m : Int) + 1 ∧
      ∃ line, line ∈ s.dupsbuf ∧ line.vals.head? = some ((m : Int) + 1) ∧
        (∀ line2, line2 ∈ s.dupsbuf → line2.vals.head? = some ((m : Int) + 1) →
          line2 = line) ∧
        ((j : Int) + 1) ∈ line.vals ∧
        ∀ k, d[k]? = some P → k ≠ m → ((k : Int) + 1) ∈ line.vals) ∧
    (∃ s3, ULdna_init g [[65, 67], [65, 71], [65, 67]] = .ok s3 ∧
      walk s3 0 [65, 67] = some 2 ∧ (s3.node 2).P_id = 1 ∧
      walk s3 0 [65, 71] = some 3 ∧ (s3.node 3).P_id = 2 ∧
      s3.dupsbuf.map DupsBufLine.vals = [[1, 3]]) := by
  refine ⟨?_, ?_⟩
  · obtain ⟨F, lab, hD⟩ := init_dinv g d s h hs hcap
    obtain ⟨t, w, a1, a2, a3, a4, a5, _⟩ := dinv_owner_of hD hi
    obtain ⟨_, _, _, _, _, _, _, b⟩ := dinv_owner_of hD hj
    obtain ⟨line, l1, l2, l3, l4⟩ := b (by omega)
    refine ⟨firstIdx P d, t, s.node t, a4, a3, a5, w, a1, a2, line, l1, l2, l4, l3, ?_⟩
    intro k hk hne
    obtain ⟨_, _, _, _, _, _, _, c⟩ := dinv_owner_of hD hk
    obtain ⟨line3, m1, m2, m3, _⟩ := c (fun e => hne e.symm)
    rw [← l4 line3 m1 m2]
    exact m3
  · rw [ULdna_init_eq]
    exact ⟨_, rfl, rfl, rfl, rfl, rfl, rfl⟩

/-- Witness of C2 on the dictionary AC, AG, AC, positions 0 and 2. -/
theorem C2_owner_and_duplicates_witness :
    ULdna_init zeroStatics [[65, 67], [65, 71], [65, 67]] = .ok scenarioState ∧
      ∃ (m t : Nat) (nd : ACNode), m ≤ 0 ∧
        ([[65, 67], [65, 71], [65, 67]] : List Pattern)[m]? = some [65, 67] ∧
        (∀ m1, m1 < m → ([[65, 67], [65, 71], [65, 67]] : List Pattern)[m1]? ≠ some [65, 67]) ∧
        walk scenarioState 0 [65, 67] = some t ∧ scenarioState.ACnodebuf[t]? = some nd ∧
        nd.P_id = (m : Int) + 1 ∧
        ∃ line, line ∈ scenarioState.dupsbuf ∧ line.vals.head? = some ((m : Int) + 1) ∧
          (∀ line2, line2 ∈ scenarioState.dupsbuf →
            line2.vals.head? = some ((m : Int) + 1) → line2 = line) ∧
          (((2 : Nat) : Int) + 1) ∈ line.vals ∧
          ∀ k, ([[65, 67], [65, 71], [65, 67]] : List Pattern)[k]? = some [65, 67] → k ≠ m →
            ((k : Int) + 1) ∈ line.vals :=
  ⟨rfl, (C2_owner_and_duplicates zeroStatics [[65, 67], [65, 71], [65, 67]] scenarioState rfl
    (by decide) (by decide) 0 2 [65, 67] (by decide) rfl rfl).1⟩

/-- C2 as stated fails when a char has the code `-1`: on the dictionary of the
one-char patterns `-1`, A, A the node reached by A stores the ordinal 1, whose
pattern is not A, while the smallest ordinal of A is 2. -/
theorem C2_sentinel_char_takes_ownership :
    ∃ s, ULdna_init zeroStatics [[-1], [65], [65]] = .ok s ∧
      walk s 0 [65] = some 1 ∧ (s.node 1).P_id = 1 ∧
      ([[-1], [65], [65]] : List Pattern)[0]? ≠ some [65] ∧
      ([[-1], [65], [65]] : List Pattern)[1]? = some [65] :=
  ⟨_, rfl, rfl, rfl, by decide, rfl⟩

/-- C3, as the code has it: after a successful `ULdna_init` on a dictionary in
which no char has the code `-1`, that has built at most 50000 nodes (the first
capacity of the node buffer), reading the pattern `P` of position `k` (from
0; its ordinal is `k + 1`) from the root, each char through the slot whose base
code it is, ends after all its chars at a node of the buffer whose `P_id` is an
ordinal `o + 1` with the pattern at that ordinal equal to `P`, and either
`o = k` or `k + 1` is in the line of duplicates that starts with `o + 1`. -/
theorem C3_round_trip (g : State) (d : List Pattern) (s : State)
    (h : ULdna_init g d = .ok s) (hs : ∀ P, P ∈ d → ∀ c, c ∈ P → c ≠ -1)
    (hcap : s.ACnodebuf_count ≤ 50000) (k : Nat) (P : Pattern) (hk : d[k]? = some P) :
    ∃ (t : Nat) (nd : ACNode) (o : Nat), walk s 0 P = some t ∧ s.ACnodebuf[t]? = some nd ∧
      nd.P_id = (o : Int) + 1 ∧ d[o]? = some P ∧
      (o = k ∨ ∃ line, line ∈ s.dupsbuf ∧ line.vals.head? = some ((o : Int) + 1) ∧
        ((k : Int) + 1) ∈ line.vals) := by
  obtain ⟨F, lab, hD⟩ := init_dinv g d s h hs hcap
  obtain ⟨t, w, a1, a2, a3, _, _, a6⟩ := dinv_owner_of hD hk
  refine ⟨t, s.node t, firstIdx P d, w, a1, a2, a3, ?_⟩
  by_cases e : firstIdx P d = k
  · exact Or.inl e
  · obtain ⟨line, l1, l2, l3, _⟩ := a6 e
    exact Or.inr ⟨line, l1, l2, l3⟩

/-- Witness of C3 on the dictionary AC, AG, AC, position 2. -/
theorem C3_round_trip_witness :
    ULdna_init zeroStatics [[65, 67], [65, 71], [65, 67]] = .ok scenarioState ∧
      ∃ (t : Nat) (nd : ACNode) (o : Nat), walk scenarioState 0 [65, 67] = some t ∧
        scenarioState.ACnodebuf[t]? = some nd ∧ nd.P_id = (o : Int) + 1 ∧
        ([[65, 67], [65, 71], [65, 67]] : List Pattern)[o]? = some [65, 67] ∧
        (o = 2 ∨ ∃ line, line ∈ scenarioState.dupsbuf ∧
          line.vals.head? = some ((o : Int) + 1) ∧ (((2 : Nat) : Int) + 1) ∈ line.vals) :=
  ⟨rfl, C3_round_trip zeroStatics [[65, 67], [65, 71], [65, 67]] scenarioState rfl
    (by decide) (by decide) 2 [65, 67] rfl⟩

/-- C3 as stated fails when a char has the code `-1`: on the dictionary of the
one-char patterns `-1`, A reading A ends at node 1, whose `P_id` is the ordinal
1, and the pattern at ordinal 1 is not A. -/
theorem C3_sentinel_char_breaks_round_trip :
    ∃ s, ULdna_init zeroStatics [[-1], [65]] = .ok s ∧
      walk s 0 [65] = some 1 ∧ s.ACnodebuf[1]?.map ACNode.P_id = some 1 ∧
      ([[-1], [65]] : List Pattern)[0]? = some [-1] ∧
      s.dupsbuf.map DupsBufLine.vals = [[1, 2]] :=
  ⟨_, rfl, rfl, rfl, rfl, rfl⟩

/-! ## Claims on the two growable buffers and on slot order -/

theorem scan_at (o p : Int) : ∀ (ls : List DupsBufLine) (i : Nat) (line : DupsBufLine),
    ls[i]? = some line → line.vals.head? = some o →
    (∀ j l, j < i → ls[j]? = some l → l.vals.head? ≠ some o) →
    dupsbuf_scan o p ls =
      some (ls.set i (dupsbuf_appendtoline line p).1, (dupsbuf_appendtoline line p).2) := by
  intro ls
  induction ls with
  | nil => intro i line h; simp at h
  | cons l0 rest ih =>
    intro i line hi hh hbefore
    cases i with
    | zero =>
      simp only [List.getElem?_cons_zero, Option.some.injEq] at hi
      subst hi
      simp only [dupsbuf_scan, hh, if_true, List.set_cons_zero]
    | succ i1 =>
      simp only [List.getElem?_cons_succ] at hi
      have h0 : ¬ l0.vals.head? = some o := hbefore 0 l0 (by omega) (by simp)
      have hrest := ih i1 line hi hh (fun j l hj hl => hbefore (j + 1) l (by omega) (by simpa using hl))
      simp only [dupsbuf_scan, h0, if_false, hrest, List.set_cons_succ]

theorem scan_none_of (o p : Int) : ∀ (ls : List DupsBufLine),
    (∀ l, l ∈ ls → l.vals.head? ≠ some o) → dupsbuf_scan o p ls = none := by
  intro ls
  induction ls with
  | nil => intro _; rfl
  | cons l0 rest ih =>
    intro h
    have h0 : ¬ l0.vals.head? = some o := h l0 (List.mem_cons_self _ _)
    simp only [dupsbuf_scan, h0, if_false, ih (fun l hl => h l (List.mem_cons_of_mem _ hl))]

/-- C12: `dupsbuf_append (P_id1, P_id2)`, for every state of the buffer of
duplicates and every pair of ids: when line `i` is the first line whose first
value is `P_id1`, the number of lines is unchanged, line `i` gets `P_id2` at
its end and every other line is unchanged; when no line has `P_id1` as first
value, exactly one line, with the values `P_id1`, `P_id2`, is added after the
existing lines, which are all unchanged. -/
theorem C12_dupsbuf_append (s : State) (P_id1 P_id2 : Int) :
    (∀ (i : Nat) (line : DupsBufLine), s.dupsbuf[i]? = some line →
      line.vals.head? = some P_id1 →
      (∀ j l, j < i → s.dupsbuf[j]? = some l → l.vals.head? ≠ some P_id1) →
      (dupsbuf_append s P_id1 P_id2).1.dupsbuf.length = s.dupsbuf.length ∧
      (∃ line1, (dupsbuf_append s P_id1 P_id2).1.dupsbuf[i]? = some line1 ∧
        line1.vals = line.vals ++ [P_id2]) ∧
      (∀ j, j ≠ i → (dupsbuf_append s P_id1 P_id2).1.dupsbuf[j]? = s.dupsbuf[j]?)) ∧
    ((∀ line, line ∈ s.dupsbuf → line.vals.head? ≠ some P_id1) →
      (dupsbuf_append s P_id1 P_id2).1.dupsbuf.length = s.dupsbuf.length + 1 ∧
      (∃ line1, (dupsbuf_append s P_id1 P_id2).1.dupsbuf[s.dupsbuf.length]? = some line1 ∧
        line1.vals = [P_id1, P_id2]) ∧
      (∀ j, j < s.dupsbuf.length →
        (dupsbuf_append s P_id1 P_id2).1.dupsbuf[j]? = s.dupsbuf[j]?)) := by
  refine ⟨?_, ?_⟩
  · intro i line hi hh hbefore
    have hlt : i < s.dupsbuf.length := by
      by_contra hge
      rw [List.getElem?_eq_none (by omega)] at hi
      cases hi
    unfold dupsbuf_append
    rw [scan_at P_id1 P_id2 s.dupsbuf i line hi hh hbefore]
    refine ⟨by simp, ⟨_, List.getElem?_set_self hlt, appendtoline_vals line P_id2⟩, ?_⟩
    intro j hj
    exact List.getElem?_set_ne (fun e => hj e.symm)
  · intro hnone
    unfold dupsbuf_append
    rw [scan_none_of P_id1 P_id2 s.dupsbuf hnone]
    have hv : (dupsbuf_appendtoline (dupsbuf_appendtoline
        { vals := [], maxcount := 0 } P_id1).1 P_id2).1.vals = [P_id1, P_id2] := by
      rw [appendtoline_vals, appendtoline_vals]
      rfl
    by_cases hc : s.dupsbuf_count ≥ s.dupsbuf_maxcount
    · simp only [hc, if_true]
      refine ⟨by simp, ⟨_, by simp, hv⟩, ?_⟩
      intro j hj
      exact List.getElem?_append_left hj
    · simp only [hc, if_false]
      refine ⟨by simp, ⟨_, by simp, hv⟩, ?_⟩
      intro j hj
      exact List.getElem?_append_left hj

/-- C13: slot assignment depends on the order of the patterns: the
dictionaries AC, CA and CA, AC are reorderings of one another, `ULdna_init`
succeeds on both, and the two tables of base codes differ. -/
theorem C13_slot_order_sensitive :
    ∃ (d1 d2 : List Pattern) (s1 s2 : State), d1.Perm d2 ∧
      ULdna_init zeroStatics d1 = .ok s1 ∧ ULdna_init zeroStatics d2 = .ok s2 ∧
      s1.ACnodebuf_base_codes = [65, 67, -1, -1] ∧
      s2.ACnodebuf_base_codes = [67, 65, -1, -1] ∧
      s1.ACnodebuf_base_codes ≠ s2.ACnodebuf_base_codes :=
  ⟨[[65, 67], [67, 65]], [[67, 65], [65, 67]], _, _, List.Perm.swap _ _ _, rfl, rfl, rfl, rfl,
    by decide⟩

/-- C17, as the code has it: `ACnodebuf_newNode` returns the index at which
the new node is written (the length of the node buffer before the call), while
`dupsbuf_appendtoline` returns the length of the line after the call, one more
than the index at which the value is written; both increase the length by
exactly one, write the new element at the old length and leave every element
stored before unchanged. -/
theorem C17_buffer_append :
    (∀ s : State,
      (ACnodebuf_newNode s).2 = (s.ACnodebuf.length : Int) ∧
      (ACnodebuf_newNode s).1.ACnodebuf.length = s.ACnodebuf.length + 1 ∧
      (ACnodebuf_newNode s).1.ACnodebuf[s.ACnodebuf.length]? = some ACNode.fresh ∧
      ∀ i, i < s.ACnodebuf.length → (ACnodebuf_newNode s).1.ACnodebuf[i]? = s.ACnodebuf[i]?) ∧
    (∀ (line : DupsBufLine) (P_id : Int),
      (dupsbuf_appendtoline line P_id).2 = (line.vals.length : Int) + 1 ∧
      (dupsbuf_appendtoline line P_id).1.vals.length = line.vals.length + 1 ∧
      (dupsbuf_appendtoline line P_id).1.vals[line.vals.length]? = some P_id ∧
      ∀ i, i < line.vals.length → (dupsbuf_appendtoline line P_id).1.vals[i]? = line.vals[i]?) := by
  refine ⟨?_, ?_⟩
  · intro s
    have h3 : (ACnodebuf_newNode s).1.ACnodebuf = s.ACnodebuf ++ [ACNode.fresh] := by
      unfold ACnodebuf_newNode
      by_cases hc : s.ACnodebuf_count ≥ s.ACnodebuf_maxcount <;> simp [hc]
    have h2 : (ACnodebuf_newNode s).2 = (s.ACnodebuf.length : Int) := by
      unfold ACnodebuf_newNode State.ACnodebuf_count
      by_cases hc : (s.ACnodebuf.length : Int) ≥ s.ACnodebuf_maxcount <;> simp [hc]
    rw [h3]
    refine ⟨h2, by simp, by simp, ?_⟩
    intro i hi
    exact List.getElem?_append_left hi
  · intro line P_id
    have hv := appendtoline_vals line P_id
    rw [hv]
    refine ⟨?_, by simp, by simp, ?_⟩
    · unfold dupsbuf_appendtoline DupsBufLine.count
      by_cases hc : (line.vals.length : Int) ≥ line.maxcount <;> simp [hc]
    · intro i hi
      exact List.getElem?_append_left hi

/-- C17 as stated fails for `dupsbuf_appendtoline`: on an empty line the value
is written at index 0 and the call returns 1. -/
theorem C17_appendtoline_returns_count :
    (dupsbuf_appendtoline { vals := [], maxcount := 0 } 7).1.vals[0]? = some 7 ∧
    (dupsbuf_appendtoline { vals := [], maxcount := 0 } 7).2 = 1 ∧
    (dupsbuf_appendtoline { vals := [], maxcount := 0 } 7).2
      ≠ ((({ vals := [], maxcount := 0 } : DupsBufLine).vals.length : Nat) : Int) :=
  ⟨rfl, rfl, by decide⟩

theorem step_exit_eq (s : State) (node : Nat) (c : Int) :
    ACnodebuf_addPattern_step s node c =
      match ACnodebuf_addPattern_step_exit s node c with
      | (s1, some child) => .ok (s1, child)
      | (_, none) => .error Err.moreThan4Letters := by
  unfold ACnodebuf_addPattern_step ACnodebuf_addPattern_step_exit
  rcases ACnodebuf_tryMovingToChild s c 0 node 0 with ⟨s1, _ | ch1⟩
  · simp only
    rcases ACnodebuf_tryMovingToChild s1 c 1 node 1 with ⟨s2, _ | ch2⟩
    · simp only
      rcases ACnodebuf_tryMovingToChild s2 c 2 node 2 with ⟨s3, _ | ch3⟩
      · simp only
        rcases ACnodebuf_tryMovingToChild s3 c 3 node 3 with ⟨s4, _ | ch4⟩
        · rfl
        · rfl
      · rfl
    · rfl
  · rfl

theorem loop_exit_eq : ∀ (P : List Int) (s : State) (node : Nat),
    ACnodebuf_addPattern_loop s node P =
      match ACnodebuf_addPattern_loop_exit s node P with
      | (s1, some t) => .ok (s1, t)
      | (_, none) => .error Err.moreThan4Letters := by
  intro P
  induction P with
  | nil => intro s node; rfl
  | cons c rest ih =>
    intro s node
    simp only [ACnodebuf_addPattern_loop, ACnodebuf_addPattern_loop_exit, step_exit_eq]
    rcases ACnodebuf_addPattern_step_exit s node c with ⟨s1, _ | ch⟩
    · rfl
    · exact ih s1 ch

/-- The result of `ACnodebuf_addPattern` is the one its exit state goes with. -/
theorem addPattern_exit_eq (s : State) (P : Pattern) (P_id : Int) :
    ACnodebuf_addPattern s P P_id =
      match ACnodebuf_addPattern_exit s P P_id with
      | (s1, none) => .ok s1
      | (_, some e) => .error e := by
  unfold ACnodebuf_addPattern ACnodebuf_addPattern_exit
  by_cases h1 : s.ACnodebuf_pattern_length = -1
  · by_cases h2 : (P.length : Int) = 0
    · simp only [h1, h2, if_true]
    · simp only [h1, h2, if_true, if_false, loop_exit_eq]
      rcases ACnodebuf_addPattern_loop_exit _ 0 P with ⟨s2, _ | t⟩
      · rfl
      · simp only
        split_ifs <;> rfl
  · by_cases h2 : (P.length : Int) ≠ s.ACnodebuf_pattern_length
    · simp only [if_neg h1, if_pos h2]
    · simp only [if_neg h1, if_neg h2, loop_exit_eq]
      rcases ACnodebuf_addPattern_loop_exit _ 0 P with ⟨s2, _ | t⟩
      · rfl
      · simp only
        split_ifs <;> rfl

/-- C20: the length check of `ACnodebuf_addPattern` fails before any mutation.
When the pattern has length 0 while no length is fixed, or a length other than
the fixed `ACnodebuf_pattern_length`, the call ends in the empty-pattern or the
length-mismatch error with every static variable as it was before the call,
whatever the chars of the pattern are (so also when one of them would overflow
the alphabet); and a call that ends in one of these two errors has changed
nothing. -/
theorem C20_length_check_atomic (s : State) (P : Pattern) (P_id : Int) :
    (s.ACnodebuf_pattern_length = -1 → (P.length : Int) = 0 →
      ACnodebuf_addPattern_exit s P P_id = (s, some Err.emptyPatterns) ∧
      ACnodebuf_addPattern s P P_id = .error Err.emptyPatterns) ∧
    (s.ACnodebuf_pattern_length ≠ -1 → (P.length : Int) ≠ s.ACnodebuf_pattern_length →
      ACnodebuf_addPattern_exit s P P_id = (s, some Err.lengthMismatch) ∧
      ACnodebuf_addPattern s P P_id = .error Err.lengthMismatch) ∧
    (∀ (s1 : State) (e : Err), ACnodebuf_addPattern_exit s P P_id = (s1, some e) →
      e ≠ Err.moreThan4Letters → s1 = s) := by
  refine ⟨?_, ?_, ?_⟩
  · intro h1 h2
    have he : ACnodebuf_addPattern_exit s P P_id = (s, some Err.emptyPatterns) := by
      unfold ACnodebuf_addPattern_exit
      simp only [if_pos h1, if_pos h2]
    exact ⟨he, by rw [addPattern_exit_eq, he]⟩
  · intro h1 h2
    have he : ACnodebuf_addPattern_exit s P P_id = (s, some Err.lengthMismatch) := by
      unfold ACnodebuf_addPattern_exit
      simp only [if_neg h1, if_pos h2]
    exact ⟨he, by rw [addPattern_exit_eq, he]⟩
  · intro s1 e he hne
    unfold ACnodebuf_addPattern_exit at he
    by_cases h1 : s.ACnodebuf_pattern_length = -1
    · by_cases h2 : (P.length : Int) = 0
      · simp only [if_pos h1, if_pos h2, Prod.mk.injEq] at he
        exact he.1.symm
      · simp only [if_pos h1, if_neg h2] at he
        rcases hl : ACnodebuf_addPattern_loop_exit
          { s with ACnodebuf_pattern_length := (P.length : Int) } 0 P with ⟨s2, _ | t⟩
        · rw [hl] at he
          simp only [Prod.mk.injEq, Option.some.injEq] at he
          exact absurd he.2.symm hne
        · rw [hl] at he
          simp only at he
          split_ifs at he <;> simp at he
    · by_cases h2 : (P.length : Int) ≠ s.ACnodebuf_pattern_length
      · simp only [if_neg h1, if_pos h2, Prod.mk.injEq] at he
        exact he.1.symm
      · simp only [if_neg h1, if_neg h2] at he
        rcases hl : ACnodebuf_addPattern_loop_exit s 0 P with ⟨s2, _ | t⟩
        · rw [hl] at he
          simp only [Prod.mk.injEq, Option.some.injEq] at he
          exact absurd he.2.symm hne
        · rw [hl] at he
          simp only at he
          split_ifs at he <;> simp at he

/-- Witness of C20: after AC, AG, AC (fixed length 2) the pattern TNX has a
wrong length and chars that would overflow the alphabet; the call ends in the
length-mismatch error with the state unchanged. -/
theorem C20_length_check_atomic_witness :
    ACnodebuf_addPattern_exit scenarioState [84, 78, 88] 4
      = (scenarioState, some Err.lengthMismatch) ∧
    ACnodebuf_addPattern scenarioState [84, 78, 88] 4 = .error Err.lengthMismatch :=
  (C20_length_check_atomic scenarioState [84, 78, 88] 4).2.1 (by decide) (by decide)

/-! ## Claim on the permanence of the base codes -/

theorem newNode_codes (s : State) :
    (ACnodebuf_newNode s).1.ACnodebuf_base_codes = s.ACnodebuf_base_codes := by
  unfold ACnodebuf_newNode
  by_cases hc : s.ACnodebuf_count ≥ s.ACnodebuf_maxcount <;> simp [hc]

theorem try_codes (s : State) (c : Int) (k node fld : Nat) :
    (ACnodebuf_tryMovingToChild s c k node fld).1.ACnodebuf_base_codes =
      if s.ACnodebuf_base_codes[k]?.getD 0 = -1 then s.ACnodebuf_base_codes.set k c
      else s.ACnodebuf_base_codes := by
  have key : ∀ t : State,
      (if (t.node node).getLink fld = -1 then
          (if t.ACnodebuf_count ≥ t.ACnodebuf_maxcount then
            ((ACnodebuf_newNode t).1, some (ACnodebuf_newNode t).2.toNat)
          else
            ({ (ACnodebuf_newNode t).1 with
                ACnodebuf := (ACnodebuf_newNode t).1.ACnodebuf.set node
                  (((ACnodebuf_newNode t).1.node node).setLink fld (ACnodebuf_newNode t).2) },
              some (ACnodebuf_newNode t).2.toNat))
        else (t, some ((t.node node).getLink fld).toNat)).1.ACnodebuf_base_codes
        = t.ACnodebuf_base_codes := by
    intro t
    split_ifs
    · exact newNode_codes t
    · exact newNode_codes t
    · rfl
  unfold ACnodebuf_tryMovingToChild
  by_cases h1 : s.ACnodebuf_base_codes[k]?.getD 0 = -1
  · rw [if_pos h1, if_pos h1]
    exact key _
  · rw [if_neg h1, if_neg h1]
    by_cases h2 : c ≠ s.ACnodebuf_base_codes[k]?.getD 0
    · rw [if_pos h2]
    · rw [if_neg h2]
      exact key s

theorem try_some {s s1 : State} {c : Int} {k node fld ch : Nat}
    (h : ACnodebuf_tryMovingToChild s c k node fld = (s1, some ch)) :
    s.ACnodebuf_base_codes[k]?.getD 0 = -1 ∨ s.ACnodebuf_base_codes[k]?.getD 0 = c := by
  by_contra hno
  have h1 : ¬ s.ACnodebuf_base_codes[k]?.getD 0 = -1 := fun e => hno (Or.inl e)
  have h2 : c ≠ s.ACnodebuf_base_codes[k]?.getD 0 := fun e => hno (Or.inr e.symm)
  unfold ACnodebuf_tryMovingToChild at h
  simp only [if_neg h1, if_pos h2, Prod.mk.injEq] at h
  cases h.2

theorem codes_keep_try {s : State} {k : Nat} {c : Int} (hc : c ≠ -1)
    (h : s.ACnodebuf_base_codes[k]? = some c) (c1 : Int) (k1 node fld : Nat) :
    (ACnodebuf_tryMovingToChild s c1 k1 node fld).1.ACnodebuf_base_codes[k]? = some c := by
  rw [try_codes]
  by_cases h1 : s.ACnodebuf_base_codes[k1]?.getD 0 = -1
  · rw [if_pos h1]
    have hne : k1 ≠ k := by
      intro e
      rw [e, h] at h1
      exact hc h1
    rw [List.getElem?_set_ne hne]
    exact h
  · rw [if_neg h1]
    exact h

theorem codes_keep_step {s s1 : State} {k ch : Nat} {c : Int} (hc : c ≠ -1)
    (h : s.ACnodebuf_base_codes[k]? = some c) (c1 : Int) (node : Nat)
    (hs : ACnodebuf_addPattern_step s node c1 = .ok (s1, ch)) :
    s1.ACnodebuf_base_codes[k]? = some c := by
  unfold ACnodebuf_addPattern_step at hs
  have k0 := codes_keep_try hc h c1 0 node 0
  rcases h0 : ACnodebuf_tryMovingToChild s c1 0 node 0 with ⟨t1, _ | ch1⟩
  · rw [h0] at hs k0
    simp only at hs k0
    have k1 := codes_keep_try hc k0 c1 1 node 1
    rcases h1 : ACnodebuf_tryMovingToChild t1 c1 1 node 1 with ⟨t2, _ | ch2⟩
    · rw [h1] at hs k1
      simp only at hs k1
      have k2 := codes_keep_try hc k1 c1 2 node 2
      rcases h2 : ACnodebuf_tryMovingToChild t2 c1 2 node 2 with ⟨t3, _ | ch3⟩
      · rw [h2] at hs k2
        simp only at hs k2
        have k3 := codes_keep_try hc k2 c1 3 node 3
        rcases h3 : ACnodebuf_tryMovingToChild t3 c1 3 node 3 with ⟨t4, _ | ch4⟩
        · rw [h3] at hs
          cases hs
        · rw [h3] at hs k3
          cases hs
          exact k3
      · rw [h2] at hs k2
        cases hs
        exact k2
    · rw [h1] at hs k1
      cases hs
      exact k1
  · rw [h0] at hs k0
    cases hs
    exact k0

theorem codes_keep_loop {k : Nat} {c : Int} (hc : c ≠ -1) : ∀ (P : List Int) (s s1 : State)
    (node t : Nat), s.ACnodebuf_base_codes[k]? = some c →
    ACnodebuf_addPattern_loop s node P = .ok (s1, t) →
    s1.ACnodebuf_base_codes[k]? = some c := by
  intro P
  induction P with
  | nil =>
    intro s s1 node t h hl
    simp only [ACnodebuf_addPattern_loop, Except.ok.injEq, Prod.mk.injEq] at hl
    rw [← hl.1]
    exact h
  | cons c1 rest ih =>
    intro s s1 node t h hl
    simp only [ACnodebuf_addPattern_loop] at hl
    cases hs : ACnodebuf_addPattern_step s node c1 with
    | error e => rw [hs] at hl; cases hl
    | ok r =>
      obtain ⟨s2, ch⟩ := r
      rw [hs] at hl
      exact ih s2 s1 ch t (codes_keep_step hc h c1 node hs) hl

theorem codes_keep_add {s s1 : State} {k : Nat} {c : Int} (hc : c ≠ -1)
    (h : s.ACnodebuf_base_codes[k]? = some c) (P : Pattern) (P_id : Int)
    (ha : ACnodebuf_addPattern s P P_id = .ok s1) :
    s1.ACnodebuf_base_codes[k]? = some c := by
  have h1 : ¬ (s.ACnodebuf_pattern_length = -1 ∧ (P.length : Int) = 0) := by
    intro hcnd
    simp only [ACnodebuf_addPattern, hcnd.1, hcnd.2, if_true] at ha
    cases ha
  have h2 : ¬ (s.ACnodebuf_pattern_length ≠ -1 ∧
      (P.length : Int) ≠ s.ACnodebuf_pattern_length) := by
    intro hcnd
    simp only [ACnodebuf_addPattern, hcnd.1, hcnd.2, if_false, ne_eq, not_false_eq_true,
      if_true] at ha
    cases ha
  rw [addPattern_eq s P _ h1 h2] at ha
  cases hl : ACnodebuf_addPattern_loop
      { s with ACnodebuf_pattern_length := (P.length : Int) } 0 P with
  | error e => rw [hl] at ha; cases ha
  | ok r =>
    obtain ⟨s2, t⟩ := r
    rw [hl] at ha
    simp only at ha
    have h3 := codes_keep_loop hc P
      { s with ACnodebuf_pattern_length := (P.length : Int) } s2 0 t h hl
    split_ifs at ha
    · cases ha
      exact h3
    · cases ha
      rw [(dupsbuf_append_fields s2 _ _).2.1]
      exact h3

theorem codes_keep_later {s s2 : State} {k : Nat} {c : Int} (hc : c ≠ -1)
    (h : s.ACnodebuf_base_codes[k]? = some c) (hl : Later s s2) :
    s2.ACnodebuf_base_codes[k]? = some c := by
  induction hl with
  | refl => exact h
  | tryMove c1 k1 node fld _ ih => exact codes_keep_try hc ih c1 k1 node fld
  | setP_id node v _ ih => exact ih
  | dup a b _ ih =>
    rw [(dupsbuf_append_fields _ a b).2.1]
    exact ih
  | add P P_id _ ha ih => exact codes_keep_add hc ih P P_id ha

/-- C15, as the code has it: once a char `c` other than the sentinel `-1` has
been routed through slot `k` by `ACnodebuf_tryMovingToChild` (the call returned
a child), `ACnodebuf_base_codes[k]` is `c` right after the call and in every
later state of the builder, and every char routed through slot `k` in a later
state is `c`. -/
theorem C15_bindings_permanent (s s1 : State) (c : Int) (k node fld ch : Nat)
    (hk : k < s.ACnodebuf_base_codes.length) (hc : c ≠ -1)
    (hroute : ACnodebuf_tryMovingToChild s c k node fld = (s1, some ch)) :
    s1.ACnodebuf_base_codes[k]? = some c ∧
    ∀ s2, Later s1 s2 →
      s2.ACnodebuf_base_codes[k]? = some c ∧
      ∀ (c2 : Int) (node2 fld2 ch2 : Nat) (s3 : State),
        ACnodebuf_tryMovingToChild s2 c2 k node2 fld2 = (s3, some ch2) → c2 = c := by
  have h1 : s1.ACnodebuf_base_codes[k]? = some c := by
    have e : s1 = (ACnodebuf_tryMovingToChild s c k node fld).1 := by rw [hroute]
    rw [e, try_codes]
    by_cases hs : s.ACnodebuf_base_codes[k]?.getD 0 = -1
    · rw [if_pos hs, List.getElem?_set_self hk]
    · rw [if_neg hs]
      rcases try_some hroute with e1 | e1
      · exact absurd e1 hs
      · rw [List.getElem?_eq_getElem hk] at e1 ⊢
        simpa using e1
  refine ⟨h1, ?_⟩
  intro s2 hl
  have h2 := codes_keep_later hc h1 hl
  refine ⟨h2, ?_⟩
  intro c2 node2 fld2 ch2 s3 hr
  rcases try_some hr with e1 | e1
  · rw [h2] at e1
    exact absurd e1 hc
  · rw [h2] at e1
    exact e1.symm

/-- Witness of C15: from the root state A is routed through slot 0; after the
whole pattern AC has been added slot 0 still holds A. -/
theorem C15_bindings_permanent_witness :
    (ACnodebuf_tryMovingToChild rootState 65 0 0 0).1.ACnodebuf_base_codes[0]? = some 65 ∧
    ∀ s2, Later (ACnodebuf_tryMovingToChild rootState 65 0 0 0).1 s2 →
      s2.ACnodebuf_base_codes[0]? = some 65 ∧
      ∀ (c2 : Int) (node2 fld2 ch2 : Nat) (s3 : State),
        ACnodebuf_tryMovingToChild s2 c2 0 node2 fld2 = (s3, some ch2) → c2 = 65 :=
  C15_bindings_permanent rootState (ACnodebuf_tryMovingToChild rootState 65 0 0 0).1 65 0 0 0 1
    (by decide) (by decide) rfl

/-- C15 as stated fails for the char of code `-1`: from the root state it is
routed through slot 0, which stays unassigned; the later char A is then routed
through slot 0 as well, and slot 0 holds A.  The same with whole calls: after
`ACnodebuf_addPattern` of the pattern `-1` slot 0 holds `-1`, and after that of
the pattern A it holds A. -/
theorem C15_sentinel_char_is_not_bound :
    ∃ (s1 s2 sA sB : State), ACnodebuf_tryMovingToChild rootState (-1) 0 0 0 = (s1, some 1) ∧
      s1.ACnodebuf_base_codes[0]? = some (-1) ∧ Later s1 s2 ∧
      ACnodebuf_tryMovingToChild s1 65 0 0 0 = (s2, some 1) ∧
      s2.ACnodebuf_base_codes[0]? = some 65 ∧
      ACnodebuf_addPattern rootState [-1] 1 = .ok sA ∧
      sA.ACnodebuf_base_codes[0]? = some (-1) ∧
      ACnodebuf_addPattern sA [65] 2 = .ok sB ∧
      sB.ACnodebuf_base_codes[0]? = some 65 :=
  ⟨_, _, _, _, rfl, rfl, Later.tryMove 65 0 0 0 (Later.refl _), rfl, rfl, rfl, rfl, rfl, rfl⟩

/-! ## Claims on the tree of child links and on the root -/

/-- While the node buffer has at most the 50000 nodes of its first capacity:
in the node buffer after the root creation of `ULdna_init` and after every
successful `ACnodebuf_addPattern` that follows it, every child link of a node
`i` is `-1` or the index `j` of a node with `i < j < ACnodebuf_count`; every
node other than node 0 is the target of exactly one child link of the whole
buffer; and node 0 is the target of none. -/
theorem tree_within_capacity (s : State) (h : Reach s) (hcap : s.ACnodebuf_count ≤ 50000) :
    (∀ (i k : Nat), i < s.ACnodebuf.length → k < 4 →
      (s.node i).getLink k = -1 ∨
        ∃ j : Nat, (s.node i).getLink k = (j : Int) ∧ i < j ∧ (j : Int) < s.ACnodebuf_count) ∧
    (∀ j : Nat, 0 < j → j < s.ACnodebuf.length →
      ∃ i k, i < s.ACnodebuf.length ∧ k < 4 ∧ (s.node i).getLink k = (j : Int) ∧
        ∀ i1 k1, i1 < s.ACnodebuf.length → k1 < 4 → (s.node i1).getLink k1 = (j : Int) →
          i1 = i ∧ k1 = k) ∧
    (∀ (i k : Nat), i < s.ACnodebuf.length → k < 4 → (s.node i).getLink k ≠ 0) := by
  have hT := ((reach_rinv h).tree hcap).1
  refine ⟨?_, ?_, ?_⟩
  · intro i k _ hk
    by_cases hl : (s.node i).getLink k = -1
    · exact Or.inl hl
    · obtain ⟨j, hj, h1, h2⟩ := hT.up i k hk hl
      exact Or.inr ⟨j, hj, h1, by unfold State.ACnodebuf_count; exact_mod_cast h2⟩
  · intro j hj0 hjlt
    obtain ⟨i, k, hk, e⟩ := hT.parent j hj0 hjlt
    have hne : (s.node i).getLink k ≠ -1 := by rw [e]; omega
    have hi : i < s.ACnodebuf.length := by
      by_contra hge
      rw [node_ge s i (by omega), fresh_getLink] at hne
      exact hne rfl
    refine ⟨i, k, hi, hk, e, ?_⟩
    intro i1 k1 _ hk1 e1
    obtain ⟨a, b⟩ := hT.inj i k i1 k1 hk hk1 hne (e.trans e1.symm)
    exact ⟨a.symm, b.symm⟩
  · intro i k _ hk e
    have hne : (s.node i).getLink k ≠ -1 := by rw [e]; omega
    obtain ⟨j, hj, h1, _⟩ := hT.up i k hk hne
    rw [hj] at e
    omega

/-- On the state `ULdna_init` returns on AC, AG, AC, within the capacity: node 1
is the target of exactly one link, and no link of nodes 0 and 1 goes to node 0. -/
theorem tree_within_capacity_scenario :
    Reach scenarioState ∧
      (∃ i k, i < scenarioState.ACnodebuf.length ∧ k < 4 ∧
        (scenarioState.node i).getLink k = ((1 : Nat) : Int) ∧
        ∀ i1 k1, i1 < scenarioState.ACnodebuf.length → k1 < 4 →
          (scenarioState.node i1).getLink k1 = ((1 : Nat) : Int) → i1 = i ∧ k1 = k) ∧
      (scenarioState.node 0).getLink 0 ≠ 0 ∧ (scenarioState.node 1).getLink 1 ≠ 0 :=
  ⟨init_reach zeroStatics [[65, 67], [65, 71], [65, 67]] scenarioState rfl,
   (tree_within_capacity scenarioState
     (init_reach zeroStatics [[65, 67], [65, 71], [65, 67]] scenarioState rfl) (by decide)).2.1 1
     (by decide) (by decide),
   (tree_within_capacity scenarioState
     (init_reach zeroStatics [[65, 67], [65, 71], [65, 67]] scenarioState rfl) (by decide)).2.2 0 0
     (by decide) (by decide),
   (tree_within_capacity scenarioState
     (init_reach zeroStatics [[65, 67], [65, 71], [65, 67]] scenarioState rfl) (by decide)).2.2 1 1
     (by decide) (by decide)⟩

/-- C14 does not hold of the code once the node buffer has grown: on the
dictionary of one pattern of 50000 chars A `ULdna_init` succeeds, the state it
returns is a state of the builder with 50001 nodes, and node 50000, which is
not node 0, is the target of no child link of the buffer. -/
theorem C14_node_without_parent (g : State) :
    ∃ s, ULdna_init g [List.replicate 50000 65] = .ok s ∧ Reach s ∧
      s.ACnodebuf_count = 50001 ∧
      ∀ (i k : Nat), i < s.ACnodebuf.length → k < 4 →
        (s.node i).getLink k ≠ ((50000 : Nat) : Int) := by
  obtain ⟨s, h, hlen, _, _, hlinks, _⟩ := overflow_build g
  refine ⟨s, h, init_reach g _ s h, ?_, ?_⟩
  · unfold State.ACnodebuf_count
    rw [hlen]
    rfl
  · intro i k _ hk e
    rcases hlinks i k hk with e1 | ⟨j, e1, hj⟩
    · rw [e1] at e
      omega
    · rw [e1] at e
      omega

/-- C16: in every state `ULdna_init` goes through, after the root creation and
after each successful `ACnodebuf_addPattern`, node 0 exists and its `P_id` is
the absent value `-1`. -/
theorem C16_root_has_no_pattern_id (s : State) (h : Reach s) :
    ∃ nd, s.ACnodebuf[0]? = some nd ∧ nd.P_id = -1 := by
  have hR := reach_rinv h
  exact ⟨s.node 0, node_some s 0 hR.up.1, hR.rootId⟩

/-- Witness of C16 on the state `ULdna_init` returns on AC, AG, AC. -/
theorem C16_root_has_no_pattern_id_witness :
    ∃ nd, scenarioState.ACnodebuf[0]? = some nd ∧ nd.P_id = -1 :=
  C16_root_has_no_pattern_id scenarioState
    (init_reach zeroStatics [[65, 67], [65, 71], [65, 67]] scenarioState rfl)

/-! ## Claim on leaves and depth -/

/-- After a successful `ULdna_init` on a non-empty dictionary that has built at
most 50000 nodes (the first capacity of the node buffer), with `L` the length
of its patterns: the nodes whose `P_id` is not `-1` are exactly the nodes whose
four child links are all `-1`, these are exactly the nodes at depth `L` from
node 0, and every node at a depth less than `L` has at least one child and
`P_id = -1`. -/
theorem leaves_within_capacity (g : State) (d : List Pattern) (s : State)
    (hne : d ≠ []) (h : ULdna_init g d = .ok s) (hcap : s.ACnodebuf_count ≤ 50000) :
    ∃ L : Nat, (∀ P, P ∈ d → P.length = L) ∧ s.ACnodebuf_pattern_length = (L : Int) ∧
      ∀ t, t < s.ACnodebuf.length →
        ((s.node t).P_id ≠ -1 ↔ ∀ k, k < 4 → (s.node t).getLink k = -1) ∧
        ((∀ k, k < 4 → (s.node t).getLink k = -1) ↔ AtDepth s t L) ∧
        (∀ m, m < L → AtDepth s t m →
          (∃ k, k < 4 ∧ (s.node t).getLink k ≠ -1) ∧ (s.node t).P_id = -1) := by
  cases d with
  | nil => exact absurd rfl hne
  | cons P rest =>
    obtain ⟨_, dep, hD, hp⟩ := init_dep g P rest s h hcap
    obtain ⟨_, _, _, _, hlen⟩ := init_ok_facts g (P :: rest) s h
    refine ⟨P.length, ?_, hp, ?_⟩
    · intro Q hQ
      have := (hlen Q hQ).1
      rw [hp] at this
      exact_mod_cast this
    · intro t ht
      have hs := hD.all t ht
      have hle := hD.dle t ht
      have hdep : ∀ {m}, AtDepth s t m → dep t = m := atDepth_dep hD.d0 hD.dlink
      have hleafdep : (∀ k, k < 4 → (s.node t).getLink k = -1) → dep t = P.length := by
        intro hall
        by_contra hnl
        obtain ⟨⟨k, hk, hnek⟩, _⟩ := hs.1 (by omega)
        exact hnek (hall k hk)
      refine ⟨⟨?_, ?_⟩, ⟨?_, ?_⟩, ?_⟩
      · intro hpid
        have : dep t = P.length := by
          by_contra hnl
          exact hpid (hs.1 (by omega)).2
        exact (hs.2 this).1
      · intro hall
        exact (hs.2 (hleafdep hall)).2
      · intro hall
        have := hD.reach t ht
        rw [hleafdep hall] at this
        exact this
      · intro hat
        exact (hs.2 (hdep hat)).1
      · intro m hm hat
        exact hs.1 (by rw [hdep hat]; exact hm)

/-- The same on the dictionary AC, AG, AC, which builds 4 nodes. -/
theorem leaves_within_capacity_scenario :
    ∃ L : Nat, (∀ P, P ∈ ([[65, 67], [65, 71], [65, 67]] : List Pattern) → P.length = L) ∧
      scenarioState.ACnodebuf_pattern_length = (L : Int) ∧
      ∀ t, t < scenarioState.ACnodebuf.length →
        ((scenarioState.node t).P_id ≠ -1 ↔
          ∀ k, k < 4 → (scenarioState.node t).getLink k = -1) ∧
        ((∀ k, k < 4 → (scenarioState.node t).getLink k = -1) ↔ AtDepth scenarioState t L) ∧
        (∀ m, m < L → AtDepth scenarioState t m →
          (∃ k, k < 4 ∧ (scenarioState.node t).getLink k ≠ -1) ∧
            (scenarioState.node t).P_id = -1) :=
  leaves_within_capacity zeroStatics [[65, 67], [65, 71], [65, 67]] scenarioState
    (by decide) rfl (by decide)

/-- C19 does not hold of the code once the node buffer has grown: on the
dictionary of one pattern of 50000 chars A `ULdna_init` succeeds with the fixed
length 50000; node 49999 has its four child links `-1` and no pattern id; and
node 50000, which holds the pattern id 1, is at no depth from node 0. -/
theorem C19_childless_node_without_id (g : State) :
    ∃ s, ULdna_init g [List.replicate 50000 65] = .ok s ∧
      s.ACnodebuf_pattern_length = 50000 ∧ 50000 < s.ACnodebuf.length ∧
      (∀ k, k < 4 → (s.node 49999).getLink k = -1) ∧ (s.node 49999).P_id = -1 ∧
      (s.node 50000).P_id = 1 ∧ ∀ m, ¬ AtDepth s 50000 m := by
  obtain ⟨s, h, hlen, _, hplen, hlinks, hleaf, hid, hid2, _⟩ := overflow_build g
  refine ⟨s, h, hplen, by omega, hleaf, hid, hid2, ?_⟩
  intro m hd
  generalize ht : (50000 : Nat) = t at hd
  cases hd with
  | root => omega
  | @child i m1 k _ hk hne =>
    rcases hlinks i k hk with e1 | ⟨j, e1, hj⟩
    · exact hne e1
    · rw [e1] at ht
      simp only [Int.toNat_ofNat] at ht
      omega

/-! ## Claims on the duplicate output and on the prefixes -/

/-- C11, as the code has it: after a successful `ULdna_init` on a dictionary in
which no char has the code `-1`, that has built at most 50000 nodes (the first
capacity of the node buffer), the lines of `dupsbuf`, in order, are the
classes of ordinals of equal patterns that hold at least two ordinals: every
line is the list of the ordinals of one pattern that occurs at least twice,
every such pattern has its line, each line is strictly increasing with positive
values, no ordinal is in two lines, no two lines have the same first value, and
the second values increase along the lines.  A dictionary of pairwise distinct
patterns gives no line. -/
theorem C11_duplicate_output (g : State) (d : List Pattern) (s : State)
    (h : ULdna_init g d = .ok s) (hs : ∀ P, P ∈ d → ∀ c, c ∈ P → c ≠ -1)
    (hcap : s.ACnodebuf_count ≤ 50000) :
    (∀ v, v ∈ s.dupsbuf.map DupsBufLine.vals →
      ∃ P, P ∈ d ∧ v = ordinalsOf P d ∧ 2 ≤ v.length) ∧
    (∀ P, P ∈ d → 2 ≤ (ordinalsOf P d).length →
      ordinalsOf P d ∈ s.dupsbuf.map DupsBufLine.vals) ∧
    (∀ v, v ∈ s.dupsbuf.map DupsBufLine.vals →
      v.Pairwise (fun a b => a < b) ∧ ∀ x, x ∈ v → 0 < x) ∧
    (s.dupsbuf.map DupsBufLine.vals).Pairwise (fun a b => ∀ x, x ∈ a → x ∉ b) ∧
    ((s.dupsbuf.map DupsBufLine.vals).map List.head?).Nodup ∧
    ((s.dupsbuf.map DupsBufLine.vals).map (fun v => v[1]?.getD 0)).Pairwise
      (fun a b => a < b) ∧
    (d.Nodup → s.dupsbuf = []) := by
  have hX := init_dupX g d s h hs hcap
  refine ⟨hX.lines, hX.classes, ?_, ?_, hX.heads, hX.seconds, ?_⟩
  · intro v hv
    obtain ⟨P, _, e, _⟩ := hX.lines v hv
    rw [e]
    exact ⟨ordinalsOf_sorted P d, fun x hx => (ordinalsOf_le hx).1⟩
  · have hp := List.pairwise_map.1 hX.heads
    refine hp.imp_of_mem ?_
    intro a b ha hb hne x hxa hxb
    obtain ⟨P, _, ea, _⟩ := hX.lines a ha
    obtain ⟨Q, _, eb, _⟩ := hX.lines b hb
    rw [ea] at hxa
    rw [eb] at hxb
    have := ordinalsOf_inj hxa hxb
    rw [ea, eb, this] at hne
    exact hne rfl
  · intro hnd
    have hnil : s.dupsbuf.map DupsBufLine.vals = [] := by
      rw [List.eq_nil_iff_forall_not_mem]
      intro v hv
      obtain ⟨P, _, e, hl⟩ := hX.lines v hv
      rw [e] at hl
      have h0 : 0 < (ordinalsOf P d).length := by omega
      have h1 : 1 < (ordinalsOf P d).length := by omega
      obtain ⟨k0, hk0, e0, x0⟩ := ordinalsOf_mem.1 (List.getElem_mem h0)
      obtain ⟨k1, _, e1, x1⟩ := ordinalsOf_mem.1 (List.getElem_mem h1)
      have hlt := List.pairwise_iff_getElem.1 (ordinalsOf_sorted P d) 0 1 h0 h1 (by omega)
      have := List.getElem?_inj hk0 hnd (e0.trans e1.symm)
      omega
    exact List.map_eq_nil_iff.1 hnil

/-- Witness of C11 on the dictionary AC, AG, AC: the only line is 1, 3. -/
theorem C11_duplicate_output_witness :
    ULdna_init zeroStatics [[65, 67], [65, 71], [65, 67]] = .ok scenarioState ∧
    scenarioState.dupsbuf.map DupsBufLine.vals = [[1, 3]] ∧
    (∀ v, v ∈ scenarioState.dupsbuf.map DupsBufLine.vals →
      ∃ P, P ∈ ([[65, 67], [65, 71], [65, 67]] : List Pattern) ∧
        v = ordinalsOf P [[65, 67], [65, 71], [65, 67]] ∧ 2 ≤ v.length) :=
  ⟨rfl, rfl, (C11_duplicate_output zeroStatics [[65, 67], [65, 71], [65, 67]] scenarioState rfl
    (by decide) (by decide)).1⟩

/-- C11 as stated fails when a char has the code `-1`: the patterns of the
dictionary `-1`, A are pairwise distinct, and the duplicate output is the line
1, 2. -/
theorem C11_sentinel_char_makes_duplicates :
    ([[-1], [65]] : List Pattern).Nodup ∧
    ∃ s, ULdna_init zeroStatics [[-1], [65]] = .ok s ∧
      s.dupsbuf.map DupsBufLine.vals = [[1, 2]] ∧
      ordinalsOf [-1] [[-1], [65]] = [1] ∧ ordinalsOf [65] [[-1], [65]] = [2] :=
  ⟨by decide, _, rfl, rfl, by decide, by decide⟩

/-- After a successful `ULdna_init` on a dictionary in which no char has the
code `-1`, that has built at most 50000 nodes (the first capacity of the node
buffer), the number of nodes is 1 plus the number of distinct non-empty char
sequences that start a pattern of the dictionary, and a path of chars `s1..sk`
(`k ≥ 1`) from node 0, each char through the slot bound to it, exists exactly
when `s1..sk` starts some pattern; for a non-empty dictionary this also holds
of the empty path. -/
theorem prefixes_within_capacity (g : State) (d : List Pattern) (s : State)
    (h : ULdna_init g d = .ok s) (hs : ∀ P, P ∈ d → ∀ c, c ∈ P → c ≠ -1)
    (hcap : s.ACnodebuf_count ≤ 50000) :
    s.ACnodebuf_count = 1 + (((d.flatMap List.inits).toFinset.erase []).card : Int) ∧
    (∀ Q : List Int, Q ≠ [] →
      ((∃ t, walk s 0 Q = some t ∧ t < s.ACnodebuf.length) ↔ ∃ P, P ∈ d ∧ Q <+: P)) ∧
    (d ≠ [] → ∀ Q : List Int,
      ((∃ t, walk s 0 Q = some t ∧ t < s.ACnodebuf.length) ↔ ∃ P, P ∈ d ∧ Q <+: P)) := by
  obtain ⟨F, lab, hP⟩ := init_pinv g d s h hs hcap
  obtain ⟨F1, lab1, hD⟩ := init_dinv g d s h hs hcap
  have hcomp : ∀ P, P ∈ d → ∃ t, walk s 0 P = some t := by
    intro P hPd
    obtain ⟨t, w, _⟩ := hD.complete P hPd
    exact ⟨t, w⟩
  have hpath : ∀ Q : List Int, (∃ t, walk s 0 Q = some t ∧ t < s.ACnodebuf.length) ↔
      (Q = [] ∨ ∃ P, P ∈ d ∧ Q <+: P) := by
    intro Q
    rw [← pinv_paths hP hcomp Q]
    constructor
    · rintro ⟨t, w, _⟩
      exact ⟨t, w⟩
    · rintro ⟨t, w⟩
      exact ⟨t, w, walk_lt hP.tinv Q 0 t hP.tinv.links.1 w⟩
  refine ⟨?_, ?_, ?_⟩
  · unfold State.ACnodebuf_count
    rw [pinv_count hP hcomp]
    push_cast
    rfl
  · intro Q hQ
    rw [hpath Q]
    constructor
    · rintro (e | e)
      · exact absurd e hQ
      · exact e
    · exact fun e => Or.inr e
  · intro hne Q
    rw [hpath Q]
    constructor
    · rintro (e | e)
      · cases d with
        | nil => exact absurd rfl hne
        | cons P rest => exact ⟨P, List.mem_cons_self _ _, by rw [e]; exact ⟨P, rfl⟩⟩
      · exact e
    · exact fun e => Or.inr e

/-- The same on the dictionary AC, AG, AC: 4 nodes for the 3 non-empty starts A,
AC, AG. -/
theorem prefixes_within_capacity_scenario :
    ULdna_init zeroStatics [[65, 67], [65, 71], [65, 67]] = .ok scenarioState ∧
    scenarioState.ACnodebuf_count = 1 +
      (((([[65, 67], [65, 71], [65, 67]] : List Pattern).flatMap List.inits).toFinset.erase
        []).card : Int) :=
  ⟨rfl, (prefixes_within_capacity zeroStatics [[65, 67], [65, 71], [65, 67]] scenarioState
    rfl (by decide) (by decide)).1⟩

/-- C18 does not hold of the code once the node buffer has grown: on the
dictionary of one pattern of 50000 chars A, none of code `-1`, `ULdna_init`
succeeds and builds 50001 nodes, but no path from node 0 reads the pattern,
which starts a pattern of the dictionary: the path of its first 49999 chars
ends at node 49999, whose link for A is `-1`. -/
theorem C18_pattern_without_path (g : State) :
    ∃ s, ULdna_init g [List.replicate 50000 65] = .ok s ∧
      (∀ P, P ∈ [List.replicate 50000 (65 : Int)] → ∀ c, c ∈ P → c ≠ -1) ∧
      (∃ P, P ∈ [List.replicate 50000 (65 : Int)] ∧ List.replicate 50000 65 <+: P) ∧
      s.ACnodebuf_count = 50001 ∧
      walk s 0 (List.replicate 49999 65) = some 49999 ∧
      walk s 0 (List.replicate 50000 65) = none := by
  obtain ⟨s, h, hlen, hcodes, _, _, hleaf, _, _, hwalk⟩ := overflow_build g
  refine ⟨s, h, ?_, ⟨_, List.mem_singleton_self _, List.prefix_refl _⟩, ?_, hwalk, ?_⟩
  · intro P hP c hc
    rw [List.mem_singleton] at hP
    rw [hP] at hc
    rw [List.eq_of_mem_replicate hc]
    decide
  · unfold State.ACnodebuf_count
    rw [hlen]
    rfl
  · have hP : List.replicate 50000 (65 : Int) = List.replicate 49999 65 ++ [65] :=
      List.replicate_succ' 49999 65
    rw [hP, walk_append, hwalk]
    have hslot : slotOf s.ACnodebuf_base_codes 65 = some 0 := by
      rw [hcodes]
      exact (slotOf_pad good_A 65 (by decide) 0).2 rfl
    simp only [Option.some_bind, walk, hslot, hleaf 0 (by omega), if_true]

end ULdna
